import Mathlib

/-!
# Number-system tutorial: verification of the arithmetic core

A shallow embedding of the arithmetic and encoding routines of `src/script.js`
(two's-complement subtraction, one's-complement addition, BCD encode / decode /
add, Gray code, parity / checksum, positional base conversion) together with
theorems about them.

JavaScript strings are modelled as `List Char`.  JavaScript numbers are IEEE
doubles; every number that the modelled routines manipulate is a non-negative
integer, so a number is modelled as a `Nat`, and the one place where a double
cannot hold the integer exactly (`Number.parseInt` of a long numeral) is
modelled by the explicit rounding function `toDouble`.
-/

namespace NumberSystems

/-! ## JavaScript primitives used by the source -/

/-- Value of a character read as a digit in bases up to 36 (`0-9`, `a-z`,
`A-Z`); `36` stands for "not a digit". -/
def charDigit (c : Char) : Nat :=
  if 48 ≤ c.toNat ∧ c.toNat ≤ 57 then c.toNat - 48
  else if 97 ≤ c.toNat ∧ c.toNat ≤ 122 then c.toNat - 87
  else if 65 ≤ c.toNat ∧ c.toNat ≤ 90 then c.toNat - 55
  else 36

/-- The regular-expression test `/^[01]+$/.test(s)`. -/
def isBinary (s : List Char) : Bool :=
  !s.isEmpty && s.all (fun c => c == '0' || c == '1')

/-- The method `s.padStart(n, c)` for a one-character filler. -/
def padStart (n : Nat) (c : Char) (s : List Char) : List Char :=
  List.replicate (n - s.length) c ++ s

/-- The conversion `String(n)` of a non-negative integer, as performed by the
concatenation `n + str`. -/
def numToString (n : Nat) : List Char := Nat.toDigits 10 n

/-- The call `Number.parseInt(c)` on a one-character string holding a decimal
digit.  (On any other character JavaScript yields `NaN`; every caller modelled
here has validated its input beforehand, and the model yields `0` there.) -/
def parseIntChar (c : Char) : Nat :=
  if charDigit c < 10 then charDigit c else 0

/-- The exact integer denoted by a digit string in radix `r` (Horner scheme). -/
def radixValue (r : Nat) (s : List Char) : Nat :=
  s.foldl (fun acc c => acc * r + charDigit c) 0

/-- The map `bit => (bit === "0" ? "1" : "0")` used to flip a bit string. -/
def flipBit (c : Char) : Char := if c = '0' then '1' else '0'

/-- Number of binary digits of `n` (`0` for `0`), by halving with fuel. -/
def bitLenAux : Nat → Nat → Nat
  | 0, _ => 0
  | f + 1, n => if n = 0 then 0 else bitLenAux f (n / 2) + 1

/-- Number of binary digits of `n`. -/
def bitLen (n : Nat) : Nat := bitLenAux n n

/-- The double nearest to the non-negative integer `n` (round to nearest, ties
to even, 53-bit significand), for `n` below the overflow threshold `2^1024`.
Integers below `2^53` are doubles already. -/
def toDouble (n : Nat) : Nat :=
  if n < 2 ^ 53 then n
  else
    let e := bitLen n - 53
    let q := n / 2 ^ e
    let r := n % 2 ^ e
    let half := 2 ^ (e - 1)
    let q1 := if r < half then q else if r > half then q + 1
              else if q % 2 = 0 then q else q + 1
    q1 * 2 ^ e

/-- The call `Number.parseInt(s, r)` for an unsigned string `s` without
leading white space: the longest prefix of radix-`r` digits is read, exactly
for the power-of-two radices, and the integer is converted to a double.
`none` stands for `NaN` (no digit at the start).  The numeral is taken to be
below `2^1024`; beyond that JavaScript yields `Infinity`, which this function
does not represent. -/
def parseInt (r : Nat) (s : List Char) : Option Nat :=
  let ds := s.takeWhile (fun c => decide (charDigit c < r))
  if ds.isEmpty then none else some (toDouble (radixValue r ds))

/-- The conversion of a number to a string done by `join` and by template
literals: `NaN` prints as `NaN`, an integer below `2^53` as its decimal
numeral.  (From `2^53` on JavaScript prints the shortest digits that read back
as the same double; that range is not modelled.) -/
def numberToString : Option Nat → List Char
  | none => ['N', 'a', 'N']
  | some n => Nat.toDigits 10 n

/-- The method `n.toString(r)` on a non-negative integer. -/
def toStringRadix (r n : Nat) : List Char := Nat.toDigits r n

/-- The class `\s` of regular expressions, which is also what `trim` strips. -/
def isWhitespace (c : Char) : Bool :=
  (9 ≤ c.toNat && c.toNat ≤ 13) || c.toNat == 32 || c.toNat == 160 || c.toNat == 5760
    || (8192 ≤ c.toNat && c.toNat ≤ 8202) || c.toNat == 8232 || c.toNat == 8233
    || c.toNat == 8239 || c.toNat == 8287 || c.toNat == 12288 || c.toNat == 65279

/-- The method `s.trim()`. -/
def trim (s : List Char) : List Char :=
  ((s.dropWhile isWhitespace).reverse.dropWhile isWhitespace).reverse

/-- Worker of `splitWs`; the flag tells whether the previous character was
white space (so that a run of white space separates only once). -/
def splitWsGo : Bool → List Char → List (List Char)
  | _, [] => [[]]
  | inWs, c :: cs =>
    if isWhitespace c then
      if inWs then splitWsGo true cs else [] :: splitWsGo true cs
    else
      match splitWsGo false cs with
      | g :: gs => (c :: g) :: gs
      | [] => [[c]]

/-- The call `s.split(/\s+/)`. -/
def splitWs (s : List Char) : List (List Char) := splitWsGo false s

/-- The call `s.split(" ")`. -/
def splitSpace : List Char → List (List Char)
  | [] => [[]]
  | c :: cs =>
    if c = ' ' then [] :: splitSpace cs
    else
      match splitSpace cs with
      | g :: gs => (c :: g) :: gs
      | [] => [[c]]

/-- The method `parts.join(sep)`. -/
def join (sep : List Char) : List (List Char) → List Char
  | [] => []
  | [g] => g
  | g :: g2 :: gs => g ++ sep ++ join sep (g2 :: gs)

/-- A string all of whose characters are `0` or `1` (possibly empty). -/
def AllBits (s : List Char) : Prop := ∀ c ∈ s, c = '0' ∨ c = '1'

instance (s : List Char) : Decidable (AllBits s) := by
  unfold AllBits; infer_instance

/-! ## `TwosComplementCalculator` -/

namespace TwosComplementCalculator

/-- The calculator object: the fields that `calculate` and its helpers read or
write.  `finalCarry` is never initialised by the constructor, so it starts
out `undefined` (`none`). -/
structure State where
  minuend : List Char
  subtrahend : List Char
  onesComplement : List Char
  twosComplement : List Char
  result : List Char
  carry : List Char
  finalCarry : Option Nat
  isCalculated : Bool
  currentStep : Nat
deriving DecidableEq, Repr

/-- The state right after the constructor has run. -/
def init : State :=
  { minuend := [], subtrahend := [], onesComplement := [], twosComplement := [],
    result := [], carry := [], finalCarry := none, isCalculated := false,
    currentStep := 0 }

/-- The loop of `calculateTwosComplement`: `k` is `i + 1`, so the iteration
handles index `k - 1` and the loop stops at `k = 0`. -/
def incLoop (ones : List Char) : Nat → Nat → List Char → List Char × Nat
  | 0, carry, result => (result, carry)
  | k + 1, carry, result =>
    let sum := parseIntChar (ones.getD k '0') + carry
    incLoop ones k (sum / 2) (numToString (sum % 2) ++ result)

/-- The method `calculateTwosComplement`. -/
def calculateTwosComplement (st : State) : State :=
  let ones := st.subtrahend.map flipBit
  let r := incLoop ones ones.length 1 []
  { st with onesComplement := ones, twosComplement := r.1 }

/-- The loop of `performAddition`; the accumulator is
`(carry, result, carryString)`. -/
def addLoop (a b : List Char) : Nat → Nat → List Char → List Char →
    Nat × List Char × List Char
  | 0, carry, result, carryString => (carry, result, carryString)
  | k + 1, carry, result, carryString =>
    let bit1 := parseIntChar (a.getD k '0')
    let bit2 := parseIntChar (b.getD k '0')
    let sum := bit1 + bit2 + carry
    addLoop a b k (sum / 2) (numToString (sum % 2) ++ result)
      (numToString (sum / 2) ++ carryString)

/-- The carry out of the most-significant bit produced by `performAddition`
on the current `minuend` and `twosComplement`. -/
def carryOut (st : State) : Nat :=
  (addLoop st.minuend st.twosComplement st.minuend.length 0 [] []).1

/-- The method `performAddition`: `finalCarry` is assigned only when the
final carry is positive. -/
def performAddition (st : State) : State :=
  let r := addLoop st.minuend st.twosComplement st.minuend.length 0 [] []
  let st1 := { st with result := r.2.1, carry := r.2.2 }
  if r.1 > 0 then { st1 with finalCarry := some r.1 } else st1

/-- The method `calculate` on the two (already trimmed) input strings.  The
three validation failures leave the state untouched. -/
def calculate (st : State) (minuendInput subtrahendInput : List Char) : State :=
  if minuendInput.isEmpty || subtrahendInput.isEmpty then st
  else if !isBinary minuendInput || !isBinary subtrahendInput then st
  else if minuendInput.length > 8 || subtrahendInput.length > 8 then st
  else
    let maxLength := max 4 (max minuendInput.length subtrahendInput.length)
    let st1 := { st with minuend := padStart maxLength '0' minuendInput,
                         subtrahend := padStart maxLength '0' subtrahendInput }
    let st2 := performAddition (calculateTwosComplement st1)
    { st2 with isCalculated := true, currentStep := 0 }

/-- The truthiness test `if (this.finalCarry)` of `generateExplanation`. -/
def finalCarryTruthy (st : State) : Bool :=
  match st.finalCarry with
  | none => false
  | some c => c != 0

end TwosComplementCalculator

/-! ## `GrayCodeModule` -/

namespace GrayCodeModule

/-- The loop `for (let i = 1; i < binary.length; i++)` shared by
`convertBinaryToGray` and `binaryToGray`; the first argument counts the
iterations still to run. -/
def binaryToGrayLoop (binary : List Char) : Nat → Nat → List Char → List Char
  | 0, _, gray => gray
  | n + 1, i, gray =>
    let prevBit := binary.getD (i - 1) '0'
    let currBit := binary.getD i '0'
    let grayBit := if prevBit = currBit then '0' else '1'
    binaryToGrayLoop binary n (i + 1) (gray ++ [grayBit])

/-- The helper `binaryToGray`; `binary[0]` is the first character (of a
non-empty string). -/
def binaryToGray (binary : List Char) : List Char :=
  binaryToGrayLoop binary (binary.length - 1) 1 (binary.take 1)

/-- The value `gray` computed by `convertBinaryToGray`; `none` when the input
is rejected by the validity test. -/
def convertBinaryToGray (binary : List Char) : Option (List Char) :=
  if !isBinary binary then none
  else some (binaryToGrayLoop binary (binary.length - 1) 1 (binary.take 1))

/-- The loop of `convertGrayToBinary`, which reads back the bit it appended in
the previous iteration. -/
def grayToBinaryLoop (gray : List Char) : Nat → Nat → List Char → List Char
  | 0, _, binary => binary
  | n + 1, i, binary =>
    let prevBinaryBit := binary.getD (i - 1) '0'
    let currGrayBit := gray.getD i '0'
    let binaryBit := if prevBinaryBit = currGrayBit then '0' else '1'
    grayToBinaryLoop gray n (i + 1) (binary ++ [binaryBit])

/-- The value `binary` computed by `convertGrayToBinary`; `none` when the input
is rejected. -/
def convertGrayToBinary (gray : List Char) : Option (List Char) :=
  if !isBinary gray then none
  else some (grayToBinaryLoop gray (gray.length - 1) 1 (gray.take 1))

/-- The rows `(i, binary, gray)` of the table built by `generateCodeTable`. -/
def generateCodeTable : List (Nat × List Char × List Char) :=
  (List.range 16).map fun i =>
    let binary := padStart 4 '0' (toStringRadix 2 i)
    (i, binary, binaryToGray binary)

end GrayCodeModule

/-! ## `ParityBitsModule` -/

namespace ParityBitsModule

/-- The parity bit and the "complete data" string computed by
`calculateParity(type)`; `none` when the data is rejected. -/
def calculateParity (type data : List Char) : Option (Char × List Char) :=
  if !isBinary data then none
  else
    let ones := (data.filter (fun bit => bit == '1')).length
    let parityBit :=
      if type = ['e', 'v', 'e', 'n'] then (if ones % 2 = 0 then '0' else '1')
      else (if ones % 2 = 0 then '1' else '0')
    some (parityBit, data ++ [parityBit])

/-- The quantities displayed by `calculateChecksum`. -/
structure Checksum where
  sum : Nat
  checksum : List Char
  verification : Nat
deriving DecidableEq, Repr

/-- The expression `~x & 0xff` on a non-negative integer: the operand is
taken modulo `2^32`, complemented on 32 bits and masked. -/
def notAndFF (x : Nat) : Nat := (4294967295 - x % 4294967296) &&& 255

/-- The expression `x & 0xff` on a non-negative integer. -/
def andFF (x : Nat) : Nat := (x % 4294967296) &&& 255

/-- The function `calculateChecksum` on the (trimmed) input; `none` when an
alert is raised.  Bytes have passed the validity test when they are parsed. -/
def calculateChecksum (input : List Char) : Option Checksum :=
  let dataBytes := (splitSpace input).filter (fun byte => byte.length > 0)
  if dataBytes.length = 0 then none
  else if dataBytes.any (fun byte => !isBinary byte) then none
  else
    let sum := dataBytes.foldl
      (fun sum byte => toDouble (sum + (parseInt 2 byte).getD 0)) 0
    let checksum := padStart 8 '0' (toStringRadix 2 (notAndFF sum))
    let verification := andFF (toDouble (sum + (parseInt 2 checksum).getD 0))
    some { sum := sum, checksum := checksum, verification := verification }

end ParityBitsModule

/-! ## Notions used to state the properties -/

namespace GrayCodeModule

/-- The Gray bit at position `j ≥ 1` of `binary`, as computed by one iteration
of the binary-to-Gray loop. -/
def grayBitAt (binary : List Char) (j : Nat) : Char :=
  if binary.getD (j - 1) '0' = binary.getD j '0' then '0' else '1'

end GrayCodeModule

/-- Number of positions at which two strings differ (over their common
length). -/
def hammingDistance (s t : List Char) : Nat :=
  ((s.zip t).filter (fun p => p.1 != p.2)).length

/-- The `w`-bit binary string of `n`, as built by `generateCodeTable` for
`w = 4`: `n.toString(2).padStart(w, "0")`. -/
def toBinary (w n : Nat) : List Char := padStart w '0' (toStringRadix 2 n)

/-- Number of `1` characters of a string, counted as the source does
(`split("").filter((bit) => bit === "1").length`). -/
def countOnes (s : List Char) : Nat := (s.filter (fun bit => bit == '1')).length

/-! ## `OnesComplementModule` -/

namespace OnesComplementModule

/-- The fields of the object returned by `onesComplementAddition` (the
explanatory `steps` trace is left out). -/
structure AdditionResult where
  operand1 : List Char
  operand2 : List Char
  initialResult : List Char
  endAroundCarry : Nat
  finalResult : List Char
deriving DecidableEq, Repr

/-- The "Binary addition" loop of `onesComplementAddition`; `k` is `i + 1`. -/
def addLoop (a b : List Char) : Nat → Nat → List Char → List Char × Nat
  | 0, carry, result => (result, carry)
  | k + 1, carry, result =>
    let bit1 := parseIntChar (a.getD k '0')
    let bit2 := parseIntChar (b.getD k '0')
    let sum := bit1 + bit2 + carry
    addLoop a b k (sum / 2) (numToString (sum % 2) ++ result)

/-- The end-around-carry loop of `onesComplementAddition`; `k` is `i + 1`. -/
def endAroundLoop (result : List Char) : Nat → Nat → List Char → List Char × Nat
  | 0, endCarry, finalResult => (finalResult, endCarry)
  | k + 1, endCarry, finalResult =>
    let sum := parseIntChar (result.getD k '0') + endCarry
    endAroundLoop result k (sum / 2) (numToString (sum % 2) ++ finalResult)

/-- The method `onesComplementAddition`. -/
def onesComplementAddition (num1 num2 : List Char) : AdditionResult :=
  let maxLen := max num1.length num2.length
  let a := padStart maxLen '0' num1
  let b := padStart maxLen '0' num2
  let r := addLoop a b maxLen 0 []
  if r.2 = 1 then
    let f := endAroundLoop r.1 r.1.length 1 []
    { operand1 := a, operand2 := b, initialResult := r.1, endAroundCarry := r.2,
      finalResult := f.1 }
  else
    { operand1 := a, operand2 := b, initialResult := r.1, endAroundCarry := 0,
      finalResult := r.1 }

/-- The `complement` field of the object returned by `findOnesComplement`. -/
def findOnesComplement (binary : List Char) : List Char := binary.map flipBit

/-- The method `onesComplementSubtraction`. -/
def onesComplementSubtraction (num1 num2 : List Char) : AdditionResult :=
  onesComplementAddition num1 (findOnesComplement num2)

end OnesComplementModule

/-- One's-complement reading of a bit string: with most-significant bit `0`
the unsigned value, with most-significant bit `1` minus the value of the
bit-flipped string. -/
def onesComplementValue (s : List Char) : Int :=
  if s.head? = some '1' then -((radixValue 2 (s.map flipBit) : Nat) : Int)
  else ((radixValue 2 s : Nat) : Int)

/-! ## `BCDConversionModule` and `BCDArithmeticModule` -/

namespace BCDConversionModule

/-- The method `decimalToBCD` (its caller has checked `/^[0-9]+$/`). -/
def decimalToBCD (decimal : List Char) : List Char :=
  join [' '] (decimal.map fun digit => padStart 4 '0' (toStringRadix 2 (parseIntChar digit)))

end BCDConversionModule

namespace BCDArithmeticModule

/-- The method `isValidBCD`. -/
def isValidBCD (bcd : List Char) : Bool :=
  let groups := (splitWs (trim bcd)).filter (fun g => g.length > 0)
  groups.all fun group =>
    group.length == 4 && (group.all fun c => c == '0' || c == '1') &&
      (match parseInt 2 group with
       | some v => decide (v ≤ 9)
       | none => false)

/-- The method `bcdToDecimal`. -/
def bcdToDecimal (bcd : List Char) : List Char :=
  join [] ((splitWs (trim bcd)).map fun group => numberToString (parseInt 2 group))

/-- The loops `while (groups.length < maxLen) groups.unshift("0000")`. -/
def padGroups (maxLen : Nat) (groups : List (List Char)) : List (List Char) :=
  List.replicate (maxLen - groups.length) ['0', '0', '0', '0'] ++ groups

/-- The text of `(x).toString(2).padStart(4, "0")` for a possibly-`NaN`
number. -/
def groupString : Option Nat → List Char
  | some v => padStart 4 '0' (toStringRadix 2 v)
  | none => padStart 4 '0' ['N', 'a', 'N']

/-- One entry of the `steps` trace of `bcdAddition`. -/
structure Step where
  position : Nat
  digit1 : Option Nat
  digit2 : Option Nat
  carry : Option Nat
  sum : Option Nat
  needsCorrection : Bool
  correctedSum : Option Nat
deriving DecidableEq, Repr

/-- The loop state of `bcdAddition`. -/
structure LoopState where
  result : List (List Char)
  carry : Option Nat
  correctionApplied : Bool
  steps : List Step
deriving DecidableEq, Repr

/-- Addition of two numbers that may be `NaN`. -/
def numAdd (x y : Option Nat) : Option Nat :=
  match x, y with
  | some a, some b => some (a + b)
  | _, _ => none

/-- The comparison `x > n`, false on `NaN`. -/
def numGt (x : Option Nat) (n : Nat) : Bool :=
  match x with
  | some a => decide (a > n)
  | none => false

/-- The digit loop of `bcdAddition`; `k` is `i + 1`. -/
def addLoop (groups1 groups2 : List (List Char)) (maxLen : Nat) : Nat → LoopState → LoopState
  | 0, st => st
  | k + 1, st =>
    let digit1 := parseInt 2 (groups1.getD k [])
    let digit2 := parseInt 2 (groups2.getD k [])
    let sum := numAdd (numAdd digit1 digit2) st.carry
    let step : Step :=
      { position := maxLen - 1 - k, digit1 := digit1, digit2 := digit2, carry := st.carry,
        sum := sum, needsCorrection := numGt sum 9,
        correctedSum := if numGt sum 9 then numAdd sum (some 6) else sum }
    let sum1 := if numGt sum 9 then numAdd sum (some 6) else sum
    let correctionApplied := if numGt sum 9 then true else st.correctionApplied
    addLoop groups1 groups2 maxLen k
      { result := groupString (sum1.map (· % 16)) :: st.result,
        carry := sum1.map (· / 16),
        correctionApplied := correctionApplied,
        steps := st.steps ++ [step] }

/-- The variables `result`, `carry`, `correctionApplied` and `steps` of
`bcdAddition` when it reaches its `return`. -/
def bcdAdditionState (bcd1 bcd2 : List Char) : LoopState :=
  let groups1 := splitWs (trim bcd1)
  let groups2 := splitWs (trim bcd2)
  let maxLen := max groups1.length groups2.length
  let st := addLoop (padGroups maxLen groups1) (padGroups maxLen groups2) maxLen maxLen
    { result := [], carry := some 0, correctionApplied := false, steps := [] }
  if numGt st.carry 0 then { st with result := groupString st.carry :: st.result } else st

/-- The object returned by `bcdAddition`. -/
structure AdditionResult where
  bcd : List Char
  correctionApplied : Bool
  steps : List Step
deriving DecidableEq, Repr

/-- The method `bcdAddition`. -/
def bcdAddition (bcd1 bcd2 : List Char) : AdditionResult :=
  let st := bcdAdditionState bcd1 bcd2
  { bcd := join [' '] st.result,
    correctionApplied := st.correctionApplied,
    steps := st.steps }

/-- A 4-bit group with value 0..9. -/
def ValidGroup (g : List Char) : Prop := g.length = 4 ∧ AllBits g ∧ radixValue 2 g ≤ 9

instance (g : List Char) : Decidable (ValidGroup g) := by
  unfold ValidGroup; infer_instance

/-- An operand that consists of (at least one) 4-bit groups with values 0..9,
the groups being those the methods split off: `bcd.trim().split(/\s+/)`. -/
def ValidOperand (bcd : List Char) : Prop := ∀ g ∈ splitWs (trim bcd), ValidGroup g

instance (bcd : List Char) : Decidable (ValidOperand bcd) := by
  unfold ValidOperand; infer_instance

end BCDArithmeticModule

/-- A string without white space. -/
def NoWs (g : List Char) : Prop := ∀ c ∈ g, isWhitespace c = false

instance (g : List Char) : Decidable (NoWs g) := by
  unfold NoWs; infer_instance

/-- The regular-expression test `/^[0-9]+$/.test(s)`. -/
def isDecimal (s : List Char) : Bool :=
  !s.isEmpty && s.all (fun c => decide (48 ≤ c.toNat ∧ c.toNat ≤ 57))

/-! ## `BinaryConversionsModule`, `OctalConversionsModule`, `HexConversionsModule` -/

/-- A non-negative number as the positional breakdowns compute it: a finite
double holding an integer, `Infinity`, or `NaN`. -/
inductive JSNumber where
  | finite (n : Nat)
  | infinity
  | nan
deriving DecidableEq, Repr

/-- The number that an exact non-negative integer result rounds to: the
nearest double, and `Infinity` once that rounding reaches `2^1024` (which it
does from `2^1024 - 2^970` on). -/
def JSNumber.round (n : Nat) : JSNumber :=
  if toDouble n < 2 ^ 1024 then .finite (toDouble n) else .infinity

/-- The number returned by `Number.parseInt` (`none` is `NaN`). -/
def JSNumber.ofParseInt : Option Nat → JSNumber
  | none => .nan
  | some n => .finite n

/-- The product `x * y` of two non-negative numbers: `NaN` is absorbing,
`0 * Infinity` is `NaN`, and a finite product is rounded. -/
def JSNumber.mul : JSNumber → JSNumber → JSNumber
  | .nan, _ => .nan
  | _, .nan => .nan
  | .finite a, .finite b => JSNumber.round (a * b)
  | .finite a, .infinity => if a = 0 then .nan else .infinity
  | .infinity, .finite b => if b = 0 then .nan else .infinity
  | .infinity, .infinity => .infinity

/-- The exact sum of the listed numbers; `none` when one of them is `Infinity`
or `NaN`. -/
def JSNumber.exactSum : List JSNumber → Option Nat
  | [] => some 0
  | .finite n :: t => (JSNumber.exactSum t).map (fun m => n + m)
  | .infinity :: _ => none
  | .nan :: _ => none

/-- The call `Math.pow(b, p)` on non-negative integers: the power rounded to a
double, `Infinity` from `2^1024` on.  The callers pass the bases 2, 8 and 16,
whose powers are doubles already. -/
def mathPow (b p : Nat) : JSNumber := JSNumber.round (b ^ p)

/-- The method `x.toString(r)` for a possibly-`NaN` number holding an
integer. -/
def numberToStringRadix (r : Nat) : Option Nat → List Char
  | none => ['N', 'a', 'N']
  | some n => toStringRadix r n

/-- The method `s.toUpperCase()`. -/
def toUpperCase (s : List Char) : List Char := s.map Char.toUpper

/-- The regular-expression test `/^[0-7]+$/.test(s)`. -/
def isOctal (s : List Char) : Bool :=
  !s.isEmpty && s.all (fun c => decide (48 ≤ c.toNat ∧ c.toNat ≤ 55))

/-- The regular-expression test `/^[0-9A-F]+$/.test(s)`. -/
def isHex (s : List Char) : Bool :=
  !s.isEmpty && s.all (fun c => decide ((48 ≤ c.toNat ∧ c.toNat ≤ 57) ∨
    (65 ≤ c.toNat ∧ c.toNat ≤ 70)))

namespace BinaryConversionsModule

/-- What `performConversion` computes from an accepted input. -/
structure Conversion where
  decimal : Option Nat
  octal : List Char
  hex : List Char
deriving DecidableEq, Repr

/-- The method `performConversion` on the (trimmed) input; `none` when the
input is rejected. -/
def performConversion (binaryInput : List Char) : Option Conversion :=
  if binaryInput.isEmpty || !isBinary binaryInput then none
  else
    let decimal := parseInt 2 binaryInput
    some { decimal := decimal,
           octal := numberToStringRadix 8 decimal,
           hex := toUpperCase (numberToStringRadix 16 decimal) }

/-- The values listed by the loop of `showConversionSteps`, in the order of
the input characters. -/
def showConversionSteps (binary : List Char) : List JSNumber :=
  (List.range binary.length).map fun i =>
    let position := binary.length - 1 - i
    let bit := binary.getD i '0'
    if bit = '1' then mathPow 2 position else .finite 0

end BinaryConversionsModule

namespace OctalConversionsModule

/-- What `performConversion` computes from an accepted input. -/
structure Conversion where
  decimal : Option Nat
  binary : List Char
  hex : List Char
deriving DecidableEq, Repr

/-- The method `performConversion` on the (trimmed) input. -/
def performConversion (octalInput : List Char) : Option Conversion :=
  if octalInput.isEmpty || !isOctal octalInput then none
  else
    let decimal := parseInt 8 octalInput
    some { decimal := decimal,
           binary := numberToStringRadix 2 decimal,
           hex := toUpperCase (numberToStringRadix 16 decimal) }

/-- The values listed by the loop of `showConversionSteps`. -/
def showConversionSteps (octal : List Char) : List JSNumber :=
  (List.range octal.length).map fun i =>
    let position := octal.length - 1 - i
    let digit := octal.getD i '0'
    (JSNumber.ofParseInt (parseInt 10 [digit])).mul (mathPow 8 position)

end OctalConversionsModule

namespace HexConversionsModule

/-- What `performConversion` computes from an accepted input. -/
structure Conversion where
  decimal : Option Nat
  binary : List Char
  octal : List Char
deriving DecidableEq, Repr

/-- The method `performConversion` on the (trimmed) input. -/
def performConversion (hexInput : List Char) : Option Conversion :=
  if hexInput.isEmpty || !isHex hexInput then none
  else
    let decimal := parseInt 16 hexInput
    some { decimal := decimal,
           binary := numberToStringRadix 2 decimal,
           octal := numberToStringRadix 8 decimal }

/-- The values listed by the loop of `showConversionSteps`. -/
def showConversionSteps (hex : List Char) : List JSNumber :=
  (List.range hex.length).map fun i =>
    let position := hex.length - 1 - i
    let digit := hex.getD i '0'
    let digitValue := JSNumber.ofParseInt (parseInt 16 [digit])
    digitValue.mul (mathPow 16 position)

end HexConversionsModule

/-- The three source bases that have a converter module with a positional
breakdown. -/
inductive Base where
  | binary
  | octal
  | hexadecimal
deriving DecidableEq, Repr

/-- The radix of a base. -/
def Base.radix : Base → Nat
  | .binary => 2
  | .octal => 8
  | .hexadecimal => 16

/-- The validity test that the module of the base applies to its input. -/
def Base.accepts : Base → List Char → Bool
  | .binary, s => isBinary s
  | .octal, s => isOctal s
  | .hexadecimal, s => isHex s

/-- The `decimal` value computed by `performConversion` of the module of the
base (outer `none`: input rejected). -/
def Base.parsedDecimal : Base → List Char → Option (Option Nat)
  | .binary, s => (BinaryConversionsModule.performConversion s).map (fun r => r.decimal)
  | .octal, s => (OctalConversionsModule.performConversion s).map (fun r => r.decimal)
  | .hexadecimal, s => (HexConversionsModule.performConversion s).map (fun r => r.decimal)

/-- The contributions listed by `showConversionSteps` of the module of the
base. -/
def Base.contributions : Base → List Char → List JSNumber
  | .binary, s => BinaryConversionsModule.showConversionSteps s
  | .octal, s => OctalConversionsModule.showConversionSteps s
  | .hexadecimal, s => HexConversionsModule.showConversionSteps s

/-! ## Further methods: input validation, error detection, BCD subtraction -/

namespace TwosComplementCalculator

/-- The three `showError` exits of `calculate`, in source order: a missing
number, a character other than 0 and 1, more than 8 bits. -/
inductive Rejection where
  | missingInput
  | notBinary
  | tooLong
deriving DecidableEq, Repr

/-- The validation block of `calculate` on the trimmed inputs: which
`showError` exit is taken, `none` when the inputs pass. -/
def rejection (minuendInput subtrahendInput : List Char) : Option Rejection :=
  if minuendInput.isEmpty || subtrahendInput.isEmpty then some Rejection.missingInput
  else if !isBinary minuendInput || !isBinary subtrahendInput then some Rejection.notBinary
  else if minuendInput.length > 8 || subtrahendInput.length > 8 then some Rejection.tooLong
  else none

/-- The method `calculate` from the raw values of the two input fields, which
it trims first. -/
def calculateFromFields (st : State) (minuendValue subtrahendValue : List Char) : State :=
  calculate st (trim minuendValue) (trim subtrahendValue)

end TwosComplementCalculator

namespace ParityBitsModule

/-- The quantities computed by `detectError`. -/
structure Detection where
  originalOnes : Nat
  receivedOnes : Nat
  originalValid : Bool
  receivedValid : Bool
  errorDetected : Bool
  differences : List Nat
deriving DecidableEq, Repr

/-- The function `detectError(parityType)` on the two (trimmed) words; `none`
when an alert is raised. -/
def detectError (parityType original received : List Char) : Option Detection :=
  if !isBinary original || !isBinary received then none
  else if original.length ≠ received.length then none
  else
    let originalOnes := (original.filter (fun bit => bit == '1')).length
    let receivedOnes := (received.filter (fun bit => bit == '1')).length
    let originalValid :=
      if parityType = ['e', 'v', 'e', 'n'] then decide (originalOnes % 2 = 0)
      else decide (originalOnes % 2 = 1)
    let receivedValid :=
      if parityType = ['e', 'v', 'e', 'n'] then decide (receivedOnes % 2 = 0)
      else decide (receivedOnes % 2 = 1)
    let differences := (List.range original.length).filter
      (fun i => original.getD i '0' != received.getD i '0')
    some { originalOnes := originalOnes, receivedOnes := receivedOnes,
           originalValid := originalValid, receivedValid := receivedValid,
           errorDetected := !receivedValid, differences := differences }

end ParityBitsModule

namespace BCDArithmeticModule

/-- The text `"Negative result"`. -/
def negativeResult : List Char := "Negative result".toList

/-- The re-encoding `str.split("").map((digit) =>
Number.parseInt(digit).toString(2).padStart(4, "0")).join(" ")` of
`bcdSubtraction`. -/
def encodeDigits (str : List Char) : List Char :=
  join [' '] (str.map fun digit => groupString (parseInt 10 [digit]))

/-- The method `bcdSubtraction`.  The difference of the two parsed numbers is
a double again; `NaN` operands make every comparison false and print as
`NaN`. -/
def bcdSubtraction (bcd1 bcd2 : List Char) : AdditionResult :=
  let decimal1 := parseInt 10 (bcdToDecimal bcd1)
  let decimal2 := parseInt 10 (bcdToDecimal bcd2)
  match decimal1, decimal2 with
  | some d1, some d2 =>
    if d1 < d2 then
      { bcd := negativeResult, correctionApplied := false, steps := [] }
    else
      { bcd := encodeDigits (numberToString (some (toDouble (d1 - d2)))),
        correctionApplied := false, steps := [] }
  | _, _ =>
    { bcd := encodeDigits (numberToString none), correctionApplied := false, steps := [] }

/-- The decimal value of a sequence of BCD groups, each group read as one
decimal digit. -/
def bcdValue (groups : List (List Char)) : Nat :=
  groups.foldl (fun acc g => acc * 10 + radixValue 2 g) 0

/-- The groups of an operand, as every method splits them off. -/
def groupsOf (bcd : List Char) : List (List Char) := splitWs (trim bcd)

end BCDArithmeticModule

namespace BCDArithmeticModule

/-- The conversion of a string to a number done by the subtraction
`decimal1 - decimal2`, for strings without sign, white space, exponent or
prefix: the empty string is `0`, a digit string its (rounded) value, anything
else `NaN`. -/
def toNumber (s : List Char) : Option Nat :=
  if s.isEmpty then some 0
  else if s.all (fun c => decide (48 ≤ c.toNat ∧ c.toNat ≤ 57)) then
    some (toDouble (radixValue 10 s))
  else none

/-- The text of `decimal1 - decimal2` for two strings. -/
def differenceText (decimal1 decimal2 : List Char) : List Char :=
  match toNumber decimal1, toNumber decimal2 with
  | some x, some y =>
    if y ≤ x then numberToString (some (toDouble (x - y)))
    else '-' :: numberToString (some (toDouble (y - x)))
  | _, _ => numberToString none

/-- What `performArithmetic` hands to the display. -/
structure Outcome where
  result : AdditionResult
  decimalCheck : List Char
  correction : List Char
deriving DecidableEq, Repr

/-- The method `performArithmetic` for the current operation and the two
(trimmed) field values; `none` when it stops at `showError`.  In add mode
`decimal1 + decimal2` joins the two strings returned by `bcdToDecimal`. -/
def performArithmetic (currentOperation bcd1 bcd2 : List Char) : Option Outcome :=
  if !isValidBCD bcd1 || !isValidBCD bcd2 then none
  else
    let decimal1 := bcdToDecimal bcd1
    let decimal2 := bcdToDecimal bcd2
    if currentOperation = ['a', 'd', 'd'] then
      let result := bcdAddition bcd1 bcd2
      some { result := result, decimalCheck := decimal1 ++ decimal2,
             correction := if result.correctionApplied then ['Y', 'e', 's'] else ['N', 'o'] }
    else
      let result := bcdSubtraction bcd1 bcd2
      some { result := result, decimalCheck := differenceText decimal1 decimal2,
             correction := if result.correctionApplied then ['Y', 'e', 's'] else ['N', 'o'] }

end BCDArithmeticModule

namespace BCDArithmeticModule

/-- What a step of the trace records: the two digits at its position, the
carry that came in, their sum, and whether that sum exceeded 9. -/
def StepRecords (groups1 groups2 : List (List Char)) (maxLen : Nat) (s : Step) : Prop :=
  ∃ i c, i < maxLen ∧ s.position = maxLen - 1 - i ∧ c ≤ 1 ∧
    s.digit1 = some (radixValue 2 (groups1.getD i [])) ∧
    s.digit2 = some (radixValue 2 (groups2.getD i [])) ∧
    s.carry = some c ∧
    s.sum = some (radixValue 2 (groups1.getD i []) + radixValue 2 (groups2.getD i []) + c) ∧
    (s.needsCorrection = true ↔
      radixValue 2 (groups1.getD i []) + radixValue 2 (groups2.getD i []) + c > 9)

end BCDArithmeticModule

/-! ## Further methods: the addition columns, the verification, binary addition -/

namespace TwosComplementCalculator

/-- One column built by `createAdditionStepsVisualization`. -/
structure Column where
  bit1 : Char
  bit2 : Char
  carryIn : Nat
  sum : Nat
  result : Nat
  carryOut : Nat
deriving DecidableEq, Repr

/-- The columns built by `createAdditionStepsVisualization`, in the order of
the loop (`i = 0` is the most-significant bit).  The carry-in of column `i` is
read from `this.carry[i - 1]`. -/
def createAdditionStepsVisualization (st : State) : List Column :=
  (List.range st.minuend.length).map fun i =>
    let bit1 := st.minuend.getD i '0'
    let bit2 := st.twosComplement.getD i '0'
    let carryIn := if i > 0 then parseIntChar (st.carry.getD (i - 1) '0') else 0
    let sum := parseIntChar bit1 + parseIntChar bit2 + carryIn
    { bit1 := bit1, bit2 := bit2, carryIn := carryIn, sum := sum,
      result := sum % 2, carryOut := sum / 2 }

/-- The test `expectedResult === resultDecimal` of `showVerification`, which
selects between "Correct!" and "Check calculation"; a `NaN` on either side
makes it false. -/
def showVerification (st : State) : Bool :=
  match parseInt 2 st.minuend, parseInt 2 st.subtrahend, parseInt 2 st.result with
  | some minuendDecimal, some subtrahendDecimal, some resultDecimal =>
    decide ((minuendDecimal : Int) - (subtrahendDecimal : Int) = (resultDecimal : Int))
  | _, _, _ => false

end TwosComplementCalculator

namespace BinaryArithmeticModule

/-- The loop of `calculateBinaryAddition`; `k` is `i + 1`. -/
def additionLoop (a b : List Char) : Nat → Nat → List Char → List Char × Nat
  | 0, carry, result => (result, carry)
  | k + 1, carry, result =>
    let bitA := parseIntChar (a.getD k '0')
    let bitB := parseIntChar (b.getD k '0')
    let sum := bitA + bitB + carry
    let resultBit := sum % 2
    let newCarry := sum / 2
    additionLoop a b k newCarry (numToString resultBit ++ result)

/-- The `result` string and the final `carry` of `calculateBinaryAddition`
(the text it shows as "Final Result"; the explanatory steps are left out). -/
structure Addition where
  result : List Char
  carry : Nat
deriving DecidableEq, Repr

/-- The function `calculateBinaryAddition`. -/
def calculateBinaryAddition (num1 num2 : List Char) : Addition :=
  let maxLen := max num1.length num2.length
  let a := padStart maxLen '0' num1
  let b := padStart maxLen '0' num2
  let r := additionLoop a b maxLen 0 []
  if r.2 ≠ 0 then { result := numToString r.2 ++ r.1, carry := r.2 }
  else { result := r.1, carry := r.2 }

end BinaryArithmeticModule

/-- The character `1` for an odd number and `0` for an even one. -/
def parityChar (n : Nat) : Char := if n % 2 = 1 then '1' else '0'

/-- The XOR of the bits 0 through `i` of a bit string: `1` exactly when the
prefix of length `i + 1` holds an odd number of 1s. -/
def prefixXor (g : List Char) (i : Nat) : Char := parityChar (countOnes (g.take (i + 1)))

/-! ## Basic facts about the primitives -/

theorem isBinary_iff (s : List Char) : isBinary s = true ↔ s ≠ [] ∧ AllBits s := by
  cases s <;> simp [isBinary, AllBits]

theorem AllBits.nil : AllBits [] := by simp [AllBits]

theorem AllBits.cons_iff {c : Char} {s : List Char} :
    AllBits (c :: s) ↔ (c = '0' ∨ c = '1') ∧ AllBits s := by
  simp [AllBits]

theorem AllBits.append {s t : List Char} (hs : AllBits s) (ht : AllBits t) :
    AllBits (s ++ t) := by
  intro c hc
  rcases List.mem_append.1 hc with h | h
  · exact hs c h
  · exact ht c h

theorem AllBits.replicate_zero (n : Nat) : AllBits (List.replicate n '0') := by
  intro c hc
  exact Or.inl (List.eq_of_mem_replicate hc)

theorem AllBits.padStart {s : List Char} (hs : AllBits s) (n : Nat) :
    AllBits (padStart n '0' s) :=
  AllBits.append (AllBits.replicate_zero _) hs

theorem AllBits.getElem {s : List Char} (hs : AllBits s) {i : Nat} (h : i < s.length) :
    s[i] = '0' ∨ s[i] = '1' :=
  hs _ (List.getElem_mem h)

theorem radixValue_nil (r : Nat) : radixValue r [] = 0 := rfl

theorem radixValue_snoc (r : Nat) (s : List Char) (c : Char) :
    radixValue r (s ++ [c]) = radixValue r s * r + charDigit c := by
  simp [radixValue, List.foldl_append]

theorem radixValue_append (r : Nat) (s t : List Char) :
    radixValue r (s ++ t) = radixValue r s * r ^ t.length + radixValue r t := by
  induction t using List.reverseRecOn with
  | nil => simp [radixValue_nil]
  | append_singleton t c ih =>
    rw [← List.append_assoc, radixValue_snoc, ih, radixValue_snoc]
    simp [pow_succ]
    ring

theorem radixValue_singleton (r : Nat) (c : Char) : radixValue r [c] = charDigit c := by
  simp [radixValue]

theorem radixValue_replicate_zero (r n : Nat) :
    radixValue r (List.replicate n '0') = 0 := by
  induction n with
  | zero => rfl
  | succ n ih =>
    rw [List.replicate_succ', radixValue_snoc, ih]
    have : charDigit '0' = 0 := by decide
    omega

theorem radixValue_padStart (r n : Nat) (s : List Char) :
    radixValue r (padStart n '0' s) = radixValue r s := by
  simp [padStart, radixValue_append, radixValue_replicate_zero]

theorem length_padStart (n : Nat) (c : Char) (s : List Char) :
    (padStart n c s).length = max n s.length := by
  simp [padStart]
  omega

theorem radixValue_two_lt {s : List Char} (hs : AllBits s) :
    radixValue 2 s < 2 ^ s.length := by
  induction s using List.reverseRecOn with
  | nil => simp [radixValue_nil]
  | append_singleton s c ih =>
    have hs1 : AllBits s := fun x hx => hs x (List.mem_append_left _ hx)
    have hc : c = '0' ∨ c = '1' := hs c (by simp)
    have := ih hs1
    rw [radixValue_snoc, List.length_append, List.length_singleton, pow_succ]
    rcases hc with rfl | rfl
    · have : charDigit '0' = 0 := by decide
      omega
    · have : charDigit '1' = 1 := by decide
      omega

/-- One column of a ripple-carry adder on bit characters: the emitted
character is a bit and `value + 2 * carry` is the column sum. -/
theorem column_sum {x y : Char} (hx : x = '0' ∨ x = '1') (hy : y = '0' ∨ y = '1')
    {carry : Nat} (hc : carry ≤ 1) :
    ∃ d : Char, numToString ((parseIntChar x + parseIntChar y + carry) % 2) = [d] ∧
      (d = '0' ∨ d = '1') ∧
      charDigit d + 2 * ((parseIntChar x + parseIntChar y + carry) / 2)
        = charDigit x + charDigit y + carry ∧
      (parseIntChar x + parseIntChar y + carry) / 2 ≤ 1 := by
  have hcar : carry = 0 ∨ carry = 1 := by omega
  rcases hx with rfl | rfl <;> rcases hy with rfl | rfl <;> rcases hcar with rfl | rfl <;>
    first
      | exact ⟨'0', by decide, by decide, by decide, by decide⟩
      | exact ⟨'1', by decide, by decide, by decide, by decide⟩

/-- One column of the increment loop. -/
theorem column_inc {x : Char} (hx : x = '0' ∨ x = '1') {carry : Nat} (hc : carry ≤ 1) :
    ∃ d : Char, numToString ((parseIntChar x + carry) % 2) = [d] ∧
      (d = '0' ∨ d = '1') ∧
      charDigit d + 2 * ((parseIntChar x + carry) / 2) = charDigit x + carry ∧
      (parseIntChar x + carry) / 2 ≤ 1 := by
  have hcar : carry = 0 ∨ carry = 1 := by omega
  rcases hx with rfl | rfl <;> rcases hcar with rfl | rfl <;>
    first
      | exact ⟨'0', by decide, by decide, by decide, by decide⟩
      | exact ⟨'1', by decide, by decide, by decide, by decide⟩

theorem take_succ_getElem (s : List Char) (k : Nat) (h : k < s.length) :
    s.take (k + 1) = s.take k ++ [s[k]] := by
  rw [List.take_succ, List.getElem?_eq_getElem h]
  rfl

/-! ## The ripple-carry loops of `TwosComplementCalculator` -/

namespace TwosComplementCalculator

/-- Invariant of the increment loop: the emitted bits and the carry account
for the processed prefix plus the incoming carry. -/
theorem incLoop_spec (ones : List Char) (hones : AllBits ones) :
    ∀ (k carry : Nat) (result : List Char), k ≤ ones.length → carry ≤ 1 →
      AllBits result →
      (incLoop ones k carry result).1.length = k + result.length ∧
      AllBits (incLoop ones k carry result).1 ∧
      (incLoop ones k carry result).2 ≤ 1 ∧
      radixValue 2 (incLoop ones k carry result).1
          + (incLoop ones k carry result).2 * 2 ^ (k + result.length)
        = (radixValue 2 (ones.take k) + carry) * 2 ^ result.length
          + radixValue 2 result := by
  intro k
  induction k with
  | zero =>
    intro carry result _ hc hr
    simp [incLoop, hr, hc, radixValue_nil]
    ring
  | succ k ih =>
    intro carry result hk hc hr
    have hk1 : k < ones.length := hk
    obtain ⟨d, hd, hdb, hsum, hle⟩ := column_inc (hones.getElem hk1) hc
    have hr1 : AllBits (d :: result) := AllBits.cons_iff.2 ⟨hdb, hr⟩
    obtain ⟨h1, h2, h3, h4⟩ := ih ((parseIntChar ones[k] + carry) / 2) (d :: result)
      (Nat.le_of_lt hk1) hle hr1
    have hstep : incLoop ones (k + 1) carry result
        = incLoop ones k ((parseIntChar ones[k] + carry) / 2) (d :: result) := by
      simp only [incLoop, List.getD_eq_getElem ones '0' hk1, hd, List.singleton_append]
    rw [hstep]
    refine ⟨by rw [h1]; simp; omega, h2, h3, ?_⟩
    have hv : radixValue 2 (d :: result)
        = charDigit d * 2 ^ result.length + radixValue 2 result := by
      have := radixValue_append 2 [d] result
      rwa [radixValue_singleton] at this
    rw [take_succ_getElem ones k hk1, radixValue_snoc]
    simp only [List.length_cons] at h4
    have e1 : k + 1 + result.length = k + (result.length + 1) := by omega
    rw [e1, h4, hv, pow_succ]
    have hx : charDigit ones[k] + carry
        = charDigit d + 2 * ((parseIntChar ones[k] + carry) / 2) := hsum.symm
    generalize (parseIntChar ones[k] + carry) / 2 = c1 at hx
    have : (radixValue 2 (List.take k ones) * 2 + charDigit ones[k] + carry)
        = radixValue 2 (List.take k ones) * 2 + (charDigit d + 2 * c1) := by omega
    rw [this]
    ring

/-- Invariant of the addition loop of `performAddition`. -/
theorem addLoop_spec (a b : List Char) (ha : AllBits a) (hb : AllBits b) :
    ∀ (k carry : Nat) (result cs : List Char), k ≤ a.length → k ≤ b.length →
      carry ≤ 1 → AllBits result →
      (addLoop a b k carry result cs).2.1.length = k + result.length ∧
      AllBits (addLoop a b k carry result cs).2.1 ∧
      (addLoop a b k carry result cs).1 ≤ 1 ∧
      radixValue 2 (addLoop a b k carry result cs).2.1
          + (addLoop a b k carry result cs).1 * 2 ^ (k + result.length)
        = (radixValue 2 (a.take k) + radixValue 2 (b.take k) + carry)
            * 2 ^ result.length + radixValue 2 result := by
  intro k
  induction k with
  | zero =>
    intro carry result cs _ _ hc hr
    simp [addLoop, hr, hc, radixValue_nil]
    ring
  | succ k ih =>
    intro carry result cs hka hkb hc hr
    have hk1 : k < a.length := hka
    have hk2 : k < b.length := hkb
    obtain ⟨d, hd, hdb, hsum, hle⟩ := column_sum (ha.getElem hk1) (hb.getElem hk2) hc
    have hr1 : AllBits (d :: result) := AllBits.cons_iff.2 ⟨hdb, hr⟩
    obtain ⟨h1, h2, h3, h4⟩ := ih ((parseIntChar a[k] + parseIntChar b[k] + carry) / 2)
      (d :: result)
      (numToString ((parseIntChar a[k] + parseIntChar b[k] + carry) / 2) ++ cs)
      (Nat.le_of_lt hk1) (Nat.le_of_lt hk2) hle hr1
    have hstep : addLoop a b (k + 1) carry result cs
        = addLoop a b k ((parseIntChar a[k] + parseIntChar b[k] + carry) / 2) (d :: result)
            (numToString ((parseIntChar a[k] + parseIntChar b[k] + carry) / 2) ++ cs) := by
      simp only [addLoop, List.getD_eq_getElem a '0' hk1, List.getD_eq_getElem b '0' hk2, hd,
        List.singleton_append]
    rw [hstep]
    refine ⟨by rw [h1]; simp; omega, h2, h3, ?_⟩
    have hv : radixValue 2 (d :: result)
        = charDigit d * 2 ^ result.length + radixValue 2 result := by
      have := radixValue_append 2 [d] result
      rwa [radixValue_singleton] at this
    rw [take_succ_getElem a k hk1, take_succ_getElem b k hk2, radixValue_snoc, radixValue_snoc]
    simp only [List.length_cons] at h4
    have e1 : k + 1 + result.length = k + (result.length + 1) := by omega
    rw [e1, h4, hv, pow_succ]
    have hx : charDigit a[k] + charDigit b[k] + carry
        = charDigit d + 2 * ((parseIntChar a[k] + parseIntChar b[k] + carry) / 2) := hsum.symm
    generalize (parseIntChar a[k] + parseIntChar b[k] + carry) / 2 = c1 at hx
    have : radixValue 2 (List.take k a) * 2 + charDigit a[k]
          + (radixValue 2 (List.take k b) * 2 + charDigit b[k]) + carry
        = radixValue 2 (List.take k a) * 2 + radixValue 2 (List.take k b) * 2
          + (charDigit d + 2 * c1) := by omega
    rw [this]
    ring

/-- The flipped string has the complementary value. -/
theorem radixValue_map_flipBit {s : List Char} (hs : AllBits s) :
    radixValue 2 (s.map flipBit) + radixValue 2 s + 1 = 2 ^ s.length := by
  induction s using List.reverseRecOn with
  | nil => simp [radixValue_nil]
  | append_singleton s c ih =>
    have hs1 : AllBits s := fun x hx => hs x (List.mem_append_left _ hx)
    have hc : c = '0' ∨ c = '1' := hs c (by simp)
    have := ih hs1
    rw [List.map_append, List.map_singleton, radixValue_snoc, radixValue_snoc,
      List.length_append, List.length_singleton, pow_succ]
    rcases hc with rfl | rfl
    · have h0 : charDigit '0' = 0 := by decide
      have h1 : charDigit (flipBit '0') = 1 := by decide
      omega
    · have h0 : charDigit '1' = 1 := by decide
      have h1 : charDigit (flipBit '1') = 0 := by decide
      omega

theorem AllBits.map_flipBit (s : List Char) : AllBits (s.map flipBit) := by
  intro c hc
  obtain ⟨x, _, rfl⟩ := List.mem_map.1 hc
  unfold flipBit
  split <;> simp

/-- What `calculate` stores on accepted inputs, field by field. -/
theorem calculate_accepted (st : State) (a b : List Char)
    (ha : isBinary a = true) (hb : isBinary b = true)
    (hla : a.length ≤ 8) (hlb : b.length ≤ 8) :
    calculate st a b =
      { performAddition (calculateTwosComplement
          { st with minuend := padStart (max 4 (max a.length b.length)) '0' a,
                    subtrahend := padStart (max 4 (max a.length b.length)) '0' b })
        with isCalculated := true, currentStep := 0 } := by
  have ha1 : a ≠ [] := ((isBinary_iff a).1 ha).1
  have hb1 : b ≠ [] := ((isBinary_iff b).1 hb).1
  have e1 : a.isEmpty = false := by cases a <;> simp_all
  have e2 : b.isEmpty = false := by cases b <;> simp_all
  have e3 : ¬ (a.length > 8) := by omega
  have e4 : ¬ (b.length > 8) := by omega
  simp [calculate, e1, e2, ha, hb, e3, e4]

/-- The result field written by `performAddition`. -/
theorem performAddition_result (st : State) :
    (performAddition st).result
      = (addLoop st.minuend st.twosComplement st.minuend.length 0 [] []).2.1 := by
  unfold performAddition
  simp only
  split <;> rfl

/-- Arithmetic content of one accepted `calculate` call, in terms of the
padded width `w`. -/
theorem calculate_arith (st : State) (a b : List Char)
    (ha : isBinary a = true) (hb : isBinary b = true)
    (hla : a.length ≤ 8) (hlb : b.length ≤ 8) :
    (calculate st a b).result.length = max 4 (max a.length b.length) ∧
    AllBits (calculate st a b).result ∧
    ∃ c1 c2 : Nat, c1 ≤ 1 ∧ c2 ≤ 1 ∧
      c2 = carryOut (calculateTwosComplement
          { st with minuend := padStart (max 4 (max a.length b.length)) '0' a,
                    subtrahend := padStart (max 4 (max a.length b.length)) '0' b }) ∧
      radixValue 2 (calculate st a b).result + radixValue 2 b
          + (c1 + c2) * 2 ^ (max 4 (max a.length b.length))
        = radixValue 2 a + 2 ^ (max 4 (max a.length b.length)) := by
  rw [calculate_accepted st a b ha hb hla hlb]
  set w := max 4 (max a.length b.length) with hw
  have hab : AllBits a := ((isBinary_iff a).1 ha).2
  have hbb : AllBits b := ((isBinary_iff b).1 hb).2
  have hlm : (padStart w '0' a).length = w := by rw [length_padStart]; omega
  have hls : (padStart w '0' b).length = w := by rw [length_padStart]; omega
  have hones : AllBits ((padStart w '0' b).map flipBit) := AllBits.map_flipBit _
  have hflip := radixValue_map_flipBit (hbb.padStart w)
  rw [radixValue_padStart, hls] at hflip
  obtain ⟨i1, i2, i3, i4⟩ := incLoop_spec _ hones ((padStart w '0' b).map flipBit).length 1 []
    (Nat.le_refl _) (Nat.le_refl _) AllBits.nil
  simp only [List.length_map, hls, List.length_nil, Nat.add_zero, pow_zero, Nat.mul_one,
    radixValue_nil] at i1 i4
  have htake : List.take w ((padStart w '0' b).map flipBit) = (padStart w '0' b).map flipBit := by
    apply List.take_of_length_le
    simp [hls]
  rw [htake] at i4
  obtain ⟨j1, j2, j3, j4⟩ := addLoop_spec (padStart w '0' a)
    (incLoop ((padStart w '0' b).map flipBit) ((padStart w '0' b).map flipBit).length 1 []).1
    (hab.padStart w) i2 w 0 [] [] (by omega) (by rw [List.length_map, hls, i1]) (by omega)
    AllBits.nil
  simp only [List.length_nil, Nat.add_zero, pow_zero, Nat.mul_one, radixValue_nil] at j1 j4
  have htake1 : List.take w (padStart w '0' a) = padStart w '0' a :=
    List.take_of_length_le (by omega)
  have htake2 : List.take w
      (incLoop ((padStart w '0' b).map flipBit) ((padStart w '0' b).map flipBit).length 1 []).1
      = (incLoop ((padStart w '0' b).map flipBit)
          ((padStart w '0' b).map flipBit).length 1 []).1 :=
    List.take_of_length_le (by simp only [List.length_map, hls]; omega)
  rw [htake1, htake2, radixValue_padStart] at j4
  simp only [performAddition_result, calculateTwosComplement, hlm, carryOut]
  simp only [List.length_map, hls] at i1 i2 i3 i4 j1 j2 j3 j4 ⊢
  refine ⟨j1, j2, _, _, i3, j3, rfl, ?_⟩
  rw [Nat.add_mul]
  omega

end TwosComplementCalculator

/-! ## Two's-complement subtraction -/

/-- C1: for binary strings `a`, `b` of 1 to 8 bits, `calculate` pads both to
`w = max(4, |a|, |b|)` and leaves in `result` a string of exactly `w` bits whose
unsigned value is `(value(a) - value(b)) mod 2^w`. -/
theorem calculate_result_is_difference_mod (st : TwosComplementCalculator.State)
    (a b : List Char) (ha : isBinary a = true) (hb : isBinary b = true)
    (hla : a.length ≤ 8) (hlb : b.length ≤ 8) :
    (TwosComplementCalculator.calculate st a b).result.length
        = max 4 (max a.length b.length) ∧
    AllBits (TwosComplementCalculator.calculate st a b).result ∧
    (radixValue 2 (TwosComplementCalculator.calculate st a b).result : Int)
        = ((radixValue 2 a : Int) - (radixValue 2 b : Int))
            % 2 ^ (max 4 (max a.length b.length)) := by
  obtain ⟨h1, h2, c1, c2, _, _, _, h3⟩ :=
    TwosComplementCalculator.calculate_arith st a b ha hb hla hlb
  refine ⟨h1, h2, ?_⟩
  have hlt := radixValue_two_lt h2
  rw [h1] at hlt
  set w := max 4 (max a.length b.length)
  set R := radixValue 2 (TwosComplementCalculator.calculate st a b).result
  have h3i : (R : Int) = (radixValue 2 a : Int) - (radixValue 2 b : Int)
      + (1 - ((c1 : Int) + c2)) * 2 ^ w := by
    have : ((R + radixValue 2 b + (c1 + c2) * 2 ^ w : Nat) : Int)
        = ((radixValue 2 a + 2 ^ w : Nat) : Int) := by rw [h3]
    push_cast at this
    linarith
  have hlti : (R : Int) < 2 ^ w := by exact_mod_cast hlt
  have hnn : (0 : Int) ≤ R := Int.ofNat_nonneg _
  rw [← Int.emod_eq_of_lt hnn hlti, h3i, Int.add_mul_emod_self]

/-- C1 witness: `1101 - 0011` gives `1010`. -/
theorem calculate_result_is_difference_mod_witness :
    (TwosComplementCalculator.calculate TwosComplementCalculator.init
        "1101".toList "0011".toList).result = "1010".toList ∧
    (radixValue 2 "1010".toList : Int)
      = ((radixValue 2 "1101".toList : Int) - (radixValue 2 "0011".toList : Int)) % 2 ^ 4 := by
  have h := calculate_result_is_difference_mod TwosComplementCalculator.init
    "1101".toList "0011".toList (by decide) (by decide) (by decide) (by decide)
  have e : (TwosComplementCalculator.calculate TwosComplementCalculator.init
        "1101".toList "0011".toList).result = "1010".toList := by decide
  refine ⟨e, ?_⟩
  have h3 := h.2.2
  rw [e] at h3
  exact h3

/-! ## Gray code -/

namespace GrayCodeModule

/-- Closed form of the binary-to-Gray loop. -/
theorem binaryToGrayLoop_eq (binary : List Char) :
    ∀ (n i : Nat) (gray : List Char),
      binaryToGrayLoop binary n i gray
        = gray ++ (List.range' i n).map (grayBitAt binary) := by
  intro n
  induction n with
  | zero => intro i gray; simp [binaryToGrayLoop]
  | succ n ih =>
    intro i gray
    simp only [binaryToGrayLoop, ih, List.range'_succ, List.map_cons, grayBitAt,
      List.append_assoc, List.singleton_append]

theorem binaryToGray_eq (binary : List Char) :
    binaryToGray binary
      = binary.take 1 ++ (List.range' 1 (binary.length - 1)).map (grayBitAt binary) :=
  binaryToGrayLoop_eq binary _ _ _

theorem length_binaryToGray (binary : List Char) :
    (binaryToGray binary).length = binary.length := by
  rw [binaryToGray_eq]
  cases binary <;> simp

theorem grayBitAt_bit (binary : List Char) (j : Nat) :
    grayBitAt binary j = '0' ∨ grayBitAt binary j = '1' := by
  unfold grayBitAt
  split <;> simp

theorem allBits_binaryToGray {binary : List Char} (h : AllBits binary) :
    AllBits (binaryToGray binary) := by
  rw [binaryToGray_eq]
  apply AllBits.append
  · intro c hc
    exact h c (List.mem_of_mem_take hc)
  · intro c hc
    obtain ⟨j, _, rfl⟩ := List.mem_map.1 hc
    exact grayBitAt_bit binary j

theorem getD_binaryToGray (binary : List Char) (i : Nat) (h1 : 1 ≤ i)
    (h2 : i < binary.length) :
    (binaryToGray binary).getD i '0' = grayBitAt binary i := by
  rw [binaryToGray_eq]
  have hl : (binary.take 1).length = 1 := by
    rw [List.length_take]; omega
  rw [List.getD_append_right _ _ _ _ (by omega), hl]
  rw [List.getD_eq_getElem _ _ (by simp; omega)]
  simp
  congr 1
  omega

/-- The Gray-to-binary loop run on the Gray code of `x` rebuilds `x`. -/
theorem grayToBinaryLoop_binaryToGray (x : List Char) (hx : AllBits x) :
    ∀ (n i : Nat) (acc : List Char), 1 ≤ i → i + n = x.length → acc = x.take i →
      grayToBinaryLoop (binaryToGray x) n i acc = x := by
  intro n
  induction n with
  | zero =>
    intro i acc _ hlen hacc
    simp only [grayToBinaryLoop, hacc]
    exact List.take_of_length_le (by omega)
  | succ n ih =>
    intro i acc hi hlen hacc
    have hil : i < x.length := by omega
    simp only [grayToBinaryLoop]
    apply ih (i + 1) _ (by omega) (by omega)
    rw [take_succ_getElem x i hil, hacc]
    congr 1
    rw [getD_binaryToGray x i hi hil]
    have hp : (List.take i x).getD (i - 1) '0' = x.getD (i - 1) '0' := by
      rw [List.getD_eq_getElem?_getD, List.getD_eq_getElem?_getD, List.getElem?_take_of_lt (by omega)]
    rw [hp]
    unfold grayBitAt
    rw [List.getD_eq_getElem x '0' hil, List.getD_eq_getElem x '0' (by omega : i - 1 < x.length)]
    have b1 := hx.getElem (by omega : i - 1 < x.length)
    have b2 := hx.getElem hil
    rcases b1 with e1 | e1 <;> rcases b2 with e2 | e2 <;> simp [e1, e2]

end GrayCodeModule

/-- C2: for every non-empty string `x` of 0s and 1s, `convertBinaryToGray`
accepts `x` and `convertGrayToBinary` run on the Gray code it computed
returns `x` itself. -/
theorem gray_round_trip (x : List Char) (hx : isBinary x = true) :
    ∃ g, GrayCodeModule.convertBinaryToGray x = some g ∧
      GrayCodeModule.convertGrayToBinary g = some x := by
  obtain ⟨hne, hb⟩ := (isBinary_iff x).1 hx
  refine ⟨GrayCodeModule.binaryToGray x, ?_, ?_⟩
  · simp [GrayCodeModule.convertBinaryToGray, hx, GrayCodeModule.binaryToGray]
  · have hg : isBinary (GrayCodeModule.binaryToGray x) = true := by
      rw [isBinary_iff]
      refine ⟨?_, GrayCodeModule.allBits_binaryToGray hb⟩
      intro h
      have := GrayCodeModule.length_binaryToGray x
      rw [h] at this
      cases x <;> simp_all
    have hlen : 1 + (x.length - 1) = x.length := by
      cases x <;> simp_all
      omega
    have htake : List.take 1 (GrayCodeModule.binaryToGray x) = List.take 1 x := by
      rw [GrayCodeModule.binaryToGray_eq]
      cases x <;> simp_all
    simp only [GrayCodeModule.convertGrayToBinary, hg, Bool.not_true, Bool.false_eq_true,
      if_false, GrayCodeModule.length_binaryToGray, htake]
    rw [GrayCodeModule.grayToBinaryLoop_binaryToGray x hb _ 1 _ (Nat.le_refl 1) hlen rfl]

/-- C2 witness: `1010` encodes to `1111`, which decodes back to `1010`. -/
theorem gray_round_trip_witness :
    isBinary "1010".toList = true ∧
    ∃ g, GrayCodeModule.convertBinaryToGray "1010".toList = some g ∧
      GrayCodeModule.convertGrayToBinary g = some "1010".toList :=
  ⟨by decide, gray_round_trip "1010".toList (by decide)⟩

/-! ## Radix printing -/

theorem toDigitsCore_append (b : Nat) : ∀ (f n : Nat) (ds : List Char),
    Nat.toDigitsCore b f n ds = Nat.toDigitsCore b f n [] ++ ds := by
  intro f
  induction f with
  | zero => intro n ds; simp [Nat.toDigitsCore]
  | succ f ih =>
    intro n ds
    simp only [Nat.toDigitsCore]
    split
    · simp
    · rw [ih (n / b) (Nat.digitChar (n % b) :: ds), ih (n / b) [Nat.digitChar (n % b)]]
      simp

theorem toDigitsCore_fuel (b : Nat) (hb : 2 ≤ b) : ∀ (f f2 n : Nat), n < f → n < f2 →
    Nat.toDigitsCore b f n [] = Nat.toDigitsCore b f2 n [] := by
  intro f
  induction f with
  | zero => intro f2 n h; omega
  | succ f ih =>
    intro f2 n h1 h2
    cases f2 with
    | zero => omega
    | succ f2 =>
      simp only [Nat.toDigitsCore]
      split
      · rfl
      · rename_i hne
        have hlt : n / b < n := Nat.div_lt_self (by
          rcases Nat.eq_zero_or_pos n with h | h
          · subst h; simp at hne
          · exact h) hb
        rw [toDigitsCore_append b f, toDigitsCore_append b f2,
          ih f2 (n / b) (by omega) (by omega)]

theorem toStringRadix_lt (b n : Nat) (h : n < b) : toStringRadix b n = [Nat.digitChar n] := by
  simp [toStringRadix, Nat.toDigits, Nat.toDigitsCore, Nat.div_eq_of_lt h, Nat.mod_eq_of_lt h]

theorem toStringRadix_ge (b n : Nat) (hb : 2 ≤ b) (h : b ≤ n) :
    toStringRadix b n = toStringRadix b (n / b) ++ [Nat.digitChar (n % b)] := by
  have hne : n / b ≠ 0 := by
    have := Nat.div_pos h (by omega)
    omega
  have hlt : n / b < n := Nat.div_lt_self (by omega) hb
  have e : Nat.toDigits b n = Nat.toDigitsCore b n (n / b) [Nat.digitChar (n % b)] := by
    simp only [Nat.toDigits, Nat.toDigitsCore, hne, if_false]
  unfold toStringRadix
  rw [e, toDigitsCore_append, toDigitsCore_fuel b hb n (n / b + 1) (n / b) hlt (by omega)]
  rfl

theorem digitChar_mod_two (n : Nat) :
    (n % 2 = 0 ∧ Nat.digitChar (n % 2) = '0') ∨ (n % 2 = 1 ∧ Nat.digitChar (n % 2) = '1') := by
  rcases Nat.mod_two_eq_zero_or_one n with h | h <;> rw [h]
  · exact Or.inl ⟨rfl, rfl⟩
  · exact Or.inr ⟨rfl, rfl⟩

theorem length_toStringRadix_two : ∀ (w n : Nat), 1 ≤ w → n < 2 ^ w →
    (toStringRadix 2 n).length ≤ w := by
  intro w
  induction w with
  | zero => intro n h; omega
  | succ w ih =>
    intro n _ hn
    by_cases h2 : n < 2
    · rw [toStringRadix_lt 2 n h2]; simp
    · rw [toStringRadix_ge 2 n (by omega) (by omega)]
      have hw : 1 ≤ w := by
        rcases Nat.eq_zero_or_pos w with h | h
        · subst h; simp at hn; omega
        · exact h
      have := ih (n / 2) hw (by rw [pow_succ] at hn; omega)
      simp
      omega

theorem toBinary_one (n : Nat) (hn : n < 2) : toBinary 1 n = [Nat.digitChar n] := by
  simp [toBinary, toStringRadix_lt 2 n hn, padStart]

/-- The `(w+1)`-bit string of `n` is the `w`-bit string of `n / 2` followed by
the low bit. -/
theorem toBinary_succ (w n : Nat) (hw : 1 ≤ w) (hn : n < 2 ^ (w + 1)) :
    toBinary (w + 1) n = toBinary w (n / 2) ++ [Nat.digitChar (n % 2)] := by
  have hhalf : n / 2 < 2 ^ w := by rw [pow_succ] at hn; omega
  by_cases h2 : n < 2
  · have h0 : n / 2 = 0 := Nat.div_eq_of_lt h2
    have hm : n % 2 = n := Nat.mod_eq_of_lt h2
    have hz : toStringRadix 2 0 = ['0'] := rfl
    rw [h0, hm]
    simp only [toBinary, toStringRadix_lt 2 n h2, hz, padStart, List.length_singleton]
    have e : w + 1 - 1 = (w - 1) + 1 := by omega
    rw [e, List.replicate_succ', List.append_assoc]
  · have hl := length_toStringRadix_two w (n / 2) hw hhalf
    simp only [toBinary, toStringRadix_ge 2 n (by omega) (by omega), padStart,
      List.length_append, List.length_singleton]
    have e : w + 1 - ((toStringRadix 2 (n / 2)).length + 1)
        = w - (toStringRadix 2 (n / 2)).length := by omega
    rw [e, List.append_assoc]

theorem length_toBinary (w n : Nat) (hw : 1 ≤ w) (hn : n < 2 ^ w) :
    (toBinary w n).length = w := by
  have := length_toStringRadix_two w n hw hn
  simp only [toBinary, length_padStart]
  omega

theorem allBits_toBinary : ∀ (w n : Nat), 1 ≤ w → n < 2 ^ w → AllBits (toBinary w n) := by
  intro w
  induction w with
  | zero => intro n h; omega
  | succ w ih =>
    intro n _ hn
    rcases Nat.eq_zero_or_pos w with h | hw
    · subst h
      have hn2 : n < 2 := by simpa using hn
      rw [toBinary_one n hn2]
      intro c hc
      have : n = 0 ∨ n = 1 := by omega
      rcases this with rfl | rfl <;> simp_all <;> decide
    · rw [toBinary_succ w n hw hn]
      apply AllBits.append (ih (n / 2) hw (by rw [pow_succ] at hn; omega))
      intro c hc
      rcases digitChar_mod_two n with ⟨_, h⟩ | ⟨_, h⟩ <;> simp_all

/-- The last character of the `w`-bit string of `n` is its low bit. -/
theorem getD_last_toBinary (w n : Nat) (hw : 1 ≤ w) (hn : n < 2 ^ w) :
    (toBinary w n).getD (w - 1) '0' = Nat.digitChar (n % 2) := by
  cases w with
  | zero => omega
  | succ w =>
    rcases Nat.eq_zero_or_pos w with h | hw1
    · subst h
      have hn2 : n < 2 := by simpa using hn
      rw [toBinary_one n hn2, Nat.mod_eq_of_lt hn2]
      rfl
    · rw [toBinary_succ w n hw1 hn]
      have hl := length_toBinary w (n / 2) hw1 (by rw [pow_succ] at hn; omega)
      rw [List.getD_append_right _ _ _ _ (by simp [hl]), hl]
      simp

/-! ## Gray codes of consecutive numbers -/

theorem hammingDistance_self (s : List Char) : hammingDistance s s = 0 := by
  induction s with
  | nil => rfl
  | cons c s ih =>
    simp only [hammingDistance, List.zip_cons_cons] at ih ⊢
    simp [List.filter_cons, ih]

theorem hammingDistance_snoc (s t : List Char) (x y : Char) (h : s.length = t.length) :
    hammingDistance (s ++ [x]) (t ++ [y])
      = hammingDistance s t + (if x = y then 0 else 1) := by
  unfold hammingDistance
  rw [List.zip_append h, List.filter_append, List.length_append]
  by_cases hxy : x = y <;> simp [hxy]

namespace GrayCodeModule

/-- Appending a bit to a non-empty string appends one Gray bit. -/
theorem binaryToGray_snoc (s : List Char) (c : Char) (hs : s ≠ []) :
    binaryToGray (s ++ [c])
      = binaryToGray s ++ [if s.getD (s.length - 1) '0' = c then '0' else '1'] := by
  have hpos : 1 ≤ s.length := by
    cases s with
    | nil => exact absurd rfl hs
    | cons a t => simp
  rw [binaryToGray_eq, binaryToGray_eq]
  have ht : List.take 1 (s ++ [c]) = List.take 1 s := by
    cases s with
    | nil => exact absurd rfl hs
    | cons a t => simp
  have hr : (s ++ [c]).length - 1 = (s.length - 1) + 1 := by simp; omega
  rw [ht, hr, List.range'_1_concat, List.map_append, List.map_singleton, List.append_assoc]
  congr 2
  · apply List.map_congr_left
    intro j hj
    rw [List.mem_range'_1] at hj
    unfold grayBitAt
    rw [List.getD_append _ _ _ _ (by omega), List.getD_append _ _ _ _ (by omega)]
  · unfold grayBitAt
    have e : 1 + (s.length - 1) = s.length := by omega
    rw [e, List.getD_append _ _ _ _ (by omega), List.getD_append_right _ _ _ _ (Nat.le_refl _)]
    simp

/-- Successive `w`-bit numbers have Gray codes at Hamming distance one. -/
theorem hammingDistance_gray_succ : ∀ (w n : Nat), 1 ≤ w → n < 2 ^ w - 1 →
    hammingDistance (binaryToGray (toBinary w n)) (binaryToGray (toBinary w (n + 1))) = 1 := by
  intro w
  induction w with
  | zero => intro n h; omega
  | succ w ih =>
    intro n _ hn
    rcases Nat.eq_zero_or_pos w with h | hw
    · subst h
      have : n = 0 := by simp at hn; omega
      subst this
      decide
    · have hp : 2 ^ (w + 1) = 2 * 2 ^ w := by rw [pow_succ]; ring
      have hn1 : n < 2 ^ (w + 1) := by omega
      have hn2 : n + 1 < 2 ^ (w + 1) := by omega
      have hh1 : n / 2 < 2 ^ w := by omega
      have hh2 : (n + 1) / 2 < 2 ^ w := by omega
      have hl1 := length_toBinary w (n / 2) hw hh1
      have hl2 := length_toBinary w ((n + 1) / 2) hw hh2
      have hne1 : toBinary w (n / 2) ≠ [] := by
        intro h; rw [h] at hl1; simp at hl1; omega
      have hne2 : toBinary w ((n + 1) / 2) ≠ [] := by
        intro h; rw [h] at hl2; simp at hl2; omega
      rw [toBinary_succ w n hw hn1, toBinary_succ w (n + 1) hw hn2,
        binaryToGray_snoc _ _ hne1, binaryToGray_snoc _ _ hne2,
        hammingDistance_snoc _ _ _ _ (by rw [length_binaryToGray, length_binaryToGray, hl1, hl2]),
        hl1, hl2, getD_last_toBinary w (n / 2) hw hh1,
        getD_last_toBinary w ((n + 1) / 2) hw hh2]
      rcases Nat.mod_two_eq_zero_or_one n with hpar | hpar
      · -- even: the prefix is unchanged and the last Gray bit flips
        have e1 : (n + 1) / 2 = n / 2 := by omega
        have e2 : (n + 1) % 2 = 1 := by omega
        rw [e1, e2, hpar, hammingDistance_self]
        rcases digitChar_mod_two (n / 2) with ⟨_, h⟩ | ⟨_, h⟩ <;> rw [h] <;> decide
      · -- odd: the prefix changes in one place and the last Gray bit is kept
        have e1 : (n + 1) / 2 = n / 2 + 1 := by omega
        have e2 : (n + 1) % 2 = 0 := by omega
        have hm : n / 2 < 2 ^ w - 1 := by omega
        rw [e1, e2, hpar, ih (n / 2) hw hm]
        have e3 : (n / 2 + 1) % 2 = 1 - (n / 2) % 2 := by omega
        rw [e3]
        rcases Nat.mod_two_eq_zero_or_one (n / 2) with h | h <;> rw [h] <;> decide

end GrayCodeModule

/-- C8: for every width `w ≥ 1` and every `n < 2^w - 1`, the Gray codes that
`binaryToGray` produces for the `w`-bit binary strings of `n` and of `n + 1`
are both `w` characters long and differ in exactly one position. -/
theorem gray_consecutive_differ_in_one_bit (w n : Nat) (hw : 1 ≤ w) (hn : n < 2 ^ w - 1) :
    (GrayCodeModule.binaryToGray (toBinary w n)).length = w ∧
    (GrayCodeModule.binaryToGray (toBinary w (n + 1))).length = w ∧
    hammingDistance (GrayCodeModule.binaryToGray (toBinary w n))
      (GrayCodeModule.binaryToGray (toBinary w (n + 1))) = 1 := by
  refine ⟨?_, ?_, GrayCodeModule.hammingDistance_gray_succ w n hw hn⟩
  · rw [GrayCodeModule.length_binaryToGray, length_toBinary w n hw (by omega)]
  · rw [GrayCodeModule.length_binaryToGray, length_toBinary w (n + 1) hw (by omega)]

/-- C8 witness: rows 7 and 8 of the 4-bit table (`0100` and `1100`). -/
theorem gray_consecutive_differ_in_one_bit_witness :
    (1 ≤ 4 ∧ 7 < 2 ^ 4 - 1) ∧
    (GrayCodeModule.binaryToGray (toBinary 4 7)).length = 4 ∧
    (GrayCodeModule.binaryToGray (toBinary 4 (7 + 1))).length = 4 ∧
    hammingDistance (GrayCodeModule.binaryToGray (toBinary 4 7))
      (GrayCodeModule.binaryToGray (toBinary 4 (7 + 1))) = 1 :=
  ⟨by decide, gray_consecutive_differ_in_one_bit 4 7 (by decide) (by decide)⟩

/-- The table of `generateCodeTable` lists exactly the 4-bit strings and their
Gray codes used above. -/
theorem generateCodeTable_rows :
    GrayCodeModule.generateCodeTable
      = (List.range 16).map
          (fun i => (i, toBinary 4 i, GrayCodeModule.binaryToGray (toBinary 4 i))) := rfl

/-! ## Parity -/

theorem countOnes_snoc (s : List Char) (c : Char) :
    countOnes (s ++ [c]) = countOnes s + (if c = '1' then 1 else 0) := by
  unfold countOnes
  rw [List.filter_append, List.length_append]
  by_cases h : c = '1' <;> simp [h]

/-- C7: for every non-empty binary string, `calculateParity` yields in even
mode a bit that makes the number of 1s of the completed word even, in odd
mode a bit that makes it odd, and the odd-mode bit is the complement of the
even-mode bit. -/
theorem calculateParity_completes_parity (data : List Char) (h : isBinary data = true) :
    ∃ pe po : Char,
      ParityBitsModule.calculateParity "even".toList data = some (pe, data ++ [pe]) ∧
      ParityBitsModule.calculateParity "odd".toList data = some (po, data ++ [po]) ∧
      countOnes (data ++ [pe]) % 2 = 0 ∧
      countOnes (data ++ [po]) % 2 = 1 ∧
      (pe = '0' ∨ pe = '1') ∧ po = flipBit pe := by
  have hodd : ("odd".toList = ['e', 'v', 'e', 'n']) = False := by decide
  have heven : ("even".toList = ['e', 'v', 'e', 'n']) = True := by decide
  rcases Nat.mod_two_eq_zero_or_one (countOnes data) with hc | hc
  · refine ⟨'0', '1', ?_, ?_, ?_, ?_, Or.inl rfl, by decide⟩
    · simp only [ParityBitsModule.calculateParity, h, heven]
      unfold countOnes at hc
      simp [hc]
    · simp only [ParityBitsModule.calculateParity, h, hodd]
      unfold countOnes at hc
      simp [hc]
    · rw [countOnes_snoc]; simp; omega
    · rw [countOnes_snoc]; simp; omega
  · refine ⟨'1', '0', ?_, ?_, ?_, ?_, Or.inr rfl, by decide⟩
    · simp only [ParityBitsModule.calculateParity, h, heven]
      unfold countOnes at hc
      simp [hc]
    · simp only [ParityBitsModule.calculateParity, h, hodd]
      unfold countOnes at hc
      simp [hc]
    · rw [countOnes_snoc]; simp; omega
    · rw [countOnes_snoc]; simp; omega

/-- C7 witness: the data word `1010110` (four 1s). -/
theorem calculateParity_completes_parity_witness :
    isBinary "1010110".toList = true ∧
    ∃ pe po : Char,
      ParityBitsModule.calculateParity "even".toList "1010110".toList
        = some (pe, "1010110".toList ++ [pe]) ∧
      ParityBitsModule.calculateParity "odd".toList "1010110".toList
        = some (po, "1010110".toList ++ [po]) ∧
      countOnes ("1010110".toList ++ [pe]) % 2 = 0 ∧
      countOnes ("1010110".toList ++ [po]) % 2 = 1 ∧
      (pe = '0' ∨ pe = '1') ∧ po = flipBit pe :=
  ⟨by decide, calculateParity_completes_parity "1010110".toList (by decide)⟩

/-! ## Checksum -/

/-- C6 (evaluation at the spec's own example): for the bytes `10101010` and
`11110000` the function computes sum 410, checksum `01100101` (101), and the
verification value `(410 + 101) & 0xFF` is 255, not 0. -/
theorem calculateChecksum_example_verification :
    ParityBitsModule.calculateChecksum "10101010 11110000".toList
      = some { sum := 410, checksum := "01100101".toList, verification := 255 } := by
  decide

/-! ## The overflow flag of the two's-complement calculator -/

/-- C9 (evaluation at a failing sequence): after `1101 - 0011`, which carries
out, the call `0011 - 1101` produces no carry out of the most-significant bit
(its carry string is `0011`, whose first character is the carry out of the
most-significant bit, and recomputing the addition gives carry 0), yet
`finalCarry` still holds the 1 of the previous call and tests as truthy. -/
theorem calculate_finalCarry_stale :
    (TwosComplementCalculator.calculate
        (TwosComplementCalculator.calculate TwosComplementCalculator.init
          "1101".toList "0011".toList)
        "0011".toList "1101".toList).finalCarry = some 1 ∧
    TwosComplementCalculator.finalCarryTruthy
      (TwosComplementCalculator.calculate
        (TwosComplementCalculator.calculate TwosComplementCalculator.init
          "1101".toList "0011".toList)
        "0011".toList "1101".toList) = true ∧
    (TwosComplementCalculator.calculate
        (TwosComplementCalculator.calculate TwosComplementCalculator.init
          "1101".toList "0011".toList)
        "0011".toList "1101".toList).carry = "0011".toList ∧
    TwosComplementCalculator.carryOut
      (TwosComplementCalculator.calculate
        (TwosComplementCalculator.calculate TwosComplementCalculator.init
          "1101".toList "0011".toList)
        "0011".toList "1101".toList) = 0 := by
  decide

/-- On a calculator whose `finalCarry` has never been set, the flag after an
accepted `calculate` is truthy exactly when the addition of that call carried
out of the most-significant bit. -/
theorem calculate_finalCarry_fresh (st : TwosComplementCalculator.State)
    (a b : List Char) (ha : isBinary a = true) (hb : isBinary b = true)
    (hla : a.length ≤ 8) (hlb : b.length ≤ 8) (hfresh : st.finalCarry = none) :
    TwosComplementCalculator.finalCarryTruthy (TwosComplementCalculator.calculate st a b) = true
      ↔ TwosComplementCalculator.carryOut (TwosComplementCalculator.calculate st a b) = 1 := by
  obtain ⟨_, _, c1, c2, _, hc2, hco, _⟩ :=
    TwosComplementCalculator.calculate_arith st a b ha hb hla hlb
  rw [TwosComplementCalculator.calculate_accepted st a b ha hb hla hlb]
  simp only [TwosComplementCalculator.carryOut] at hco ⊢
  simp only [TwosComplementCalculator.finalCarryTruthy, TwosComplementCalculator.performAddition,
    TwosComplementCalculator.calculateTwosComplement] at hco ⊢
  split_ifs with h
  · simp only [← hco]
    constructor
    · intro _; omega
    · intro h1; simp [h1]
  · simp only [hfresh, ← hco]
    constructor
    · intro h1; exact absurd h1 (by decide)
    · intro h1; omega

/-! ## One's-complement addition -/

namespace OnesComplementModule

/-- The addition loop is the loop of the two's-complement calculator without
the carry string. -/
theorem addLoop_eq (a b : List Char) : ∀ (k carry : Nat) (result cs : List Char),
    addLoop a b k carry result
      = ((TwosComplementCalculator.addLoop a b k carry result cs).2.1,
         (TwosComplementCalculator.addLoop a b k carry result cs).1) := by
  intro k
  induction k with
  | zero => intro carry result cs; rfl
  | succ k ih =>
    intro carry result cs
    simp only [addLoop, TwosComplementCalculator.addLoop]
    exact ih _ _ _

/-- The end-around loop is the increment loop of the two's-complement
calculator. -/
theorem endAroundLoop_eq (r : List Char) : ∀ (k carry : Nat) (acc : List Char),
    endAroundLoop r k carry acc = TwosComplementCalculator.incLoop r k carry acc := by
  intro k
  induction k with
  | zero => intro carry acc; rfl
  | succ k ih =>
    intro carry acc
    simp only [endAroundLoop, TwosComplementCalculator.incLoop]
    exact ih _ _

/-- Arithmetic content of `onesComplementAddition` on operands of equal
width `w`: the first pass computes `A + B` on `w` bits with carry `c`; when
`c = 1` the final result is the first result plus one, which never carries
out again. -/
theorem onesComplementAddition_arith (a b : List Char) (ha : AllBits a) (hb : AllBits b)
    (hlen : a.length = b.length) :
    (onesComplementAddition a b).finalResult.length = a.length ∧
    AllBits (onesComplementAddition a b).finalResult ∧
    ((radixValue 2 a + radixValue 2 b < 2 ^ a.length ∧
        radixValue 2 (onesComplementAddition a b).finalResult
          = radixValue 2 a + radixValue 2 b) ∨
     (2 ^ a.length ≤ radixValue 2 a + radixValue 2 b ∧
        radixValue 2 (onesComplementAddition a b).finalResult + 2 ^ a.length
          = radixValue 2 a + radixValue 2 b + 1)) := by
  have hpa : padStart a.length '0' a = a := by
    simp [padStart]
  have hpb : padStart a.length '0' b = b := by
    simp [padStart, hlen]
  have hmax : max a.length b.length = a.length := by simp [hlen]
  obtain ⟨j1, j2, j3, j4⟩ := TwosComplementCalculator.addLoop_spec a b ha hb a.length 0 [] []
    (Nat.le_refl _) (by omega) (by omega) AllBits.nil
  simp only [List.length_nil, Nat.add_zero, pow_zero, Nat.mul_one, radixValue_nil,
    List.take_length] at j1 j4
  have htb : List.take a.length b = b := List.take_of_length_le (by omega)
  rw [htb] at j4
  have hA := radixValue_two_lt ha
  have hB := radixValue_two_lt hb
  rw [← hlen] at hB
  have hR := radixValue_two_lt j2
  rw [j1] at hR
  unfold onesComplementAddition
  simp only [hmax, hpa, hpb, addLoop_eq a b a.length 0 [] []]
  generalize TwosComplementCalculator.addLoop a b a.length 0 [] [] = r at j1 j2 j3 j4 hR
  obtain ⟨c, R, cs⟩ := r
  simp only at j1 j2 j3 j4 hR ⊢
  by_cases hc : c = 1
  · subst hc
    simp only [if_true, endAroundLoop_eq]
    obtain ⟨i1, i2, i3, i4⟩ := TwosComplementCalculator.incLoop_spec R j2 R.length 1 []
      (Nat.le_refl _) (Nat.le_refl _) AllBits.nil
    simp only [List.length_nil, Nat.add_zero, pow_zero, Nat.mul_one, radixValue_nil,
      List.take_length] at i1 i4
    rw [j1] at i1 i2 i3 i4
    rw [j1]
    have hF := radixValue_two_lt i2
    rw [i1] at hF
    refine ⟨i1, i2, Or.inr ⟨by omega, ?_⟩⟩
    generalize (TwosComplementCalculator.incLoop R a.length 1 []).2 = c2 at i3 i4
    have hc2 : c2 = 0 ∨ c2 = 1 := by omega
    rcases hc2 with rfl | rfl
    · omega
    · omega
  · have hc0 : c = 0 := by omega
    subst hc0
    simp only [show ¬ ((0 : Nat) = 1) by decide, if_false]
    exact ⟨j1, j2, Or.inl ⟨by omega, by omega⟩⟩

end OnesComplementModule

/-- The one's-complement reading in terms of the unsigned value: strings
whose value reaches `2^(w-1)` start with `1` and read as `value - (2^w - 1)`. -/
theorem onesComplementValue_eq (s : List Char) (hs : AllBits s) (hne : s ≠ []) :
    (radixValue 2 s < 2 ^ (s.length - 1) ∧
        onesComplementValue s = (radixValue 2 s : Int)) ∨
    (2 ^ (s.length - 1) ≤ radixValue 2 s ∧
        onesComplementValue s = (radixValue 2 s : Int) - (2 ^ s.length - 1)) := by
  cases s with
  | nil => exact absurd rfl hne
  | cons c t =>
    obtain ⟨hc, ht⟩ := AllBits.cons_iff.1 hs
    have hv : radixValue 2 (c :: t) = charDigit c * 2 ^ t.length + radixValue 2 t := by
      have := radixValue_append 2 [c] t
      rwa [radixValue_singleton] at this
    have hlt := radixValue_two_lt ht
    have hflip := TwosComplementCalculator.radixValue_map_flipBit hs
    simp only [List.length_cons, Nat.add_sub_cancel]
    rcases hc with rfl | rfl
    · left
      have h0 : charDigit '0' = 0 := by decide
      refine ⟨by rw [hv, h0]; omega, ?_⟩
      simp [onesComplementValue]
    · right
      have h1 : charDigit '1' = 1 := by decide
      refine ⟨by rw [hv, h1]; omega, ?_⟩
      simp only [onesComplementValue, List.head?_cons, if_true]
      simp only [List.length_cons] at hflip
      have : ((radixValue 2 (List.map flipBit ('1' :: t)) + radixValue 2 ('1' :: t) + 1 : Nat) : Int)
          = ((2 ^ (t.length + 1) : Nat) : Int) := by rw [hflip]
      push_cast at this
      linarith

/-- C3: for binary strings `a`, `b` of the same width `w`, read as
one's-complement values, if `|a_val + b_val| ≤ 2^(w-1) - 1` then the
`finalResult` of `onesComplementAddition(a, b)`, read as one's complement,
equals `a_val + b_val`. -/
theorem onesComplementAddition_signed_sum (a b : List Char)
    (ha : isBinary a = true) (hb : isBinary b = true) (hlen : a.length = b.length)
    (hrange : |onesComplementValue a + onesComplementValue b|
      ≤ 2 ^ (a.length - 1) - 1) :
    onesComplementValue (OnesComplementModule.onesComplementAddition a b).finalResult
      = onesComplementValue a + onesComplementValue b := by
  obtain ⟨hane, hab⟩ := (isBinary_iff a).1 ha
  obtain ⟨hbne, hbb⟩ := (isBinary_iff b).1 hb
  obtain ⟨hl, hf, hsum⟩ := OnesComplementModule.onesComplementAddition_arith a b hab hbb hlen
  have hwpos : 1 ≤ a.length := by
    cases a with
    | nil => exact absurd rfl hane
    | cons c t => simp
  have hfne : (OnesComplementModule.onesComplementAddition a b).finalResult ≠ [] := by
    intro h; rw [h] at hl; simp at hl; omega
  have hva := onesComplementValue_eq a hab hane
  have hvb := onesComplementValue_eq b hbb hbne
  have hvf := onesComplementValue_eq _ hf hfne
  rw [hl] at hvf
  rw [← hlen] at hvb
  obtain ⟨hr1, hr2⟩ := abs_le.1 hrange
  have hA := radixValue_two_lt hab
  have hB := radixValue_two_lt hbb
  rw [← hlen] at hB
  have hpow : (2 : Nat) ^ a.length = 2 * 2 ^ (a.length - 1) := by
    have e : a.length = (a.length - 1) + 1 := by omega
    conv_lhs => rw [e]
    rw [pow_succ]; ring
  have hpowi : (2 : Int) ^ a.length = 2 * 2 ^ (a.length - 1) := by exact_mod_cast hpow
  generalize onesComplementValue
    (OnesComplementModule.onesComplementAddition a b).finalResult = vf at hvf ⊢
  generalize radixValue 2 (OnesComplementModule.onesComplementAddition a b).finalResult = F
    at hvf hsum
  generalize onesComplementValue a = va at hva hr1 hr2 ⊢
  generalize onesComplementValue b = vb at hvb hr1 hr2 ⊢
  generalize radixValue 2 a = A at hva hsum hA
  generalize radixValue 2 b = B at hvb hsum hB
  have hH : (((2 : Nat) ^ (a.length - 1) : Nat) : Int) = (2 : Int) ^ (a.length - 1) := by
    push_cast; rfl
  generalize (2 : Int) ^ a.length = Mi at hpowi hva hvb hvf
  generalize (2 : Int) ^ (a.length - 1) = Hi at hpowi hr1 hr2 hH
  generalize (2 : Nat) ^ a.length = M at hpow hsum hA hB
  generalize (2 : Nat) ^ (a.length - 1) = H at hpow hva hvb hvf hH
  subst hpowi
  subst hpow
  rcases hva with ⟨a1, a2⟩ | ⟨a1, a2⟩ <;> rcases hvb with ⟨b1, b2⟩ | ⟨b1, b2⟩ <;>
    rcases hvf with ⟨f1, f2⟩ | ⟨f1, f2⟩ <;> rcases hsum with ⟨s1, s2⟩ | ⟨s1, s2⟩ <;>
    omega

/-- C3 witness: `0101 + 1100` (5 + (-3)) on four bits gives `0010` (2). -/
theorem onesComplementAddition_signed_sum_witness :
    (isBinary "0101".toList = true ∧ isBinary "1100".toList = true ∧
      "0101".toList.length = "1100".toList.length) ∧
    onesComplementValue
        (OnesComplementModule.onesComplementAddition "0101".toList "1100".toList).finalResult
      = onesComplementValue "0101".toList + onesComplementValue "1100".toList :=
  ⟨by decide, onesComplementAddition_signed_sum "0101".toList "1100".toList (by decide)
    (by decide) (by decide) (by decide)⟩

/-! ## Splitting and joining -/

theorem splitWsGo_noWs (g : List Char) (hg : NoWs g) (flag : Bool) (hne : g ≠ []) :
    splitWsGo flag g = [g] := by
  induction g generalizing flag with
  | nil => exact absurd rfl hne
  | cons c t ih =>
    have hc : isWhitespace c = false := hg c (by simp)
    have ht : NoWs t := fun x hx => hg x (List.mem_cons_of_mem _ hx)
    cases t with
    | nil => simp [splitWsGo, hc]
    | cons d u =>
      simp only [splitWsGo, hc] at ih ⊢
      have := ih ht false (by simp)
      simp only [Bool.false_eq_true, if_false] at this ⊢
      rw [this]

theorem splitWsGo_flag (c : Char) (s : List Char) (hc : isWhitespace c = false) :
    splitWsGo true (c :: s) = splitWsGo false (c :: s) := by
  simp [splitWsGo, hc]

theorem splitWsGo_append_space (g rest : List Char) (hg : NoWs g) :
    splitWsGo false (g ++ ' ' :: rest) = g :: splitWsGo true rest := by
  induction g with
  | nil =>
    have : isWhitespace ' ' = true := by decide
    simp [splitWsGo, this]
  | cons c t ih =>
    have hc : isWhitespace c = false := hg c (by simp)
    have ht : NoWs t := fun x hx => hg x (List.mem_cons_of_mem _ hx)
    have e := ih ht
    simp only [List.cons_append, splitWsGo, hc, Bool.false_eq_true, if_false]
    show (match splitWsGo false (t ++ ' ' :: rest) with
      | g :: gs => (c :: g) :: gs
      | [] => [[c]]) = (c :: t) :: splitWsGo true rest
    rw [e]

theorem join_cons_cons (sep g g2 : List Char) (gs : List (List Char)) :
    join sep (g :: g2 :: gs) = g ++ sep ++ join sep (g2 :: gs) := rfl

theorem join_head_noWs (sep : List Char) (gs : List (List Char)) (g : List Char)
    (hg : NoWs g) (hne : g ≠ []) :
    ∃ c s, join sep (g :: gs) = c :: s ∧ isWhitespace c = false := by
  cases g with
  | nil => exact absurd rfl hne
  | cons c t =>
    have hc : isWhitespace c = false := hg c (by simp)
    cases gs with
    | nil => exact ⟨c, t, rfl, hc⟩
    | cons g2 gs => exact ⟨c, _, by rw [join_cons_cons]; rfl, hc⟩

/-- Splitting a joined list of non-empty white-space-free groups gives the
groups back. -/
theorem splitWs_join (gs : List (List Char)) (hne : gs ≠ [])
    (hg : ∀ g ∈ gs, NoWs g ∧ g ≠ []) : splitWs (join [' '] gs) = gs := by
  unfold splitWs
  induction gs with
  | nil => exact absurd rfl hne
  | cons g rest ih =>
    obtain ⟨hgn, hgne⟩ := hg g (by simp)
    cases rest with
    | nil => exact splitWsGo_noWs g hgn false hgne
    | cons g2 gs =>
      obtain ⟨hg2n, hg2ne⟩ := hg g2 (by simp)
      have hrest := ih (by simp) (fun x hx => hg x (List.mem_cons_of_mem _ hx))
      obtain ⟨c, s, hcs, hc⟩ := join_head_noWs [' '] gs g2 hg2n hg2ne
      rw [join_cons_cons, List.append_assoc, List.singleton_append,
        splitWsGo_append_space g _ hgn, hcs, splitWsGo_flag c s hc, ← hcs, hrest]

theorem join_last_noWs (sep : List Char) (gs : List (List Char)) (hne : gs ≠ [])
    (hg : ∀ g ∈ gs, NoWs g ∧ g ≠ []) :
    ∃ t c, join sep gs = t ++ [c] ∧ isWhitespace c = false := by
  induction gs with
  | nil => exact absurd rfl hne
  | cons g rest ih =>
    obtain ⟨hgn, hgne⟩ := hg g (by simp)
    cases rest with
    | nil =>
      refine ⟨g.dropLast, g.getLast hgne, (List.dropLast_append_getLast hgne).symm, ?_⟩
      exact hgn _ (List.getLast_mem hgne)
    | cons g2 gs =>
      obtain ⟨t, c, htc, hc⟩ := ih (by simp) (fun x hx => hg x (List.mem_cons_of_mem _ hx))
      refine ⟨g ++ sep ++ t, c, ?_, hc⟩
      rw [join_cons_cons, htc]
      simp

/-- A joined list of non-empty white-space-free groups is unchanged by `trim`. -/
theorem trim_join (gs : List (List Char)) (hne : gs ≠ [])
    (hg : ∀ g ∈ gs, NoWs g ∧ g ≠ []) : trim (join [' '] gs) = join [' '] gs := by
  obtain ⟨t, c, htc, hc⟩ := join_last_noWs [' '] gs hne hg
  cases gs with
  | nil => exact absurd rfl hne
  | cons g rest =>
    obtain ⟨hgn, hgne⟩ := hg g (by simp)
    obtain ⟨d, s, hds, hd⟩ := join_head_noWs [' '] rest g hgn hgne
    unfold trim
    have h1 : List.dropWhile isWhitespace (join [' '] (g :: rest)) = join [' '] (g :: rest) := by
      rw [hds]; simp [List.dropWhile, hd]
    rw [h1, htc]
    simp [List.dropWhile, hc]

theorem join_nil_singletons (d : List Char) (f : Char → List Char)
    (hf : ∀ c ∈ d, f c = [c]) : join [] (d.map f) = d := by
  induction d with
  | nil => rfl
  | cons c t ih =>
    have hc := hf c (by simp)
    have ht := ih (fun x hx => hf x (List.mem_cons_of_mem _ hx))
    cases t with
    | nil => simp [join, hc]
    | cons e u =>
      simp only [List.map_cons] at ht ⊢
      rw [join_cons_cons, ht, hc]
      rfl

/-! ## BCD encoding and decoding -/

/-- The characters accepted by `/[0-9]/`. -/
theorem decimal_char_cases (c : Char) (h : 48 ≤ c.toNat ∧ c.toNat ≤ 57) :
    c = '0' ∨ c = '1' ∨ c = '2' ∨ c = '3' ∨ c = '4' ∨ c = '5' ∨ c = '6' ∨ c = '7'
      ∨ c = '8' ∨ c = '9' := by
  have hc : Char.ofNat c.toNat = c := Char.ofNat_toNat c
  obtain ⟨h1, h2⟩ := h
  generalize c.toNat = n at hc h1 h2
  interval_cases n <;> subst hc <;> decide

/-- The 4-bit group that `decimalToBCD` emits for a digit. -/
theorem digit_group (c : Char) (h : 48 ≤ c.toNat ∧ c.toNat ≤ 57) :
    NoWs (padStart 4 '0' (toStringRadix 2 (parseIntChar c))) ∧
    padStart 4 '0' (toStringRadix 2 (parseIntChar c)) ≠ [] ∧
    numberToString (parseInt 2 (padStart 4 '0' (toStringRadix 2 (parseIntChar c)))) = [c] := by
  rcases decimal_char_cases c h with h | h | h | h | h | h | h | h | h | h <;> subst h <;>
    decide

/-- C4: for every non-empty string `d` of decimal digits,
`bcdToDecimal(decimalToBCD(d))` is `d` itself. -/
theorem bcdToDecimal_decimalToBCD (d : List Char) (hd : isDecimal d = true) :
    BCDArithmeticModule.bcdToDecimal (BCDConversionModule.decimalToBCD d) = d := by
  have hne : d ≠ [] := by
    intro h; subst h; simp [isDecimal] at hd
  have hdig : ∀ c ∈ d, 48 ≤ c.toNat ∧ c.toNat ≤ 57 := by
    intro c hc
    simp only [isDecimal, Bool.and_eq_true, List.all_eq_true, decide_eq_true_eq] at hd
    exact hd.2 c hc
  have hgs : ∀ g ∈ d.map (fun digit => padStart 4 '0' (toStringRadix 2 (parseIntChar digit))),
      NoWs g ∧ g ≠ [] := by
    intro g hg
    obtain ⟨c, hc, rfl⟩ := List.mem_map.1 hg
    exact ⟨(digit_group c (hdig c hc)).1, (digit_group c (hdig c hc)).2.1⟩
  have hmne : d.map (fun digit => padStart 4 '0' (toStringRadix 2 (parseIntChar digit))) ≠ [] := by
    simpa using hne
  unfold BCDArithmeticModule.bcdToDecimal BCDConversionModule.decimalToBCD
  rw [trim_join _ hmne hgs, splitWs_join _ hmne hgs, List.map_map]
  exact join_nil_singletons d _ (fun c hc => (digit_group c (hdig c hc)).2.2)

/-- C4 witness: `1234` encodes to `0001 0010 0011 0100` and decodes back. -/
theorem bcdToDecimal_decimalToBCD_witness :
    isDecimal "1234".toList = true ∧
    BCDConversionModule.decimalToBCD "1234".toList = "0001 0010 0011 0100".toList ∧
    BCDArithmeticModule.bcdToDecimal (BCDConversionModule.decimalToBCD "1234".toList)
      = "1234".toList :=
  ⟨by decide, by decide, bcdToDecimal_decimalToBCD "1234".toList (by decide)⟩

/-! ## BCD addition -/

namespace BCDArithmeticModule

theorem takeWhile_bits (g : List Char) (hg : AllBits g) :
    g.takeWhile (fun c => decide (charDigit c < 2)) = g := by
  induction g with
  | nil => rfl
  | cons c t ih =>
    obtain ⟨hc, ht⟩ := AllBits.cons_iff.1 hg
    have : decide (charDigit c < 2) = true := by
      rcases hc with rfl | rfl <;> decide
    rw [List.takeWhile_cons, this, if_pos rfl, ih ht]

/-- A valid group parses to its value. -/
theorem parseInt_validGroup (g : List Char) (hg : ValidGroup g) :
    parseInt 2 g = some (radixValue 2 g) := by
  obtain ⟨hl, hb, hv⟩ := hg
  have hne : g.isEmpty = false := by
    cases g with
    | nil => simp at hl
    | cons c t => rfl
  have hd : toDouble (radixValue 2 g) = radixValue 2 g := by
    unfold toDouble
    rw [if_pos (by omega)]
  simp only [parseInt, takeWhile_bits g hb, hne, hd]
  rfl

/-- The group printed for a value 0..9 is valid and has that value. -/
theorem groupString_valid (v : Nat) (hv : v ≤ 9) :
    ValidGroup (groupString (some v)) ∧ radixValue 2 (groupString (some v)) = v := by
  interval_cases v <;> decide

theorem validGroup_zero : ValidGroup ['0', '0', '0', '0'] := by decide

theorem validGroup_noWs {g : List Char} (hg : ValidGroup g) : NoWs g ∧ g ≠ [] := by
  obtain ⟨hl, hb, _⟩ := hg
  refine ⟨?_, ?_⟩
  · intro c hc
    rcases hb c hc with rfl | rfl <;> decide
  · intro h; subst h; simp at hl

theorem padGroups_valid (n : Nat) (gs : List (List Char)) (h : ∀ g ∈ gs, ValidGroup g) :
    ∀ g ∈ padGroups n gs, ValidGroup g := by
  intro g hg
  rcases List.mem_append.1 hg with h1 | h1
  · rw [List.eq_of_mem_replicate h1]; exact validGroup_zero
  · exact h g h1

theorem length_padGroups (n : Nat) (gs : List (List Char)) :
    (padGroups n gs).length = max n gs.length := by
  simp [padGroups]
  omega

/-- One digit position of BCD addition: with digits 0..9 and a carry 0..1, the
corrected sum has a low nibble 0..9 and a carry 0..1. -/
theorem corrected_digit (d1 d2 c : Nat) (h1 : d1 ≤ 9) (h2 : d2 ≤ 9) (hc : c ≤ 1) :
    (if d1 + d2 + c > 9 then d1 + d2 + c + 6 else d1 + d2 + c) % 16 ≤ 9 ∧
    (if d1 + d2 + c > 9 then d1 + d2 + c + 6 else d1 + d2 + c) / 16 ≤ 1 := by
  split <;> omega

/-- One iteration of the digit loop on valid groups pushes a valid group and
leaves a carry 0..1. -/
theorem addLoop_step (groups1 groups2 : List (List Char)) (maxLen k : Nat) (st : LoopState)
    (hlt1 : k < groups1.length) (hlt2 : k < groups2.length)
    (hg1 : ValidGroup groups1[k]) (hg2 : ValidGroup groups2[k])
    (c : Nat) (hcs : st.carry = some c) (hcle : c ≤ 1) :
    ∃ (st1 : LoopState) (g : List Char) (c1 : Nat),
      addLoop groups1 groups2 maxLen (k + 1) st = addLoop groups1 groups2 maxLen k st1 ∧
      st1.result = g :: st.result ∧ ValidGroup g ∧ st1.carry = some c1 ∧ c1 ≤ 1 := by
  have hd := corrected_digit _ _ c hg1.2.2 hg2.2.2 hcle
  refine ⟨_, _, (if radixValue 2 groups1[k] + radixValue 2 groups2[k] + c > 9
      then radixValue 2 groups1[k] + radixValue 2 groups2[k] + c + 6
      else radixValue 2 groups1[k] + radixValue 2 groups2[k] + c) / 16, rfl, rfl, ?_, ?_, hd.2⟩
  · simp only [List.getD_eq_getElem groups1 [] hlt1,
      List.getD_eq_getElem groups2 [] hlt2, parseInt_validGroup _ hg1,
      parseInt_validGroup _ hg2, hcs, numAdd, numGt]
    by_cases hgt : radixValue 2 groups1[k] + radixValue 2 groups2[k] + c > 9
    · simp only [hgt, decide_True, if_true, Option.map_some'] at hd ⊢
      exact (groupString_valid _ hd.1).1
    · simp only [hgt, decide_False, Bool.false_eq_true, if_false, Option.map_some'] at hd ⊢
      exact (groupString_valid _ hd.1).1
  · simp only [List.getD_eq_getElem groups1 [] hlt1,
      List.getD_eq_getElem groups2 [] hlt2, parseInt_validGroup _ hg1,
      parseInt_validGroup _ hg2, hcs, numAdd, numGt]
    by_cases hgt : radixValue 2 groups1[k] + radixValue 2 groups2[k] + c > 9
    · simp only [hgt, decide_True, if_true, Option.map_some']
    · simp only [hgt, decide_False, Bool.false_eq_true, if_false, Option.map_some']

/-- Invariant of the digit loop on valid groups: every emitted group is valid
and the carry stays a number 0..1. -/
theorem addLoop_valid (groups1 groups2 : List (List Char)) (maxLen : Nat)
    (h1 : ∀ g ∈ groups1, ValidGroup g) (h2 : ∀ g ∈ groups2, ValidGroup g) :
    ∀ (k : Nat) (st : LoopState), k ≤ groups1.length → k ≤ groups2.length →
      (∀ g ∈ st.result, ValidGroup g) → (∃ c, st.carry = some c ∧ c ≤ 1) →
      (∀ g ∈ (addLoop groups1 groups2 maxLen k st).result, ValidGroup g) ∧
      (∃ c, (addLoop groups1 groups2 maxLen k st).carry = some c ∧ c ≤ 1) ∧
      (addLoop groups1 groups2 maxLen k st).result.length = k + st.result.length := by
  intro k
  induction k with
  | zero =>
    intro st _ _ hr hc
    exact ⟨hr, hc, by simp [addLoop]⟩
  | succ k ih =>
    intro st hk1 hk2 hr hc
    obtain ⟨c, hcs, hcle⟩ := hc
    have hlt1 : k < groups1.length := hk1
    have hlt2 : k < groups2.length := hk2
    obtain ⟨st1, g, c1, hstep, hres, hgv, hc1, hc1le⟩ :=
      addLoop_step groups1 groups2 maxLen k st hlt1 hlt2
        (h1 _ (List.getElem_mem hlt1)) (h2 _ (List.getElem_mem hlt2)) c hcs hcle
    obtain ⟨r1, r2, r3⟩ := ih st1 (Nat.le_of_lt hlt1) (Nat.le_of_lt hlt2)
      (by
        intro x hx
        rw [hres] at hx
        rcases List.mem_cons.1 hx with h | h
        · rw [h]; exact hgv
        · exact hr x h)
      ⟨c1, hc1, hc1le⟩
    rw [hstep]
    refine ⟨r1, r2, ?_⟩
    rw [r3, hres]; simp; omega

theorem splitWsGo_ne_nil (flag : Bool) (s : List Char) : splitWsGo flag s ≠ [] := by
  induction s generalizing flag with
  | nil => simp [splitWsGo]
  | cons c t ih =>
    simp only [splitWsGo]
    split
    · split
      · exact ih true
      · simp
    · split <;> simp

/-- The groups that `bcdAddition` joins are valid, and there is at least one. -/
theorem bcdAdditionState_valid (a b : List Char) (ha : ValidOperand a) (hb : ValidOperand b) :
    (∀ g ∈ (bcdAdditionState a b).result, ValidGroup g) ∧
    (bcdAdditionState a b).result ≠ [] := by
  have hpos : 1 ≤ (splitWs (trim a)).length := by
    have := splitWsGo_ne_nil false (trim a)
    unfold splitWs
    cases h : splitWsGo false (trim a) with
    | nil => exact absurd h this
    | cons x xs => simp
  obtain ⟨r1, ⟨c, hc, hcle⟩, r3⟩ := addLoop_valid
    (padGroups (max (splitWs (trim a)).length (splitWs (trim b)).length) (splitWs (trim a)))
    (padGroups (max (splitWs (trim a)).length (splitWs (trim b)).length) (splitWs (trim b)))
    (max (splitWs (trim a)).length (splitWs (trim b)).length)
    (padGroups_valid _ _ ha) (padGroups_valid _ _ hb)
    (max (splitWs (trim a)).length (splitWs (trim b)).length)
    { result := [], carry := some 0, correctionApplied := false, steps := [] }
    (by rw [length_padGroups]; omega) (by rw [length_padGroups]; omega)
    (by intro g hg; simp at hg) ⟨0, rfl, by omega⟩
  simp only [List.length_nil, Nat.add_zero] at r3
  unfold bcdAdditionState
  simp only [hc, numGt]
  by_cases hgt : c > 0
  · simp only [hgt, decide_True, if_true]
    refine ⟨?_, by simp⟩
    intro g hg
    rcases List.mem_cons.1 hg with h | h
    · rw [h]; exact (groupString_valid c (by omega)).1
    · exact r1 g h
  · simp only [hgt, decide_False, Bool.false_eq_true, if_false]
    refine ⟨r1, ?_⟩
    intro h
    rw [h] at r3
    simp at r3
    omega

end BCDArithmeticModule

/-- C5: for BCD operands `a` and `b` that each consist of at least one 4-bit
group with value 0..9 (any numbers of groups), every group of
`bcdAddition(a, b).bcd`, a leading carry group included, is a 4-bit string
whose value lies in 0..9; the groups of the returned string are exactly the
entries of the `result` array. -/
theorem bcdAddition_groups_valid (a b : List Char)
    (ha : BCDArithmeticModule.ValidOperand a) (hb : BCDArithmeticModule.ValidOperand b) :
    splitWs (trim (BCDArithmeticModule.bcdAddition a b).bcd)
        = (BCDArithmeticModule.bcdAdditionState a b).result ∧
    ∀ g ∈ splitWs (trim (BCDArithmeticModule.bcdAddition a b).bcd),
      g.length = 4 ∧ AllBits g ∧ radixValue 2 g ≤ 9 := by
  obtain ⟨hv, hne⟩ := BCDArithmeticModule.bcdAdditionState_valid a b ha hb
  have hnw : ∀ g ∈ (BCDArithmeticModule.bcdAdditionState a b).result, NoWs g ∧ g ≠ [] :=
    fun g hg => BCDArithmeticModule.validGroup_noWs (hv g hg)
  have hsplit : splitWs (trim (BCDArithmeticModule.bcdAddition a b).bcd)
      = (BCDArithmeticModule.bcdAdditionState a b).result := by
    unfold BCDArithmeticModule.bcdAddition
    simp only
    rw [trim_join _ hne hnw, splitWs_join _ hne hnw]
  refine ⟨hsplit, ?_⟩
  rw [hsplit]
  exact hv

/-- C5 witness: `0101 1001` (59) plus `0011` (3, one group fewer) gives
`0110 0010` (62); `1001 1001` plus `0001` gives the carry group in front. -/
theorem bcdAddition_groups_valid_witness :
    (BCDArithmeticModule.ValidOperand "0101 1001".toList ∧
      BCDArithmeticModule.ValidOperand "0011".toList) ∧
    (BCDArithmeticModule.bcdAddition "0101 1001".toList "0011".toList).bcd
      = "0110 0010".toList ∧
    (BCDArithmeticModule.bcdAddition "1001 1001".toList "0001".toList).bcd
      = "0001 0000 0000".toList ∧
    ∀ g ∈ splitWs (trim (BCDArithmeticModule.bcdAddition "0101 1001".toList
        "0011".toList).bcd),
      g.length = 4 ∧ AllBits g ∧ radixValue 2 g ≤ 9 :=
  ⟨by decide, by decide, by decide,
    (bcdAddition_groups_valid "0101 1001".toList "0011".toList (by decide) (by decide)).2⟩

/-! ## Positional breakdown of the base converters -/

theorem toDouble_of_lt (n : Nat) (h : n < 2 ^ 53) : toDouble n = n := by
  unfold toDouble
  rw [if_pos h]

theorem radixValue_cons (r : Nat) (c : Char) (t : List Char) :
    radixValue r (c :: t) = charDigit c * r ^ t.length + radixValue r t := by
  have := radixValue_append r [c] t
  rwa [radixValue_singleton] at this

/-- The call `Number.parseInt(s, r)` is exact on a numeral made of radix-`r`
digits whose value is below `2^53`. -/
theorem parseInt_exact (r : Nat) (s : List Char) (hne : s ≠ [])
    (hd : ∀ c ∈ s, charDigit c < r) (hv : radixValue r s < 2 ^ 53) :
    parseInt r s = some (radixValue r s) := by
  have htw : s.takeWhile (fun c => decide (charDigit c < r)) = s := by
    rw [List.takeWhile_eq_self_iff]
    intro c hc
    simpa using hd c hc
  have hemp : s.isEmpty = false := by
    cases s with
    | nil => exact absurd rfl hne
    | cons c t => rfl
  simp only [parseInt, htw, hemp, toDouble_of_lt _ hv]
  rfl

theorem isBinary_digits (s : List Char) (h : isBinary s = true) :
    s ≠ [] ∧ ∀ c ∈ s, charDigit c < 2 ∧ (c = '0' ∨ c = '1') := by
  obtain ⟨hne, hb⟩ := (isBinary_iff s).1 h
  refine ⟨hne, fun c hc => ?_⟩
  rcases hb c hc with rfl | rfl
  · exact ⟨by decide, Or.inl rfl⟩
  · exact ⟨by decide, Or.inr rfl⟩

theorem charDigit_of_decimal (c : Char) (h : 48 ≤ c.toNat ∧ c.toNat ≤ 57) :
    charDigit c = c.toNat - 48 := by
  unfold charDigit
  rw [if_pos h]

theorem isOctal_digits (s : List Char) (h : isOctal s = true) :
    s ≠ [] ∧ ∀ c ∈ s, charDigit c < 8 := by
  simp only [isOctal, Bool.and_eq_true, List.all_eq_true, decide_eq_true_eq] at h
  refine ⟨by intro e; subst e; simp at h, fun c hc => ?_⟩
  have := h.2 c hc
  rw [charDigit_of_decimal c ⟨this.1, by omega⟩]
  omega

theorem isHex_digits (s : List Char) (h : isHex s = true) :
    s ≠ [] ∧ ∀ c ∈ s, charDigit c < 16 := by
  simp only [isHex, Bool.and_eq_true, List.all_eq_true, decide_eq_true_eq] at h
  refine ⟨by intro e; subst e; simp at h, fun c hc => ?_⟩
  rcases h.2 c hc with h1 | h1
  · rw [charDigit_of_decimal c h1]; omega
  · unfold charDigit
    rw [if_neg (by omega), if_neg (by omega), if_pos (by omega)]
    omega

section PositionalBreakdown

set_option exponentiation.threshold 2048

theorem bitLenAux_zero (f : Nat) : bitLenAux f 0 = 0 := by
  cases f with
  | zero => rfl
  | succ f => simp [bitLenAux]

theorem bitLenAux_two_pow (k : Nat) : ∀ f, k < f → bitLenAux f (2 ^ k) = k + 1 := by
  induction k with
  | zero =>
    intro f hf
    obtain ⟨g, rfl⟩ : ∃ g, f = g + 1 := ⟨f - 1, by omega⟩
    simp [bitLenAux, bitLenAux_zero]
  | succ k ih =>
    intro f hf
    obtain ⟨g, rfl⟩ : ∃ g, f = g + 1 := ⟨f - 1, by omega⟩
    have hne : 2 ^ (k + 1) ≠ 0 := by positivity
    have hdiv : 2 ^ (k + 1) / 2 = 2 ^ k := by
      rw [Nat.pow_succ, Nat.mul_div_cancel _ (by decide : 0 < 2)]
    rw [bitLenAux, if_neg hne, hdiv, ih g (by omega)]

/-- A power of two is a double already. -/
theorem toDouble_two_pow (k : Nat) : toDouble (2 ^ k) = 2 ^ k := by
  by_cases hk : k < 53
  · exact toDouble_of_lt _ (Nat.pow_lt_pow_right (by decide) hk)
  · have hge : ¬ 2 ^ k < 2 ^ 53 := by
      intro h
      exact hk ((Nat.pow_lt_pow_iff_right (by decide)).1 h)
    have hb : bitLen (2 ^ k) = k + 1 := bitLenAux_two_pow k _ (Nat.lt_two_pow k)
    have he : k + 1 - 53 = k - 52 := by omega
    have hsplit : 2 ^ k = 2 ^ 52 * 2 ^ (k - 52) := by
      rw [← Nat.pow_add]; congr 1; omega
    have hpos : 0 < 2 ^ (k - 52) := by positivity
    have hq : 2 ^ k / 2 ^ (k - 52) = 2 ^ 52 := by
      rw [hsplit]; exact Nat.mul_div_cancel _ hpos
    have hr : 2 ^ k % 2 ^ (k - 52) = 0 := by
      rw [hsplit]; exact Nat.mul_mod_left _ _
    have hhalf : 0 < 2 ^ (k - 52 - 1) := by positivity
    unfold toDouble
    rw [if_neg hge]
    simp only [hb, he, hq, hr, if_pos hhalf]
    exact hsplit.symm

theorem two_pow_53_lt : 2 ^ 53 < 2 ^ 1024 :=
  Nat.pow_lt_pow_right (by decide) (by decide)

/-- The call `Math.pow(2^j, p)` is the exact power as long as that is below
`2^1024`. -/
theorem mathPow_two_pow (j p : Nat) (h : (2 ^ j) ^ p < 2 ^ 1024) :
    mathPow (2 ^ j) p = .finite ((2 ^ j) ^ p) := by
  unfold mathPow JSNumber.round
  rw [← Nat.pow_mul] at h ⊢
  rw [toDouble_two_pow, if_pos h]

/-- A digit times a power of the base, computed in doubles, is exact as long
as the power is finite and the product stays below `2^53`. -/
theorem mul_mathPow_exact (d j p : Nat) (hp : (2 ^ j) ^ p < 2 ^ 1024)
    (h : d * (2 ^ j) ^ p < 2 ^ 53) :
    (JSNumber.finite d).mul (mathPow (2 ^ j) p) = .finite (d * (2 ^ j) ^ p) := by
  rw [mathPow_two_pow j p hp]
  have h2 : d * (2 ^ j) ^ p < 2 ^ 1024 := lt_trans h two_pow_53_lt
  simp only [JSNumber.mul, JSNumber.round, toDouble_of_lt _ h, if_pos h2]

theorem exactSum_cons_finite (n : Nat) (t : List JSNumber) :
    JSNumber.exactSum (.finite n :: t) = (JSNumber.exactSum t).map (fun m => n + m) := rfl

/-- The listed terms add up to the value of the numeral whenever each term is
computed exactly. -/
theorem exactSum_positional_terms (r : Nat) (term : Char → Nat → JSNumber) :
    ∀ (s : List Char),
      (∀ c ∈ s, ∀ p, p < s.length → charDigit c * r ^ p < 2 ^ 53 →
        term c p = .finite (charDigit c * r ^ p)) →
      radixValue r s < 2 ^ 53 →
      JSNumber.exactSum ((List.range s.length).map
        (fun i => term (s.getD i '0') (s.length - 1 - i))) = some (radixValue r s) := by
  intro s
  induction s with
  | nil => intro _ _; rfl
  | cons c t ih =>
    intro hterm hv
    rw [radixValue_cons] at hv
    have hc := hterm c (by simp) t.length (by simp) (by omega)
    have ht := ih (fun x hx p hp => hterm x (List.mem_cons_of_mem _ hx) p
      (by rw [List.length_cons]; omega)) (by omega)
    rw [radixValue_cons, List.length_cons, List.range_succ_eq_map, List.map_cons,
      List.map_map]
    have e : (fun i => term ((c :: t).getD i '0') (t.length + 1 - 1 - i)) ∘ Nat.succ
        = fun i => term (t.getD i '0') (t.length - 1 - i) := by
      funext i
      simp only [Function.comp, List.getD_cons_succ]
      congr 1
      omega
    rw [e]
    simp only [List.getD_cons_zero, Nat.add_sub_cancel, Nat.sub_zero]
    rw [hc, exactSum_cons_finite, ht]
    rfl

/-- The call `Number.parseInt` on a one-character string holding a digit of
the radix. -/
theorem parseInt_digit (r : Nat) (c : Char) (h : charDigit c < r) (h36 : charDigit c < 2 ^ 53) :
    parseInt r [c] = some (charDigit c) := by
  have := parseInt_exact r [c] (by simp) (by simpa using h)
    (by rw [radixValue_singleton]; exact h36)
  rwa [radixValue_singleton] at this

/-- Per module: for an accepted input below `2^53`, whose weights are all
finite, the listed contributions are finite and sum to the parsed decimal
value. -/
theorem contributions_sum_each (s : List Char) :
    (isBinary s = true → radixValue 2 s < 2 ^ 53 →
      JSNumber.exactSum (BinaryConversionsModule.showConversionSteps s)
        = some (radixValue 2 s) ∧
      (BinaryConversionsModule.performConversion s).map (fun r => r.decimal)
        = some (some (radixValue 2 s))) ∧
    (isOctal s = true → radixValue 8 s < 2 ^ 53 → 8 ^ (s.length - 1) < 2 ^ 1024 →
      JSNumber.exactSum (OctalConversionsModule.showConversionSteps s)
        = some (radixValue 8 s) ∧
      (OctalConversionsModule.performConversion s).map (fun r => r.decimal)
        = some (some (radixValue 8 s))) ∧
    (isHex s = true → radixValue 16 s < 2 ^ 53 → 16 ^ (s.length - 1) < 2 ^ 1024 →
      JSNumber.exactSum (HexConversionsModule.showConversionSteps s)
        = some (radixValue 16 s) ∧
      (HexConversionsModule.performConversion s).map (fun r => r.decimal)
        = some (some (radixValue 16 s))) := by
  refine ⟨?_, ?_, ?_⟩
  · intro hb hv
    obtain ⟨hne, hd⟩ := isBinary_digits s hb
    have hemp : s.isEmpty = false := by
      cases s with
      | nil => exact absurd rfl hne
      | cons c t => rfl
    have hsum := exactSum_positional_terms 2
      (fun c p => if c = '1' then mathPow 2 p else .finite 0) s
      (by
        intro c hc p _ hp
        rcases (hd c hc).2 with rfl | rfl
        · have : charDigit '0' = 0 := by decide
          simp [this]
        · have h1 : charDigit '1' = 1 := by decide
          rw [h1, Nat.one_mul] at hp
          simp only [if_true, h1, Nat.one_mul]
          have := mathPow_two_pow 1 p (by
            rw [Nat.pow_one]; exact lt_trans hp two_pow_53_lt)
          rwa [Nat.pow_one] at this)
      hv
    refine ⟨hsum, ?_⟩
    simp only [BinaryConversionsModule.performConversion, hemp, hb,
      parseInt_exact 2 s hne (fun c hc => (hd c hc).1) hv]
    rfl
  · intro ho hv hlen
    obtain ⟨hne, hd⟩ := isOctal_digits s ho
    have hemp : s.isEmpty = false := by
      cases s with
      | nil => exact absurd rfl hne
      | cons c t => rfl
    have hsum := exactSum_positional_terms 8
      (fun c p => (JSNumber.ofParseInt (parseInt 10 [c])).mul (mathPow 8 p)) s
      (by
        intro c hc p hpl hp
        have hdc := hd c hc
        have hfin : (2 ^ 3) ^ p < 2 ^ 1024 :=
          lt_of_le_of_lt (Nat.pow_le_pow_right (by decide) (by omega)) hlen
        simp only [parseInt_digit 10 c (by omega) (by omega), JSNumber.ofParseInt]
        exact mul_mathPow_exact _ 3 p hfin hp)
      hv
    refine ⟨hsum, ?_⟩
    simp only [OctalConversionsModule.performConversion, hemp, ho,
      parseInt_exact 8 s hne hd hv]
    rfl
  · intro hh hv hlen
    obtain ⟨hne, hd⟩ := isHex_digits s hh
    have hemp : s.isEmpty = false := by
      cases s with
      | nil => exact absurd rfl hne
      | cons c t => rfl
    have hsum := exactSum_positional_terms 16
      (fun c p => (JSNumber.ofParseInt (parseInt 16 [c])).mul (mathPow 16 p)) s
      (by
        intro c hc p hpl hp
        have hdc := hd c hc
        have hfin : (2 ^ 4) ^ p < 2 ^ 1024 :=
          lt_of_le_of_lt (Nat.pow_le_pow_right (by decide) (by omega)) hlen
        simp only [parseInt_digit 16 c hdc (by omega), JSNumber.ofParseInt]
        exact mul_mathPow_exact _ 4 p hfin hp)
      hv
    refine ⟨hsum, ?_⟩
    simp only [HexConversionsModule.performConversion, hemp, hh,
      parseInt_exact 16 s hne hd hv]
    rfl

/-- C10 (as stated, refuted): for the valid 14-digit hexadecimal input
`FFFFFFFFFFFFFF` every listed contribution is finite and exact, and they add
up to `2^56 - 1`, whereas the decimal value that `performConversion` parsed is
the double `2^56`. -/
theorem hex_contributions_sum_ne_parsed :
    Base.hexadecimal.accepts "FFFFFFFFFFFFFF".toList = true ∧
    Base.hexadecimal.parsedDecimal "FFFFFFFFFFFFFF".toList = some (some (2 ^ 56)) ∧
    JSNumber.exactSum (Base.hexadecimal.contributions "FFFFFFFFFFFFFF".toList)
      = some (2 ^ 56 - 1) ∧
    Base.hexadecimal.parsedDecimal "FFFFFFFFFFFFFF".toList
      ≠ some (JSNumber.exactSum (Base.hexadecimal.contributions "FFFFFFFFFFFFFF".toList)) := by
  decide

set_option maxRecDepth 20000 in
/-- Beyond the length bound a weight overflows.  In the octal numeral made of
342 zeros and a final `1`, which is accepted and parses to 1, the leading zero
stands at position 342, `Math.pow(8, 342)` is `Infinity`, and the contribution
listed for it is `0 * Infinity`, that is `NaN`; likewise for the hexadecimal
numeral made of 256 zeros and a final `1`, with `Math.pow(16, 256)`. -/
theorem leading_zero_contribution_nan :
    (Base.octal.accepts (List.replicate 342 '0' ++ ['1']) = true ∧
      Base.octal.parsedDecimal (List.replicate 342 '0' ++ ['1']) = some (some 1) ∧
      mathPow 8 342 = .infinity ∧
      (Base.octal.contributions (List.replicate 342 '0' ++ ['1'])).head? = some .nan ∧
      JSNumber.exactSum (Base.octal.contributions (List.replicate 342 '0' ++ ['1']))
        = none) ∧
    (Base.hexadecimal.accepts (List.replicate 256 '0' ++ ['1']) = true ∧
      Base.hexadecimal.parsedDecimal (List.replicate 256 '0' ++ ['1']) = some (some 1) ∧
      mathPow 16 256 = .infinity ∧
      (Base.hexadecimal.contributions (List.replicate 256 '0' ++ ['1'])).head? = some .nan ∧
      JSNumber.exactSum (Base.hexadecimal.contributions (List.replicate 256 '0' ++ ['1']))
        = none) := by
  decide

/-- C10 (amended): for every valid non-empty input in base 2, 8 or 16 whose
value is below `2^53` (so that doubles hold it exactly) and, in base 8 or 16,
whose leading weight `base^(length - 1)` is below `2^1024` (so that no weight
is `Infinity`: at most 342 octal or 256 hexadecimal symbols), the input is
accepted, every contribution listed by the module's `showConversionSteps` is a
finite number, and the contributions sum to the value of the numeral, which is
the decimal value that `performConversion` parsed. -/
theorem contributions_sum_to_parsed (b : Base) (s : List Char)
    (hvalid : b.accepts s = true) (hv : radixValue b.radix s < 2 ^ 53)
    (hlen : b = Base.binary ∨ b.radix ^ (s.length - 1) < 2 ^ 1024) :
    JSNumber.exactSum (b.contributions s) = some (radixValue b.radix s) ∧
    b.parsedDecimal s = some (some (radixValue b.radix s)) := by
  cases b with
  | binary => exact (contributions_sum_each s).1 hvalid hv
  | octal =>
    exact (contributions_sum_each s).2.1 hvalid hv (hlen.resolve_left (by decide))
  | hexadecimal =>
    exact (contributions_sum_each s).2.2 hvalid hv (hlen.resolve_left (by decide))

/-- C10 witness: binary `1101` lists 8, 4, 0, 1 and parses to 13; hexadecimal
`00FF` lists 0, 0, 240, 15 and parses to 255. -/
theorem contributions_sum_to_parsed_witness :
    (Base.binary.accepts "1101".toList = true ∧
      radixValue Base.binary.radix "1101".toList < 2 ^ 53) ∧
    Base.binary.contributions "1101".toList
      = [.finite 8, .finite 4, .finite 0, .finite 1] ∧
    (JSNumber.exactSum (Base.binary.contributions "1101".toList) = some 13 ∧
      Base.binary.parsedDecimal "1101".toList = some (some 13)) ∧
    (Base.hexadecimal.accepts "00FF".toList = true ∧
      radixValue Base.hexadecimal.radix "00FF".toList < 2 ^ 53 ∧
      Base.hexadecimal.radix ^ ("00FF".toList.length - 1) < 2 ^ 1024) ∧
    Base.hexadecimal.contributions "00FF".toList
      = [.finite 0, .finite 0, .finite 240, .finite 15] ∧
    (JSNumber.exactSum (Base.hexadecimal.contributions "00FF".toList) = some 255 ∧
      Base.hexadecimal.parsedDecimal "00FF".toList = some (some 255)) :=
  ⟨by decide, by decide,
    contributions_sum_to_parsed Base.binary "1101".toList (by decide) (by decide)
      (Or.inl rfl),
    by decide, by decide,
    contributions_sum_to_parsed Base.hexadecimal "00FF".toList (by decide) (by decide)
      (Or.inr (by decide))⟩

end PositionalBreakdown

/-! ## The spec's parity example -/

/-- C18 (as stated, refuted): for the data string `1010110` the even-parity
bit computed by `calculateParity` is not `1`. -/
theorem calculateParity_example_not_one :
    (ParityBitsModule.calculateParity "even".toList "1010110".toList).map (fun r => r.1)
      ≠ some '1' := by
  decide

/-- C18 (amended): the data string `1010110` holds four 1s, so the even-parity
bit that `calculateParity` computes for it is `0` (and the completed word is
`10101100`); the odd-parity bit is `1`. -/
theorem calculateParity_example :
    countOnes "1010110".toList = 4 ∧
    ParityBitsModule.calculateParity "even".toList "1010110".toList
      = some ('0', "10101100".toList) ∧
    ParityBitsModule.calculateParity "odd".toList "1010110".toList
      = some ('1', "10101101".toList) := by
  decide

/-! ## Input validation of the two's-complement calculator -/

namespace TwosComplementCalculator

/-- The method `calculate` returns the state untouched on every `showError`
exit. -/
theorem calculate_of_rejection (st : State) (a b : List Char)
    (h : rejection a b ≠ none) : calculate st a b = st := by
  unfold rejection at h
  unfold calculate
  split_ifs at h ⊢ <;> first | rfl | exact absurd rfl h

/-- Inputs that pass the validation block are binary and at most 8 long. -/
theorem rejection_eq_none_iff (a b : List Char) :
    rejection a b = none ↔
      isBinary a = true ∧ isBinary b = true ∧ a.length ≤ 8 ∧ b.length ≤ 8 := by
  unfold rejection
  constructor
  · intro h
    split_ifs at h with h1 h2 h3
    simp only [Bool.or_eq_true, Bool.not_eq_true', not_or, Bool.not_eq_false,
      decide_eq_true_eq, not_lt] at h2 h3
    exact ⟨h2.1, h2.2, h3.1, h3.2⟩
  · rintro ⟨ha, hb, hla, hlb⟩
    have ha1 : a.isEmpty = false := by
      cases a with
      | nil => simp [isBinary] at ha
      | cons c t => rfl
    have hb1 : b.isEmpty = false := by
      cases b with
      | nil => simp [isBinary] at hb
      | cons c t => rfl
    have e3 : ¬ (a.length > 8) := by omega
    have e4 : ¬ (b.length > 8) := by omega
    simp [ha1, hb1, ha, hb, e3, e4]

/-- A string fails `/^[01]+$/` exactly when it is empty or holds a character
other than 0 and 1. -/
theorem isBinary_eq_false_iff (s : List Char) :
    isBinary s = false ↔ s = [] ∨ ∃ c ∈ s, c ≠ '0' ∧ c ≠ '1' := by
  constructor
  · intro h
    by_cases hne : s = []
    · exact Or.inl hne
    · right
      by_contra hcon
      have hall : AllBits s := by
        intro c hc
        by_contra hc2
        exact hcon ⟨c, hc, fun e => hc2 (Or.inl e), fun e => hc2 (Or.inr e)⟩
      have := (isBinary_iff s).2 ⟨hne, hall⟩
      rw [h] at this
      exact absurd this (by decide)
  · intro h
    by_contra hcon
    have ht : isBinary s = true := by
      cases hb : isBinary s with
      | true => rfl
      | false => exact absurd hb hcon
    obtain ⟨hne, hall⟩ := (isBinary_iff s).1 ht
    rcases h with h | ⟨c, hc, h0, h1⟩
    · exact hne h
    · rcases hall c hc with e | e
      · exact h0 e
      · exact h1 e

end TwosComplementCalculator

/-- C20: `calculate` takes a `showError` exit if and only if, after trimming,
one of the two inputs is empty, holds a character other than 0 and 1, or is
longer than 8 characters; and on every such exit the state (so the stored
`minuend`, `subtrahend`, `onesComplement`, `twosComplement`, `result` and
`carry` fields and the `isCalculated` flag) is the one before the call. -/
theorem calculate_rejects_iff (st : TwosComplementCalculator.State)
    (minuendValue subtrahendValue : List Char) :
    (TwosComplementCalculator.rejection (trim minuendValue) (trim subtrahendValue) ≠ none ↔
      (trim minuendValue = [] ∨ trim subtrahendValue = [] ∨
        (∃ c ∈ trim minuendValue, c ≠ '0' ∧ c ≠ '1') ∨
        (∃ c ∈ trim subtrahendValue, c ≠ '0' ∧ c ≠ '1') ∨
        (trim minuendValue).length > 8 ∨ (trim subtrahendValue).length > 8)) ∧
    (TwosComplementCalculator.rejection (trim minuendValue) (trim subtrahendValue) ≠ none →
      TwosComplementCalculator.calculateFromFields st minuendValue subtrahendValue = st) ∧
    (TwosComplementCalculator.rejection (trim minuendValue) (trim subtrahendValue) = none →
      (TwosComplementCalculator.calculateFromFields st minuendValue subtrahendValue).isCalculated
        = true) := by
  refine ⟨?_, ?_, ?_⟩
  · rw [Ne, TwosComplementCalculator.rejection_eq_none_iff]
    constructor
    · intro h
      by_cases ha : isBinary (trim minuendValue) = true
      · by_cases hb : isBinary (trim subtrahendValue) = true
        · have : ¬ ((trim minuendValue).length ≤ 8 ∧ (trim subtrahendValue).length ≤ 8) :=
            fun hl => h ⟨ha, hb, hl.1, hl.2⟩
          by_cases hla : (trim minuendValue).length ≤ 8
          · right; right; right; right; right
            by_contra hlb
            exact this ⟨hla, by omega⟩
          · right; right; right; right; left
            omega
        · have hb2 : isBinary (trim subtrahendValue) = false := by
            cases hx : isBinary (trim subtrahendValue) with
            | true => exact absurd hx hb
            | false => rfl
          rcases (TwosComplementCalculator.isBinary_eq_false_iff _).1 hb2 with h1 | h1
          · exact Or.inr (Or.inl h1)
          · exact Or.inr (Or.inr (Or.inr (Or.inl h1)))
      · have ha2 : isBinary (trim minuendValue) = false := by
          cases hx : isBinary (trim minuendValue) with
          | true => exact absurd hx ha
          | false => rfl
        rcases (TwosComplementCalculator.isBinary_eq_false_iff _).1 ha2 with h1 | h1
        · exact Or.inl h1
        · exact Or.inr (Or.inr (Or.inl h1))
    · rintro h ⟨ha, hb, hla, hlb⟩
      have ha2 := (TwosComplementCalculator.isBinary_eq_false_iff (trim minuendValue))
      have hb2 := (TwosComplementCalculator.isBinary_eq_false_iff (trim subtrahendValue))
      rcases h with h | h | h | h | h | h
      · have := ha2.2 (Or.inl h); rw [ha] at this; exact absurd this (by decide)
      · have := hb2.2 (Or.inl h); rw [hb] at this; exact absurd this (by decide)
      · have := ha2.2 (Or.inr h); rw [ha] at this; exact absurd this (by decide)
      · have := hb2.2 (Or.inr h); rw [hb] at this; exact absurd this (by decide)
      · omega
      · omega
  · intro h
    exact TwosComplementCalculator.calculate_of_rejection st _ _ h
  · intro h
    obtain ⟨ha, hb, hla, hlb⟩ := (TwosComplementCalculator.rejection_eq_none_iff _ _).1 h
    unfold TwosComplementCalculator.calculateFromFields
    rw [TwosComplementCalculator.calculate_accepted st _ _ ha hb hla hlb]

/-- C20 witness: the fields ` 1102 ` and `0011` (a character other than 0 and
1) are rejected and leave a calculated state as it was, while ` 1101 ` and
`0011` are accepted. -/
theorem calculate_rejects_iff_witness :
    TwosComplementCalculator.rejection (trim " 1102 ".toList) (trim "0011".toList)
      = some TwosComplementCalculator.Rejection.notBinary ∧
    TwosComplementCalculator.calculateFromFields
        (TwosComplementCalculator.calculate TwosComplementCalculator.init
          "1101".toList "0011".toList) " 1102 ".toList "0011".toList
      = TwosComplementCalculator.calculate TwosComplementCalculator.init
          "1101".toList "0011".toList ∧
    (TwosComplementCalculator.calculateFromFields TwosComplementCalculator.init
        " 1101 ".toList "0011".toList).result = "1010".toList :=
  ⟨by decide,
    (calculate_rejects_iff (TwosComplementCalculator.calculate TwosComplementCalculator.init
      "1101".toList "0011".toList) " 1102 ".toList "0011".toList).2.1 (by decide),
    by decide⟩

/-! ## Decoding BCD groups above nine -/

namespace BCDArithmeticModule

/-- A group of bits of any length below 53 parses to its value. -/
theorem parseInt_bits (g : List Char) (hb : AllBits g) (hne : g ≠ [])
    (hv : radixValue 2 g < 2 ^ 53) : parseInt 2 g = some (radixValue 2 g) := by
  apply parseInt_exact 2 g hne _ hv
  intro c hc
  rcases hb c hc with rfl | rfl <;> decide

theorem radixValue_four_bits (g : List Char) (hl : g.length = 4) (hb : AllBits g) :
    radixValue 2 g < 16 := by
  have := radixValue_two_lt hb
  rw [hl] at this
  simpa using this

/-- On groups of four bits `bcdToDecimal` prints the value of every group,
whatever it is. -/
theorem bcdToDecimal_of_four_bit_groups (s : List Char)
    (h4 : ∀ g ∈ splitWs (trim s), g.length = 4 ∧ AllBits g) :
    bcdToDecimal s
      = join [] ((splitWs (trim s)).map fun g => Nat.toDigits 10 (radixValue 2 g)) := by
  unfold bcdToDecimal
  congr 1
  apply List.map_congr_left
  intro g hg
  obtain ⟨hl, hb⟩ := h4 g hg
  have hne : g ≠ [] := by intro e; subst e; simp at hl
  have hv := radixValue_four_bits g hl hb
  rw [parseInt_bits g hb hne (by omega)]
  rfl

/-- A four-bit group above nine makes `isValidBCD` answer `false`. -/
theorem isValidBCD_false_of_invalid_group (s : List Char)
    (h4 : ∀ g ∈ splitWs (trim s), g.length = 4 ∧ AllBits g)
    (hbad : ∃ g ∈ splitWs (trim s), radixValue 2 g > 9) : isValidBCD s = false := by
  obtain ⟨g, hg, hgt⟩ := hbad
  obtain ⟨hl, hb⟩ := h4 g hg
  have hne : g ≠ [] := by intro e; subst e; simp at hl
  have hv := radixValue_four_bits g hl hb
  cases hval : isValidBCD s with
  | false => rfl
  | true =>
    exfalso
    unfold isValidBCD at hval
    simp only [List.all_eq_true] at hval
    have hmem : g ∈ (splitWs (trim s)).filter (fun g => decide (g.length > 0)) := by
      rw [List.mem_filter]
      exact ⟨hg, by simp [hl]⟩
    have := hval g hmem
    rw [parseInt_bits g hb hne (by omega)] at this
    simp only [Bool.and_eq_true, decide_eq_true_eq] at this
    omega

end BCDArithmeticModule

/-- C11 (as stated, refuted): on the input `0001 1010`, whose second group is
ten, `bcdToDecimal` signals nothing and returns the decimal string `110`. -/
theorem bcdToDecimal_returns_on_invalid_group :
    BCDArithmeticModule.bcdToDecimal "0001 1010".toList = "110".toList ∧
    isDecimal (BCDArithmeticModule.bcdToDecimal "0001 1010".toList) = true := by
  decide

/-- C11 (amended): for every input made of white-space-separated 4-bit binary
groups of which at least one exceeds 9, it is `isValidBCD` that answers
`false`, so that `performArithmetic` stops with its error before decoding
(whichever operand the input is, in both operations); `bcdToDecimal` itself
checks nothing and returns the concatenated decimal numerals of the groups. -/
theorem invalid_group_rejected_by_isValidBCD (s other operation : List Char)
    (h4 : ∀ g ∈ splitWs (trim s), g.length = 4 ∧ AllBits g)
    (hbad : ∃ g ∈ splitWs (trim s), radixValue 2 g > 9) :
    BCDArithmeticModule.isValidBCD s = false ∧
    BCDArithmeticModule.performArithmetic operation s other = none ∧
    BCDArithmeticModule.performArithmetic operation other s = none ∧
    BCDArithmeticModule.bcdToDecimal s
      = join [] ((splitWs (trim s)).map fun g => Nat.toDigits 10 (radixValue 2 g)) := by
  have hv := BCDArithmeticModule.isValidBCD_false_of_invalid_group s h4 hbad
  refine ⟨hv, ?_, ?_, BCDArithmeticModule.bcdToDecimal_of_four_bit_groups s h4⟩
  · simp [BCDArithmeticModule.performArithmetic, hv]
  · simp [BCDArithmeticModule.performArithmetic, hv]

/-- C11 witness: the operand `0001 1010` against `0011` in add mode. -/
theorem invalid_group_rejected_by_isValidBCD_witness :
    ((∀ g ∈ splitWs (trim "0001 1010".toList), g.length = 4 ∧ AllBits g) ∧
      (∃ g ∈ splitWs (trim "0001 1010".toList), radixValue 2 g > 9)) ∧
    BCDArithmeticModule.isValidBCD "0001 1010".toList = false ∧
    BCDArithmeticModule.performArithmetic "add".toList "0001 1010".toList "0011".toList
      = none ∧
    BCDArithmeticModule.performArithmetic "add".toList "0011".toList "0001 1010".toList
      = none ∧
    BCDArithmeticModule.bcdToDecimal "0001 1010".toList
      = join [] ((splitWs (trim "0001 1010".toList)).map
          fun g => Nat.toDigits 10 (radixValue 2 g)) :=
  ⟨by decide, invalid_group_rejected_by_isValidBCD "0001 1010".toList "0011".toList
    "add".toList (by decide) (by decide)⟩

/-! ## The shape of `decimalToBCD` -/

theorem splitSpace_no_space (g : List Char) (hg : ' ' ∉ g) : splitSpace g = [g] := by
  induction g with
  | nil => rfl
  | cons c t ih =>
    have hc : c ≠ ' ' := fun e => hg (by simp [e])
    have ht : ' ' ∉ t := fun h => hg (List.mem_cons_of_mem _ h)
    simp only [splitSpace, hc, if_false, ih ht]

theorem splitSpace_append_space (g rest : List Char) (hg : ' ' ∉ g) :
    splitSpace (g ++ ' ' :: rest) = g :: splitSpace rest := by
  induction g with
  | nil => simp [splitSpace]
  | cons c t ih =>
    have hc : c ≠ ' ' := fun e => hg (by simp [e])
    have ht : ' ' ∉ t := fun h => hg (List.mem_cons_of_mem _ h)
    have e := ih ht
    simp only [List.cons_append, splitSpace, hc, if_false]
    show (match splitSpace (t ++ ' ' :: rest) with
      | g :: gs => (c :: g) :: gs
      | [] => [[c]]) = (c :: t) :: splitSpace rest
    rw [e]

/-- Splitting at single spaces a list of space-free groups joined by single
spaces gives the groups back. -/
theorem splitSpace_join (gs : List (List Char)) (hne : gs ≠ [])
    (hg : ∀ g ∈ gs, ' ' ∉ g) : splitSpace (join [' '] gs) = gs := by
  induction gs with
  | nil => exact absurd rfl hne
  | cons g rest ih =>
    cases rest with
    | nil => exact splitSpace_no_space g (hg g (by simp))
    | cons g2 gs =>
      have hrest := ih (by simp) (fun x hx => hg x (List.mem_cons_of_mem _ hx))
      rw [join_cons_cons, List.append_assoc, List.singleton_append,
        splitSpace_append_space g _ (hg g (by simp)), hrest]

/-- The group emitted for a decimal digit: four bits, no space, the value of
the digit. -/
theorem digit_group_shape (c : Char) (h : 48 ≤ c.toNat ∧ c.toNat ≤ 57) :
    padStart 4 '0' (toStringRadix 2 (parseIntChar c)) = toBinary 4 (c.toNat - 48) ∧
    (toBinary 4 (c.toNat - 48)).length = 4 ∧ AllBits (toBinary 4 (c.toNat - 48)) ∧
    ' ' ∉ toBinary 4 (c.toNat - 48) ∧
    radixValue 2 (toBinary 4 (c.toNat - 48)) = c.toNat - 48 ∧ c.toNat - 48 ≤ 9 := by
  rcases decimal_char_cases c h with h | h | h | h | h | h | h | h | h | h <;> subst h <;>
    decide

/-- C14: for every non-empty string `d` of decimal digits, `decimalToBCD(d)`
is the groups `g_1 ... g_n`, one per digit of `d` and in the same order,
joined by single spaces (splitting at single spaces gives exactly these `|d|`
groups); each `g_i` is the 4-bit zero-padded binary of the `i`-th digit, so
its value is that digit and never one of 1010 to 1111. -/
theorem decimalToBCD_shape (d : List Char) (hd : isDecimal d = true) :
    BCDConversionModule.decimalToBCD d
      = join [' '] (d.map fun c => toBinary 4 (c.toNat - 48)) ∧
    splitSpace (BCDConversionModule.decimalToBCD d)
      = d.map (fun c => toBinary 4 (c.toNat - 48)) ∧
    (splitSpace (BCDConversionModule.decimalToBCD d)).length = d.length ∧
    ∀ g ∈ splitSpace (BCDConversionModule.decimalToBCD d),
      g.length = 4 ∧ AllBits g ∧ radixValue 2 g ≤ 9 := by
  have hne : d ≠ [] := by
    intro h; subst h; simp [isDecimal] at hd
  have hdig : ∀ c ∈ d, 48 ≤ c.toNat ∧ c.toNat ≤ 57 := by
    intro c hc
    simp only [isDecimal, Bool.and_eq_true, List.all_eq_true, decide_eq_true_eq] at hd
    exact hd.2 c hc
  have hmap : d.map (fun digit => padStart 4 '0' (toStringRadix 2 (parseIntChar digit)))
      = d.map (fun c => toBinary 4 (c.toNat - 48)) :=
    List.map_congr_left (fun c hc => (digit_group_shape c (hdig c hc)).1)
  have h1 : BCDConversionModule.decimalToBCD d
      = join [' '] (d.map fun c => toBinary 4 (c.toNat - 48)) := by
    unfold BCDConversionModule.decimalToBCD
    rw [hmap]
  have h2 : splitSpace (BCDConversionModule.decimalToBCD d)
      = d.map (fun c => toBinary 4 (c.toNat - 48)) := by
    rw [h1]
    apply splitSpace_join _ (by simpa using hne)
    intro g hg
    obtain ⟨c, hc, rfl⟩ := List.mem_map.1 hg
    exact (digit_group_shape c (hdig c hc)).2.2.2.1
  refine ⟨h1, h2, by rw [h2, List.length_map], ?_⟩
  intro g hg
  rw [h2] at hg
  obtain ⟨c, hc, rfl⟩ := List.mem_map.1 hg
  obtain ⟨_, a1, a2, _, a4, a5⟩ := digit_group_shape c (hdig c hc)
  exact ⟨a1, a2, by omega⟩

/-- C14 witness: `1234` gives `0001 0010 0011 0100`. -/
theorem decimalToBCD_shape_witness :
    isDecimal "1234".toList = true ∧
    BCDConversionModule.decimalToBCD "1234".toList = "0001 0010 0011 0100".toList ∧
    splitSpace (BCDConversionModule.decimalToBCD "1234".toList)
      = ["0001".toList, "0010".toList, "0011".toList, "0100".toList] ∧
    (splitSpace (BCDConversionModule.decimalToBCD "1234".toList)).length
      = "1234".toList.length :=
  ⟨by decide, by decide, by decide,
    (decimalToBCD_shape "1234".toList (by decide)).2.2.1⟩

/-! ## Exactness of the binary converter -/

theorem charDigit_digitChar (d : Nat) (h : d < 16) :
    charDigit (Nat.digitChar d) = d ∧ charDigit (Nat.digitChar d).toUpper = d := by
  interval_cases d <;> decide

/-- Printing in a radix up to 16 and reading back gives the number, also after
`toUpperCase`. -/
theorem radixValue_toStringRadix (r : Nat) (h2 : 2 ≤ r) (h16 : r ≤ 16) (n : Nat) :
    radixValue r (toStringRadix r n) = n ∧
    radixValue r (toUpperCase (toStringRadix r n)) = n := by
  induction n using Nat.strong_induction_on with
  | _ n ih =>
    by_cases hlt : n < r
    · rw [toStringRadix_lt r n hlt]
      have := charDigit_digitChar n (by omega)
      simp [toUpperCase, radixValue_singleton, this.1, this.2]
    · have hge : r ≤ n := by omega
      have hdiv : n / r < n := Nat.div_lt_self (by omega) h2
      have hmod : n % r < r := Nat.mod_lt _ (by omega)
      have hcd := charDigit_digitChar (n % r) (by omega)
      obtain ⟨i1, i2⟩ := ih (n / r) hdiv
      have hn : n / r * r + n % r = n := Nat.div_add_mod' n r
      rw [toStringRadix_ge r n h2 hge]
      refine ⟨?_, ?_⟩
      · rw [radixValue_snoc, i1, hcd.1, hn]
      · have e : toUpperCase (toStringRadix r (n / r) ++ [Nat.digitChar (n % r)])
            = toUpperCase (toStringRadix r (n / r)) ++ [(Nat.digitChar (n % r)).toUpper] := by
          simp [toUpperCase]
        rw [e, radixValue_snoc, i2, hcd.2, hn]

/-- C19 (as stated, refuted): for the 54-bit string of ones, which denotes
`2^54 - 1`, the decimal result of `performConversion` is `2^54`, and the octal
and hexadecimal results denote `2^54` as well. -/
theorem performConversion_rounds_long_input :
    isBinary (List.replicate 54 '1') = true ∧
    radixValue 2 (List.replicate 54 '1') = 2 ^ 54 - 1 ∧
    (BinaryConversionsModule.performConversion (List.replicate 54 '1')).map
      (fun r => (r.decimal, radixValue 8 r.octal, radixValue 16 r.hex))
      = some (some (2 ^ 54), 2 ^ 54, 2 ^ 54) ∧
    (BinaryConversionsModule.performConversion (List.replicate 54 '1')).map
      (fun r => r.decimal) ≠ some (some (radixValue 2 (List.replicate 54 '1'))) := by
  decide

/-- C19 (amended): for every non-empty binary string whose value is below
`2^53` (in particular every string of at most 53 bits), the decimal, octal and
hexadecimal results of `performConversion` denote exactly the non-negative
integer that the string represents in base 2. -/
theorem performConversion_exact_below_2_53 (s : List Char) (hs : isBinary s = true)
    (hv : radixValue 2 s < 2 ^ 53) :
    ∃ r, BinaryConversionsModule.performConversion s = some r ∧
      r.decimal = some (radixValue 2 s) ∧
      radixValue 10 (numberToString r.decimal) = radixValue 2 s ∧
      radixValue 8 r.octal = radixValue 2 s ∧
      radixValue 16 r.hex = radixValue 2 s := by
  obtain ⟨hne, hd⟩ := isBinary_digits s hs
  have hemp : s.isEmpty = false := by
    cases s with
    | nil => exact absurd rfl hne
    | cons c t => rfl
  have hp := parseInt_exact 2 s hne (fun c hc => (hd c hc).1) hv
  refine ⟨_, by simp only [BinaryConversionsModule.performConversion, hemp, hs]; rfl, ?_, ?_, ?_, ?_⟩
  · exact hp
  · simp only [hp, numberToString]
    exact (radixValue_toStringRadix 10 (by omega) (by omega) _).1
  · simp only [hp, numberToStringRadix]
    exact (radixValue_toStringRadix 8 (by omega) (by omega) _).1
  · simp only [hp, numberToStringRadix]
    exact (radixValue_toStringRadix 16 (by omega) (by omega) _).2

/-- C19 witness: `1101` gives decimal 13, octal `15`, hexadecimal `D`. -/
theorem performConversion_exact_below_2_53_witness :
    (isBinary "1101".toList = true ∧ radixValue 2 "1101".toList < 2 ^ 53) ∧
    BinaryConversionsModule.performConversion "1101".toList
      = some { decimal := some 13, octal := "15".toList, hex := "D".toList } ∧
    ∃ r, BinaryConversionsModule.performConversion "1101".toList = some r ∧
      r.decimal = some (radixValue 2 "1101".toList) ∧
      radixValue 10 (numberToString r.decimal) = radixValue 2 "1101".toList ∧
      radixValue 8 r.octal = radixValue 2 "1101".toList ∧
      radixValue 16 r.hex = radixValue 2 "1101".toList :=
  ⟨by decide, by decide,
    performConversion_exact_below_2_53 "1101".toList (by decide) (by decide)⟩

/-! ## Single-bit error detection -/

theorem countOnes_cons (c : Char) (t : List Char) :
    countOnes (c :: t) = (if c = '1' then 1 else 0) + countOnes t := by
  unfold countOnes
  by_cases h : c = '1'
  · simp [List.filter_cons, h]; omega
  · simp [List.filter_cons, h]

theorem filter_range_eq (n i : Nat) (hi : i < n) :
    (List.range n).filter (fun j => decide (j = i)) = [i] := by
  induction n with
  | zero => omega
  | succ n ih =>
    rw [List.range_succ, List.filter_append]
    by_cases h : i < n
    · have hne : ¬ (n = i) := by omega
      simp [ih h, hne]
    · have he : n = i := by omega
      subst he
      have : (List.range n).filter (fun j => decide (j = n)) = [] := by
        rw [List.filter_eq_nil_iff]
        intro a ha
        rw [List.mem_range] at ha
        simp
        omega
      simp [this]

/-- Two words of bits that differ at exactly one position have counts of 1s of
different parity. -/
theorem countOnes_parity_of_single_difference :
    ∀ (o r : List Char) (i : Nat), AllBits o → AllBits r → o.length = r.length →
      i < o.length →
      (∀ j, j < o.length → (o.getD j '0' ≠ r.getD j '0' ↔ j = i)) →
      (countOnes o + countOnes r) % 2 = 1 := by
  intro o
  induction o with
  | nil => intro r i _ _ _ hi; simp at hi
  | cons x xs ih =>
    intro r i ho hr hlen hi hdiff
    cases r with
    | nil => simp at hlen
    | cons y ys =>
      obtain ⟨hx, hxs⟩ := AllBits.cons_iff.1 ho
      obtain ⟨hy, hys⟩ := AllBits.cons_iff.1 hr
      have hl : xs.length = ys.length := by simpa using hlen
      rw [countOnes_cons, countOnes_cons]
      cases i with
      | zero =>
        have hxy : x ≠ y := by
          have := (hdiff 0 (by simp)).2 rfl
          simpa using this
        have htail : xs = ys := by
          apply List.ext_getElem hl
          intro j h1 h2
          have := hdiff (j + 1) (by simp; omega)
          simp only [List.getD_cons_succ, Nat.add_one_ne_zero, iff_false, not_not] at this
          rwa [List.getD_eq_getElem xs '0' h1, List.getD_eq_getElem ys '0' h2] at this
        subst htail
        rcases hx with rfl | rfl <;> rcases hy with rfl | rfl <;>
          first
            | exact absurd rfl hxy
            | (simp; omega)
      | succ k =>
        have hxy : x = y := by
          have := hdiff 0 (by simp)
          simp only [List.getD_cons_zero] at this
          by_contra hne
          have := this.1 hne
          omega
        subst hxy
        have hrec := ih ys k hxs hys hl (by simpa using hi) (by
          intro j hj
          have := hdiff (j + 1) (by simp; omega)
          simp only [List.getD_cons_succ] at this
          rw [this]
          omega)
        omega

/-- C13: for every binary word `original` whose count of 1s matches the mode
(even count in even mode, odd count in odd mode) and every binary word
`received` of the same length that differs from it at exactly the position
`i`, `detectError` reports an error and its difference list is `[i]`. -/
theorem detectError_single_bit (mode original received : List Char) (i : Nat)
    (ho : isBinary original = true) (hr : isBinary received = true)
    (hlen : original.length = received.length) (hi : i < original.length)
    (hdiff : ∀ j, j < original.length →
      (original.getD j '0' ≠ received.getD j '0' ↔ j = i))
    (hmode : (mode = "even".toList ∧ countOnes original % 2 = 0) ∨
      (mode = "odd".toList ∧ countOnes original % 2 = 1)) :
    ∃ r, ParityBitsModule.detectError mode original received = some r ∧
      r.originalValid = true ∧ r.errorDetected = true ∧ r.differences = [i] := by
  have hob := ((isBinary_iff original).1 ho).2
  have hrb := ((isBinary_iff received).1 hr).2
  have hpar := countOnes_parity_of_single_difference original received i hob hrb hlen hi hdiff
  have hfilter : (List.range original.length).filter
      (fun j => original.getD j '0' != received.getD j '0') = [i] := by
    rw [← filter_range_eq original.length i hi]
    apply List.filter_congr
    intro j hj
    rw [List.mem_range] at hj
    have := hdiff j hj
    by_cases hji : j = i
    · have h1 := this.2 hji
      rw [decide_eq_true hji]
      exact bne_iff_ne.2 h1
    · have h1 : ¬ (original.getD j '0' ≠ received.getD j '0') := fun h => hji (this.1 h)
      simp only [ne_eq, not_not] at h1
      rw [decide_eq_false hji, h1]
      exact bne_self_eq_false _
  have hodd : ("odd".toList = ['e', 'v', 'e', 'n']) = False := by decide
  have heven : ("even".toList = ['e', 'v', 'e', 'n']) = True := by decide
  have hg1 : ¬ ((!isBinary original || !isBinary received) = true) := by simp [ho, hr]
  have hg2 : ¬ (original.length ≠ received.length) := not_not.2 hlen
  unfold countOnes at hpar hmode
  unfold ParityBitsModule.detectError
  rw [if_neg hg1, if_neg hg2]
  rcases hmode with ⟨rfl, hc⟩ | ⟨rfl, hc⟩
  · refine ⟨_, rfl, ?_, ?_, hfilter⟩
    · simp only [heven, if_true, hc, decide_True]
    · simp only [heven, if_true, Bool.not_eq_true', decide_eq_false_iff_not]
      omega
  · refine ⟨_, rfl, ?_, ?_, hfilter⟩
    · simp only [hodd, if_false, hc, decide_True]
    · simp only [hodd, if_false, Bool.not_eq_true', decide_eq_false_iff_not]
      omega

/-- C13 witness: `10101100` (four 1s, even mode) received as `10101110`. -/
theorem detectError_single_bit_witness :
    (isBinary "10101100".toList = true ∧ isBinary "10101110".toList = true ∧
      countOnes "10101100".toList % 2 = 0) ∧
    ParityBitsModule.detectError "even".toList "10101100".toList "10101110".toList
      = some { originalOnes := 4, receivedOnes := 5, originalValid := true,
               receivedValid := false, errorDetected := true, differences := [6] } ∧
    ∃ r, ParityBitsModule.detectError "even".toList "10101100".toList "10101110".toList
        = some r ∧
      r.originalValid = true ∧ r.errorDetected = true ∧ r.differences = [6] :=
  ⟨by decide, by decide,
    detectError_single_bit "even".toList "10101100".toList "10101110".toList 6
      (by decide) (by decide) (by decide) (by decide) (by decide) (Or.inl (by decide))⟩

/-! ## One's-complement subtraction -/

namespace OnesComplementModule

/-- On operands of equal width the `endAroundCarry` field is 1 exactly when
the unsigned sum reaches `2^w`, and 0 otherwise. -/
theorem onesComplementAddition_carry (a b : List Char) (ha : AllBits a) (hb : AllBits b)
    (hlen : a.length = b.length) :
    (2 ^ a.length ≤ radixValue 2 a + radixValue 2 b →
      (onesComplementAddition a b).endAroundCarry = 1) ∧
    (radixValue 2 a + radixValue 2 b < 2 ^ a.length →
      (onesComplementAddition a b).endAroundCarry = 0) := by
  have hpa : padStart a.length '0' a = a := by
    simp [padStart]
  have hpb : padStart a.length '0' b = b := by
    simp [padStart, hlen]
  have hmax : max a.length b.length = a.length := by simp [hlen]
  obtain ⟨j1, j2, j3, j4⟩ := TwosComplementCalculator.addLoop_spec a b ha hb a.length 0 [] []
    (Nat.le_refl _) (by omega) (by omega) AllBits.nil
  simp only [List.length_nil, Nat.add_zero, pow_zero, Nat.mul_one, radixValue_nil,
    List.take_length] at j1 j4
  have htb : List.take a.length b = b := List.take_of_length_le (by omega)
  rw [htb] at j4
  have hR := radixValue_two_lt j2
  rw [j1] at hR
  unfold onesComplementAddition
  simp only [hmax, hpa, hpb, addLoop_eq a b a.length 0 [] []]
  generalize TwosComplementCalculator.addLoop a b a.length 0 [] [] = r at j1 j2 j3 j4 hR
  obtain ⟨c, R, cs⟩ := r
  simp only at j1 j2 j3 j4 hR ⊢
  by_cases hc : c = 1
  · subst hc
    simp only [if_true]
    exact ⟨fun _ => trivial, fun h => by omega⟩
  · have hc0 : c = 0 := by omega
    subst hc0
    simp only [show ¬ ((0 : Nat) = 1) by decide, if_false]
    exact ⟨fun h => by omega, fun _ => trivial⟩

end OnesComplementModule

/-- C12: for binary strings `a`, `b` of the same width `w` with
`value(a) > value(b)`, `onesComplementSubtraction(a, b)` returns
`endAroundCarry = 1` and a `w`-bit `finalResult` whose unsigned value is
`value(a) - value(b)`. -/
theorem onesComplementSubtraction_positive (a b : List Char)
    (ha : isBinary a = true) (hb : isBinary b = true) (hlen : a.length = b.length)
    (hgt : radixValue 2 a > radixValue 2 b) :
    (OnesComplementModule.onesComplementSubtraction a b).endAroundCarry = 1 ∧
    (OnesComplementModule.onesComplementSubtraction a b).finalResult.length = a.length ∧
    AllBits (OnesComplementModule.onesComplementSubtraction a b).finalResult ∧
    radixValue 2 (OnesComplementModule.onesComplementSubtraction a b).finalResult
      = radixValue 2 a - radixValue 2 b := by
  have hab := ((isBinary_iff a).1 ha).2
  have hbb := ((isBinary_iff b).1 hb).2
  have hfb : AllBits (b.map flipBit) := TwosComplementCalculator.AllBits.map_flipBit b
  have hfl : a.length = (b.map flipBit).length := by rw [List.length_map]; exact hlen
  have hflip := TwosComplementCalculator.radixValue_map_flipBit hbb
  rw [← hlen] at hflip
  have hA := radixValue_two_lt hab
  obtain ⟨h1, h2, h3⟩ :=
    OnesComplementModule.onesComplementAddition_arith a (b.map flipBit) hab hfb hfl
  obtain ⟨c1, _⟩ :=
    OnesComplementModule.onesComplementAddition_carry a (b.map flipBit) hab hfb hfl
  unfold OnesComplementModule.onesComplementSubtraction OnesComplementModule.findOnesComplement
  refine ⟨c1 (by omega), h1, h2, ?_⟩
  rcases h3 with ⟨h4, _⟩ | ⟨_, h5⟩
  · omega
  · omega

/-- C12 witness: `1101 - 0011` (13 - 3) gives carry 1 and `1010`. -/
theorem onesComplementSubtraction_positive_witness :
    (isBinary "1101".toList = true ∧ isBinary "0011".toList = true ∧
      radixValue 2 "1101".toList > radixValue 2 "0011".toList) ∧
    (OnesComplementModule.onesComplementSubtraction "1101".toList "0011".toList).finalResult
      = "1010".toList ∧
    (OnesComplementModule.onesComplementSubtraction "1101".toList "0011".toList).endAroundCarry
      = 1 :=
  ⟨by decide, by decide,
    (onesComplementSubtraction_positive "1101".toList "0011".toList (by decide) (by decide)
      (by decide) (by decide)).1⟩

/-! ## BCD addition: the correction flag and the carry group -/

namespace BCDArithmeticModule

/-- One iteration of the digit loop on valid groups, with the next state
written out. -/
theorem addLoop_step_full (groups1 groups2 : List (List Char)) (maxLen k : Nat)
    (st : LoopState) (hlt1 : k < groups1.length) (hlt2 : k < groups2.length)
    (hg1 : ValidGroup groups1[k]) (hg2 : ValidGroup groups2[k])
    (c : Nat) (hcs : st.carry = some c) :
    addLoop groups1 groups2 maxLen (k + 1) st = addLoop groups1 groups2 maxLen k
      { result := groupString (some ((if radixValue 2 groups1[k] + radixValue 2 groups2[k] + c > 9
            then radixValue 2 groups1[k] + radixValue 2 groups2[k] + c + 6
            else radixValue 2 groups1[k] + radixValue 2 groups2[k] + c) % 16)) :: st.result,
        carry := some ((if radixValue 2 groups1[k] + radixValue 2 groups2[k] + c > 9
            then radixValue 2 groups1[k] + radixValue 2 groups2[k] + c + 6
            else radixValue 2 groups1[k] + radixValue 2 groups2[k] + c) / 16),
        correctionApplied :=
          decide (radixValue 2 groups1[k] + radixValue 2 groups2[k] + c > 9)
            || st.correctionApplied,
        steps := st.steps ++ [{
          position := maxLen - 1 - k,
          digit1 := some (radixValue 2 groups1[k]),
          digit2 := some (radixValue 2 groups2[k]),
          carry := some c,
          sum := some (radixValue 2 groups1[k] + radixValue 2 groups2[k] + c),
          needsCorrection := decide (radixValue 2 groups1[k] + radixValue 2 groups2[k] + c > 9),
          correctedSum := some (if radixValue 2 groups1[k] + radixValue 2 groups2[k] + c > 9
            then radixValue 2 groups1[k] + radixValue 2 groups2[k] + c + 6
            else radixValue 2 groups1[k] + radixValue 2 groups2[k] + c) }] } := by
  simp only [addLoop, List.getD_eq_getElem groups1 [] hlt1,
    List.getD_eq_getElem groups2 [] hlt2, parseInt_validGroup _ hg1,
    parseInt_validGroup _ hg2, hcs, numAdd, numGt]
  by_cases hgt : radixValue 2 groups1[k] + radixValue 2 groups2[k] + c > 9
  · simp only [hgt, decide_True, if_true, Option.map_some', Bool.true_or]
  · simp only [hgt, decide_False, Bool.false_eq_true, if_false, Option.map_some',
      Bool.false_or]

/-- One iteration of the digit loop on valid groups, field by field. -/
theorem addLoop_step_fields (groups1 groups2 : List (List Char)) (maxLen k : Nat)
    (st : LoopState) (hlt1 : k < groups1.length) (hlt2 : k < groups2.length)
    (hg1 : ValidGroup groups1[k]) (hg2 : ValidGroup groups2[k])
    (c : Nat) (hcs : st.carry = some c) :
    ∃ (st1 : LoopState) (s : Step),
      addLoop groups1 groups2 maxLen (k + 1) st = addLoop groups1 groups2 maxLen k st1 ∧
      st1.result = groupString (some ((if radixValue 2 groups1[k] + radixValue 2 groups2[k] + c > 9
            then radixValue 2 groups1[k] + radixValue 2 groups2[k] + c + 6
            else radixValue 2 groups1[k] + radixValue 2 groups2[k] + c) % 16)) :: st.result ∧
      st1.carry = some ((if radixValue 2 groups1[k] + radixValue 2 groups2[k] + c > 9
            then radixValue 2 groups1[k] + radixValue 2 groups2[k] + c + 6
            else radixValue 2 groups1[k] + radixValue 2 groups2[k] + c) / 16) ∧
      st1.correctionApplied = (s.needsCorrection || st.correctionApplied) ∧
      st1.steps = st.steps ++ [s] ∧
      s.position = maxLen - 1 - k ∧
      s.digit1 = some (radixValue 2 groups1[k]) ∧
      s.digit2 = some (radixValue 2 groups2[k]) ∧
      s.carry = some c ∧
      s.sum = some (radixValue 2 groups1[k] + radixValue 2 groups2[k] + c) ∧
      s.needsCorrection
        = decide (radixValue 2 groups1[k] + radixValue 2 groups2[k] + c > 9) :=
  ⟨_, _, addLoop_step_full groups1 groups2 maxLen k st hlt1 hlt2 hg1 hg2 c hcs,
    rfl, rfl, rfl, rfl, rfl, rfl, rfl, rfl, rfl, rfl⟩

/-- Invariant of the digit loop for the trace and the correction flag. -/
theorem addLoop_steps (groups1 groups2 : List (List Char)) (maxLen : Nat)
    (h1 : ∀ g ∈ groups1, ValidGroup g) (h2 : ∀ g ∈ groups2, ValidGroup g) :
    ∀ (k : Nat) (st : LoopState), k ≤ groups1.length → k ≤ groups2.length → k ≤ maxLen →
      (∃ c, st.carry = some c ∧ c ≤ 1) →
      ∃ newSteps : List Step,
        (addLoop groups1 groups2 maxLen k st).steps = st.steps ++ newSteps ∧
        newSteps.length = k ∧
        (addLoop groups1 groups2 maxLen k st).correctionApplied
          = (st.correctionApplied || newSteps.any (fun s => s.needsCorrection)) ∧
        ∀ s ∈ newSteps, StepRecords groups1 groups2 maxLen s := by
  intro k
  induction k with
  | zero =>
    intro st _ _ _ _
    exact ⟨[], by simp [addLoop], rfl, by simp [addLoop], by simp⟩
  | succ k ih =>
    intro st hk1 hk2 hkm hc
    obtain ⟨c, hcs, hcle⟩ := hc
    have hlt1 : k < groups1.length := hk1
    have hlt2 : k < groups2.length := hk2
    have hg1 := h1 _ (List.getElem_mem hlt1)
    have hg2 := h2 _ (List.getElem_mem hlt2)
    have hd := corrected_digit _ _ c hg1.2.2 hg2.2.2 hcle
    obtain ⟨st1, s0, hstep, f1, f2, f3, f4, p1, p2, p3, p4, p5, p6⟩ :=
      addLoop_step_fields groups1 groups2 maxLen k st hlt1 hlt2 hg1 hg2 c hcs
    obtain ⟨ns, e1, e2, e3, e4⟩ := ih st1 (Nat.le_of_lt hlt1) (Nat.le_of_lt hlt2)
      (by omega) ⟨_, f2, hd.2⟩
    rw [hstep, e1, e3, f3, f4]
    refine ⟨s0 :: ns, by simp, by simp [e2], ?_, ?_⟩
    · simp only [List.any_cons, Bool.or_assoc, Bool.or_comm, Bool.or_left_comm]
    · intro s hs
      rcases List.mem_cons.1 hs with h | h
      · subst h
        refine ⟨k, c, by omega, p1, hcle, ?_, ?_, p4, ?_, ?_⟩
        · rw [p2, List.getD_eq_getElem groups1 [] hlt1]
        · rw [p3, List.getD_eq_getElem groups2 [] hlt2]
        · rw [p5, List.getD_eq_getElem groups1 [] hlt1, List.getD_eq_getElem groups2 [] hlt2]
        · rw [p6, List.getD_eq_getElem groups1 [] hlt1, List.getD_eq_getElem groups2 [] hlt2,
            decide_eq_true_eq]
      · exact e4 s h

end BCDArithmeticModule

namespace BCDArithmeticModule

/-- The flag and the trace returned by `bcdAddition` are those of the digit
loop (the final carry group does not touch them). -/
theorem bcdAddition_flag_steps (a b : List Char) :
    (bcdAddition a b).correctionApplied
      = (addLoop (padGroups (max (groupsOf a).length (groupsOf b).length) (groupsOf a))
          (padGroups (max (groupsOf a).length (groupsOf b).length) (groupsOf b))
          (max (groupsOf a).length (groupsOf b).length)
          (max (groupsOf a).length (groupsOf b).length)
          { result := [], carry := some 0, correctionApplied := false,
            steps := [] }).correctionApplied ∧
    (bcdAddition a b).steps
      = (addLoop (padGroups (max (groupsOf a).length (groupsOf b).length) (groupsOf a))
          (padGroups (max (groupsOf a).length (groupsOf b).length) (groupsOf b))
          (max (groupsOf a).length (groupsOf b).length)
          (max (groupsOf a).length (groupsOf b).length)
          { result := [], carry := some 0, correctionApplied := false, steps := [] }).steps := by
  unfold bcdAddition bcdAdditionState groupsOf
  simp only
  split <;> exact ⟨rfl, rfl⟩

end BCDArithmeticModule

/-- C15: for valid non-empty BCD operands `a` and `b`,
`bcdAddition(a, b).correctionApplied` is true if and only if some entry of the
returned `steps` trace has `needsCorrection` true, if and only if some entry
records a raw sum above 9; the trace has one entry per digit position, and
each entry records the two digits at its position, the incoming carry, their
sum `digitA + digitB + carry_in` (before 6 is added), and `needsCorrection`
true exactly when that sum exceeds 9. -/
theorem bcdAddition_correctionApplied_iff (a b : List Char)
    (ha : BCDArithmeticModule.ValidOperand a) (hb : BCDArithmeticModule.ValidOperand b) :
    ((BCDArithmeticModule.bcdAddition a b).correctionApplied = true ↔
      ∃ s ∈ (BCDArithmeticModule.bcdAddition a b).steps, s.needsCorrection = true) ∧
    ((BCDArithmeticModule.bcdAddition a b).correctionApplied = true ↔
      ∃ s ∈ (BCDArithmeticModule.bcdAddition a b).steps, ∃ v, s.sum = some v ∧ v > 9) ∧
    (BCDArithmeticModule.bcdAddition a b).steps.length
      = max (BCDArithmeticModule.groupsOf a).length (BCDArithmeticModule.groupsOf b).length ∧
    ∀ s ∈ (BCDArithmeticModule.bcdAddition a b).steps,
      BCDArithmeticModule.StepRecords
        (BCDArithmeticModule.padGroups
          (max (BCDArithmeticModule.groupsOf a).length (BCDArithmeticModule.groupsOf b).length)
          (BCDArithmeticModule.groupsOf a))
        (BCDArithmeticModule.padGroups
          (max (BCDArithmeticModule.groupsOf a).length (BCDArithmeticModule.groupsOf b).length)
          (BCDArithmeticModule.groupsOf b))
        (max (BCDArithmeticModule.groupsOf a).length (BCDArithmeticModule.groupsOf b).length)
        s := by
  obtain ⟨hflag, hsteps⟩ := BCDArithmeticModule.bcdAddition_flag_steps a b
  obtain ⟨ns, e1, e2, e3, e4⟩ := BCDArithmeticModule.addLoop_steps
    (BCDArithmeticModule.padGroups
      (max (BCDArithmeticModule.groupsOf a).length (BCDArithmeticModule.groupsOf b).length)
      (BCDArithmeticModule.groupsOf a))
    (BCDArithmeticModule.padGroups
      (max (BCDArithmeticModule.groupsOf a).length (BCDArithmeticModule.groupsOf b).length)
      (BCDArithmeticModule.groupsOf b))
    (max (BCDArithmeticModule.groupsOf a).length (BCDArithmeticModule.groupsOf b).length)
    (BCDArithmeticModule.padGroups_valid _ _ ha) (BCDArithmeticModule.padGroups_valid _ _ hb)
    (max (BCDArithmeticModule.groupsOf a).length (BCDArithmeticModule.groupsOf b).length)
    { result := [], carry := some 0, correctionApplied := false, steps := [] }
    (by rw [BCDArithmeticModule.length_padGroups]; omega)
    (by rw [BCDArithmeticModule.length_padGroups]; omega)
    (Nat.le_refl _) ⟨0, rfl, by omega⟩
  simp only [List.nil_append, Bool.false_or] at e1 e3
  rw [hflag, hsteps, e1, e3]
  have hany : (ns.any (fun s => s.needsCorrection) = true ↔
      ∃ s ∈ ns, s.needsCorrection = true) := by
    simp [List.any_eq_true]
  refine ⟨hany, ?_, e2, e4⟩
  rw [hany]
  constructor
  · rintro ⟨s, hs, hn⟩
    obtain ⟨i, c, _, _, _, _, _, _, hsum, hiff⟩ := e4 s hs
    exact ⟨s, hs, _, hsum, hiff.1 hn⟩
  · rintro ⟨s, hs, v, hv, hgt⟩
    obtain ⟨i, c, _, _, _, _, _, _, hsum, hiff⟩ := e4 s hs
    rw [hsum] at hv
    have : v = _ := (Option.some.inj hv).symm
    subst this
    exact ⟨s, hs, hiff.2 hgt⟩

/-- C15 witness: `0101 1001` (59) plus `0011` (3) corrects the units digit
(9 + 3 = 12), `0001` plus `0010` corrects nothing. -/
theorem bcdAddition_correctionApplied_iff_witness :
    (BCDArithmeticModule.ValidOperand "0101 1001".toList ∧
      BCDArithmeticModule.ValidOperand "0011".toList) ∧
    (BCDArithmeticModule.bcdAddition "0101 1001".toList "0011".toList).correctionApplied
      = true ∧
    (BCDArithmeticModule.bcdAddition "0101 1001".toList "0011".toList).steps.map
        (fun s => (s.position, s.sum, s.needsCorrection))
      = [(0, some 12, true), (1, some 6, false)] ∧
    (BCDArithmeticModule.bcdAddition "0001".toList "0010".toList).correctionApplied
      = false ∧
    ((BCDArithmeticModule.bcdAddition "0101 1001".toList "0011".toList).correctionApplied
        = true ↔
      ∃ s ∈ (BCDArithmeticModule.bcdAddition "0101 1001".toList "0011".toList).steps,
        s.needsCorrection = true) :=
  ⟨by decide, by decide, by decide, by decide,
    (bcdAddition_correctionApplied_iff "0101 1001".toList "0011".toList
      (by decide) (by decide)).1⟩

namespace BCDArithmeticModule

theorem bcdValue_nil : bcdValue [] = 0 := rfl

theorem bcdValue_snoc (gs : List (List Char)) (g : List Char) :
    bcdValue (gs ++ [g]) = bcdValue gs * 10 + radixValue 2 g := by
  simp [bcdValue, List.foldl_append]

theorem bcdValue_append (gs hs : List (List Char)) :
    bcdValue (gs ++ hs) = bcdValue gs * 10 ^ hs.length + bcdValue hs := by
  induction hs using List.reverseRecOn with
  | nil => simp [bcdValue_nil]
  | append_singleton hs g ih =>
    rw [← List.append_assoc, bcdValue_snoc, ih, bcdValue_snoc]
    simp [pow_succ]
    ring

theorem bcdValue_cons (g : List Char) (gs : List (List Char)) :
    bcdValue (g :: gs) = radixValue 2 g * 10 ^ gs.length + bcdValue gs := by
  have := bcdValue_append [g] gs
  simpa [bcdValue] using this

theorem bcdValue_replicate_zero (n : Nat) :
    bcdValue (List.replicate n ['0', '0', '0', '0']) = 0 := by
  induction n with
  | zero => rfl
  | succ n ih =>
    rw [List.replicate_succ', bcdValue_snoc, ih]
    decide

theorem bcdValue_padGroups (n : Nat) (gs : List (List Char)) :
    bcdValue (padGroups n gs) = bcdValue gs := by
  simp [padGroups, bcdValue_append, bcdValue_replicate_zero]

theorem bcdValue_lt (gs : List (List Char)) (h : ∀ g ∈ gs, ValidGroup g) :
    bcdValue gs < 10 ^ gs.length := by
  induction gs using List.reverseRecOn with
  | nil => simp [bcdValue_nil]
  | append_singleton gs g ih =>
    have h1 := ih (fun x hx => h x (List.mem_append_left _ hx))
    have h2 : radixValue 2 g ≤ 9 := (h g (by simp)).2.2
    rw [bcdValue_snoc, List.length_append, List.length_singleton, pow_succ]
    omega

/-- The corrected digit and the carry out account for the raw sum in base 10. -/
theorem corrected_digit_value (d1 d2 c : Nat) (h1 : d1 ≤ 9) (h2 : d2 ≤ 9) (hc : c ≤ 1) :
    (if d1 + d2 + c > 9 then d1 + d2 + c + 6 else d1 + d2 + c) % 16
      + 10 * ((if d1 + d2 + c > 9 then d1 + d2 + c + 6 else d1 + d2 + c) / 16)
      = d1 + d2 + c := by
  split <;> omega

theorem take_succ_getElem_groups (gs : List (List Char)) (k : Nat) (h : k < gs.length) :
    gs.take (k + 1) = gs.take k ++ [gs[k]] := by
  rw [List.take_succ, List.getElem?_eq_getElem h]
  rfl

/-- Invariant of the digit loop for the decimal value: the emitted groups and
the carry account for the processed groups and the incoming carry. -/
theorem addLoop_value (groups1 groups2 : List (List Char)) (maxLen : Nat)
    (h1 : ∀ g ∈ groups1, ValidGroup g) (h2 : ∀ g ∈ groups2, ValidGroup g) :
    ∀ (k : Nat) (st : LoopState) (c : Nat), k ≤ groups1.length → k ≤ groups2.length →
      st.carry = some c → c ≤ 1 →
      ∃ cf, (addLoop groups1 groups2 maxLen k st).carry = some cf ∧ cf ≤ 1 ∧
        bcdValue (addLoop groups1 groups2 maxLen k st).result
            + cf * 10 ^ (k + st.result.length)
          = (bcdValue (groups1.take k) + bcdValue (groups2.take k) + c)
              * 10 ^ st.result.length + bcdValue st.result := by
  intro k
  induction k with
  | zero =>
    intro st c _ _ hcs hcle
    refine ⟨c, hcs, hcle, ?_⟩
    simp [addLoop, bcdValue_nil]
    ring
  | succ k ih =>
    intro st c hk1 hk2 hcs hcle
    have hlt1 : k < groups1.length := hk1
    have hlt2 : k < groups2.length := hk2
    have hg1 := h1 _ (List.getElem_mem hlt1)
    have hg2 := h2 _ (List.getElem_mem hlt2)
    have hd := corrected_digit _ _ c hg1.2.2 hg2.2.2 hcle
    have hval := corrected_digit_value _ _ c hg1.2.2 hg2.2.2 hcle
    obtain ⟨st1, s0, hstep, f1, f2, _, _, _, _, _, _, _, _⟩ :=
      addLoop_step_fields groups1 groups2 maxLen k st hlt1 hlt2 hg1 hg2 c hcs
    obtain ⟨cf, g1, g2, g3⟩ := ih st1 _ (Nat.le_of_lt hlt1) (Nat.le_of_lt hlt2) f2 hd.2
    rw [hstep]
    refine ⟨cf, g1, g2, ?_⟩
    rw [f1, List.length_cons, bcdValue_cons, (groupString_valid _ hd.1).2] at g3
    rw [take_succ_getElem_groups groups1 k hlt1, take_succ_getElem_groups groups2 k hlt2,
      bcdValue_snoc, bcdValue_snoc]
    have e1 : k + 1 + st.result.length = k + (st.result.length + 1) := by omega
    rw [e1, g3, pow_succ]
    generalize (if radixValue 2 groups1[k] + radixValue 2 groups2[k] + c > 9
        then radixValue 2 groups1[k] + radixValue 2 groups2[k] + c + 6
        else radixValue 2 groups1[k] + radixValue 2 groups2[k] + c) % 16 = v at hval
    generalize (if radixValue 2 groups1[k] + radixValue 2 groups2[k] + c > 9
        then radixValue 2 groups1[k] + radixValue 2 groups2[k] + c + 6
        else radixValue 2 groups1[k] + radixValue 2 groups2[k] + c) / 16 = c1 at hval
    have : bcdValue (List.take k groups1) * 10 + radixValue 2 groups1[k]
          + (bcdValue (List.take k groups2) * 10 + radixValue 2 groups2[k]) + c
        = bcdValue (List.take k groups1) * 10 + bcdValue (List.take k groups2) * 10
          + (v + 10 * c1) := by omega
    rw [this]
    ring

/-- The groups of the string returned by `bcdAddition` are the entries of its
`result` array. -/
theorem groupsOf_bcdAddition (a b : List Char) (ha : ValidOperand a) (hb : ValidOperand b) :
    groupsOf (bcdAddition a b).bcd = (bcdAdditionState a b).result := by
  obtain ⟨hv, hne⟩ := bcdAdditionState_valid a b ha hb
  have hnw : ∀ g ∈ (bcdAdditionState a b).result, NoWs g ∧ g ≠ [] :=
    fun g hg => validGroup_noWs (hv g hg)
  unfold bcdAddition groupsOf
  simp only
  rw [trim_join _ hne hnw, splitWs_join _ hne hnw]

/-- Arithmetic content of `bcdAddition` on valid operands with `m` digit
positions: the loop leaves `m` valid groups and a carry 0..1 that account for
the sum; a carry 1 is put in front as the group `0001`. -/
theorem bcdAdditionState_arith (a b : List Char) (ha : ValidOperand a) (hb : ValidOperand b) :
    ∃ (R : List (List Char)) (cf : Nat),
      R.length = max (groupsOf a).length (groupsOf b).length ∧
      (∀ g ∈ R, ValidGroup g) ∧ cf ≤ 1 ∧
      bcdValue R + cf * 10 ^ (max (groupsOf a).length (groupsOf b).length)
        = bcdValue (groupsOf a) + bcdValue (groupsOf b) ∧
      (bcdAdditionState a b).result
        = if cf > 0 then ['0', '0', '0', '1'] :: R else R := by
  have hl1 := length_padGroups (max (groupsOf a).length (groupsOf b).length) (groupsOf a)
  have hl2 := length_padGroups (max (groupsOf a).length (groupsOf b).length) (groupsOf b)
  have hp1 := padGroups_valid (max (groupsOf a).length (groupsOf b).length) (groupsOf a) ha
  have hp2 := padGroups_valid (max (groupsOf a).length (groupsOf b).length) (groupsOf b) hb
  obtain ⟨r1, _, r3⟩ := addLoop_valid _ _
    (max (groupsOf a).length (groupsOf b).length) hp1 hp2
    (max (groupsOf a).length (groupsOf b).length)
    { result := [], carry := some 0, correctionApplied := false, steps := [] }
    (by rw [hl1]; omega) (by rw [hl2]; omega)
    (by intro g hg; simp at hg) ⟨0, rfl, by omega⟩
  obtain ⟨cf, v1, v2, v3⟩ := addLoop_value _ _
    (max (groupsOf a).length (groupsOf b).length) hp1 hp2
    (max (groupsOf a).length (groupsOf b).length)
    { result := [], carry := some 0, correctionApplied := false, steps := [] } 0
    (by rw [hl1]; omega) (by rw [hl2]; omega) rfl (by omega)
  simp only [List.length_nil, Nat.add_zero, pow_zero, Nat.mul_one, bcdValue_nil] at r3 v3
  rw [List.take_of_length_le (by rw [hl1]; omega), List.take_of_length_le (by rw [hl2]; omega),
    bcdValue_padGroups, bcdValue_padGroups] at v3
  refine ⟨_, cf, r3, r1, v2, v3, ?_⟩
  unfold bcdAdditionState
  unfold groupsOf at v1 ⊢
  simp only [v1, numGt]
  by_cases hgt : cf > 0
  · have hcf : cf = 1 := by omega
    subst hcf
    simp only [hgt, decide_True, if_true]
    rfl
  · simp only [hgt, decide_False, Bool.false_eq_true, if_false]

end BCDArithmeticModule

/-- C16: for valid non-empty BCD operands `a` and `b` with
`m = max(number of groups of a, number of groups of b)`,
`bcdAddition(a, b).bcd` has `m + 1` groups, the first being `0001`, when
`int(a) + int(b) ≥ 10^m`, and exactly `m` groups otherwise. -/
theorem bcdAddition_group_count (a b : List Char)
    (ha : BCDArithmeticModule.ValidOperand a) (hb : BCDArithmeticModule.ValidOperand b) :
    (BCDArithmeticModule.bcdValue (BCDArithmeticModule.groupsOf a)
        + BCDArithmeticModule.bcdValue (BCDArithmeticModule.groupsOf b)
        ≥ 10 ^ (max (BCDArithmeticModule.groupsOf a).length
                  (BCDArithmeticModule.groupsOf b).length) →
      (BCDArithmeticModule.groupsOf (BCDArithmeticModule.bcdAddition a b).bcd).length
        = max (BCDArithmeticModule.groupsOf a).length
            (BCDArithmeticModule.groupsOf b).length + 1 ∧
      (BCDArithmeticModule.groupsOf (BCDArithmeticModule.bcdAddition a b).bcd).head?
        = some ['0', '0', '0', '1']) ∧
    (BCDArithmeticModule.bcdValue (BCDArithmeticModule.groupsOf a)
        + BCDArithmeticModule.bcdValue (BCDArithmeticModule.groupsOf b)
        < 10 ^ (max (BCDArithmeticModule.groupsOf a).length
                  (BCDArithmeticModule.groupsOf b).length) →
      (BCDArithmeticModule.groupsOf (BCDArithmeticModule.bcdAddition a b).bcd).length
        = max (BCDArithmeticModule.groupsOf a).length
            (BCDArithmeticModule.groupsOf b).length) := by
  obtain ⟨R, cf, hlen, hvalid, hcf, hsum, hres⟩ :=
    BCDArithmeticModule.bcdAdditionState_arith a b ha hb
  have hR := BCDArithmeticModule.bcdValue_lt R hvalid
  rw [hlen] at hR
  rw [BCDArithmeticModule.groupsOf_bcdAddition a b ha hb, hres]
  have hcases : cf = 0 ∨ cf = 1 := by omega
  constructor
  · intro hge
    rcases hcases with rfl | rfl
    · omega
    · simp [hlen]
  · intro hlt
    rcases hcases with rfl | rfl
    · simp [hlen]
    · omega

/-- C16 witness: `1001 1001` (99) plus `0001` (1) reaches `10^2` and gives the
three groups `0001 0000 0000`; `0101 1001` (59) plus `0011` (3) stays at two
groups. -/
theorem bcdAddition_group_count_witness :
    (BCDArithmeticModule.ValidOperand "1001 1001".toList ∧
      BCDArithmeticModule.ValidOperand "0001".toList ∧
      BCDArithmeticModule.bcdValue (BCDArithmeticModule.groupsOf "1001 1001".toList)
        + BCDArithmeticModule.bcdValue (BCDArithmeticModule.groupsOf "0001".toList)
        ≥ 10 ^ (max (BCDArithmeticModule.groupsOf "1001 1001".toList).length
                  (BCDArithmeticModule.groupsOf "0001".toList).length)) ∧
    (BCDArithmeticModule.bcdAddition "1001 1001".toList "0001".toList).bcd
      = "0001 0000 0000".toList ∧
    (BCDArithmeticModule.bcdAddition "0101 1001".toList "0011".toList).bcd
      = "0110 0010".toList ∧
    (BCDArithmeticModule.groupsOf
        (BCDArithmeticModule.bcdAddition "1001 1001".toList "0001".toList).bcd).length
      = max (BCDArithmeticModule.groupsOf "1001 1001".toList).length
          (BCDArithmeticModule.groupsOf "0001".toList).length + 1 ∧
    (BCDArithmeticModule.groupsOf
        (BCDArithmeticModule.bcdAddition "1001 1001".toList "0001".toList).bcd).head?
      = some ['0', '0', '0', '1'] :=
  ⟨by decide, by decide, by decide,
    (bcdAddition_group_count "1001 1001".toList "0001".toList (by decide) (by decide)).1
      (by decide)⟩

/-! ## BCD subtraction -/

namespace BCDArithmeticModule

theorem join_nil_map_singleton {α : Type} (gs : List α) (h : α → Char) :
    join [] (gs.map fun g => [h g]) = gs.map h := by
  induction gs with
  | nil => rfl
  | cons g t ih =>
    cases t with
    | nil => rfl
    | cons g2 u =>
      simp only [List.map_cons] at ih ⊢
      rw [join_cons_cons, ih]
      rfl

/-- On a valid operand `bcdToDecimal` returns one decimal digit per group. -/
theorem bcdToDecimal_valid (s : List Char) (hs : ValidOperand s) :
    bcdToDecimal s = (groupsOf s).map (fun g => Nat.digitChar (radixValue 2 g)) := by
  unfold bcdToDecimal groupsOf
  rw [← join_nil_map_singleton]
  congr 1
  apply List.map_congr_left
  intro g hg
  have hv := hs g hg
  rw [parseInt_validGroup g hv]
  exact toStringRadix_lt 10 _ (by have := hv.2.2; omega)

/-- The digit string of valid groups denotes their decimal value and is made
of decimal digits. -/
theorem radixValue_digit_string (gs : List (List Char)) (h : ∀ g ∈ gs, ValidGroup g) :
    radixValue 10 (gs.map (fun g => Nat.digitChar (radixValue 2 g))) = bcdValue gs ∧
    ∀ c ∈ gs.map (fun g => Nat.digitChar (radixValue 2 g)), charDigit c < 10 := by
  induction gs using List.reverseRecOn with
  | nil => exact ⟨rfl, by simp⟩
  | append_singleton gs g ih =>
    obtain ⟨i1, i2⟩ := ih (fun x hx => h x (List.mem_append_left _ hx))
    have hg : radixValue 2 g ≤ 9 := (h g (by simp)).2.2
    have hcd := (charDigit_digitChar (radixValue 2 g) (by omega)).1
    rw [List.map_append, List.map_singleton, radixValue_snoc, bcdValue_snoc, i1, hcd]
    refine ⟨rfl, ?_⟩
    intro c hc
    rcases List.mem_append.1 hc with h1 | h1
    · exact i2 c h1
    · rw [List.mem_singleton] at h1
      rw [h1, hcd]
      omega

theorem groupsOf_ne_nil (s : List Char) : groupsOf s ≠ [] :=
  splitWsGo_ne_nil false (trim s)

/-- The call `Number.parseInt(this.bcdToDecimal(bcd))` on a valid operand whose
decimal value is below `2^53` yields that value. -/
theorem parseInt_bcdToDecimal (s : List Char) (hs : ValidOperand s)
    (hv : bcdValue (groupsOf s) < 2 ^ 53) :
    parseInt 10 (bcdToDecimal s) = some (bcdValue (groupsOf s)) := by
  obtain ⟨h1, h2⟩ := radixValue_digit_string (groupsOf s) hs
  rw [bcdToDecimal_valid s hs, ← h1]
  apply parseInt_exact 10 _ _ h2 (by rw [h1]; exact hv)
  intro h
  exact groupsOf_ne_nil s (List.map_eq_nil_iff.1 h)

/-- The decimal numeral of a number is made of decimal digits. -/
theorem isDecimal_toDigits (n : Nat) : isDecimal (Nat.toDigits 10 n) = true := by
  have key : ∀ d, d < 10 → 48 ≤ (Nat.digitChar d).toNat ∧ (Nat.digitChar d).toNat ≤ 57 := by
    intro d hd
    interval_cases d <;> decide
  induction n using Nat.strong_induction_on with
  | _ n ih =>
    by_cases hlt : n < 10
    · have e : Nat.toDigits 10 n = [Nat.digitChar n] := toStringRadix_lt 10 n hlt
      rw [e]
      have := key n hlt
      simp [isDecimal, this.1, this.2]
    · have e : Nat.toDigits 10 n = Nat.toDigits 10 (n / 10) ++ [Nat.digitChar (n % 10)] :=
        toStringRadix_ge 10 n (by omega) (by omega)
      have h1 := ih (n / 10) (by omega)
      have h2 := key (n % 10) (by omega)
      rw [e]
      simp only [isDecimal, Bool.and_eq_true, List.all_eq_true, decide_eq_true_eq,
        Bool.not_eq_true', List.isEmpty_eq_false] at h1 ⊢
      refine ⟨by simp, ?_⟩
      intro c hc
      rcases List.mem_append.1 hc with h3 | h3
      · exact h1.2 c h3
      · rw [List.mem_singleton] at h3
        rw [h3]; exact h2

/-- The decimal numeral of a positive number does not start with `0`. -/
theorem toDigits_head_ne_zero (n : Nat) (hn : n ≠ 0) :
    (Nat.toDigits 10 n).head? ≠ some '0' := by
  have key : ∀ d, d < 10 → d ≠ 0 → Nat.digitChar d ≠ '0' := by
    intro d hd h0
    interval_cases d <;> first | exact absurd rfl h0 | decide
  induction n using Nat.strong_induction_on with
  | _ n ih =>
    by_cases hlt : n < 10
    · have e : Nat.toDigits 10 n = [Nat.digitChar n] := toStringRadix_lt 10 n hlt
      rw [e]
      simpa using key n hlt hn
    · have e : Nat.toDigits 10 n = Nat.toDigits 10 (n / 10) ++ [Nat.digitChar (n % 10)] :=
        toStringRadix_ge 10 n (by omega) (by omega)
      have h1 := ih (n / 10) (by omega) (by omega)
      rw [e]
      cases hd : Nat.toDigits 10 (n / 10) with
      | nil =>
        have := isDecimal_toDigits (n / 10)
        rw [hd] at this
        simp [isDecimal] at this
      | cons x xs =>
        rw [hd] at h1
        simpa using h1

/-- On a string of decimal digits the re-encoding of `bcdSubtraction` is
`decimalToBCD`. -/
theorem encodeDigits_eq_decimalToBCD (str : List Char) (h : isDecimal str = true) :
    encodeDigits str = BCDConversionModule.decimalToBCD str := by
  have hdig : ∀ c ∈ str, 48 ≤ c.toNat ∧ c.toNat ≤ 57 := by
    intro c hc
    simp only [isDecimal, Bool.and_eq_true, List.all_eq_true, decide_eq_true_eq] at h
    exact h.2 c hc
  unfold encodeDigits BCDConversionModule.decimalToBCD
  congr 1
  apply List.map_congr_left
  intro c hc
  rcases decimal_char_cases c (hdig c hc) with h | h | h | h | h | h | h | h | h | h <;>
    subst h <;> decide

/-- The encoding of a digit string starts with a bit, so it is never the text
`Negative result`. -/
theorem decimalToBCD_ne_negativeResult (str : List Char) (h : isDecimal str = true) :
    BCDConversionModule.decimalToBCD str ≠ negativeResult := by
  have hdig : ∀ c ∈ str, 48 ≤ c.toNat ∧ c.toNat ≤ 57 := by
    intro c hc
    simp only [isDecimal, Bool.and_eq_true, List.all_eq_true, decide_eq_true_eq] at h
    exact h.2 c hc
  cases str with
  | nil => simp [isDecimal] at h
  | cons c t =>
    have hg : (padStart 4 '0' (toStringRadix 2 (parseIntChar c))).head? ≠ some 'N' ∧
        padStart 4 '0' (toStringRadix 2 (parseIntChar c)) ≠ [] := by
      rcases decimal_char_cases c (hdig c (by simp)) with h | h | h | h | h | h | h | h | h | h <;>
        subst h <;> decide
    intro heq
    have hhead : (BCDConversionModule.decimalToBCD (c :: t)).head? = some 'N' := by
      rw [heq]; rfl
    unfold BCDConversionModule.decimalToBCD at hhead
    cases t with
    | nil =>
      simp only [List.map_cons, List.map_nil, join] at hhead
      exact hg.1 hhead
    | cons c2 u =>
      simp only [List.map_cons] at hhead
      rw [join_cons_cons, List.append_assoc, List.head?_append_of_ne_nil _ hg.2] at hhead
      exact hg.1 hhead

end BCDArithmeticModule

/-- C17 (as stated, refuted): with `A = 9007199254740993` and
`B = 9007199254740992` (two valid 16-digit operands, the encodings produced by
`decimalToBCD`), `bcdSubtraction(a, b)` returns `0000`, the encoding of 0 and
not of `A - B = 1`; and `bcdSubtraction(b, a)`, where the minuend is the
smaller number, returns `0000` too instead of `Negative result`. -/
theorem bcdSubtraction_rounds_long_operands :
    BCDArithmeticModule.ValidOperand
      (BCDConversionModule.decimalToBCD "9007199254740993".toList) ∧
    BCDArithmeticModule.ValidOperand
      (BCDConversionModule.decimalToBCD "9007199254740992".toList) ∧
    BCDArithmeticModule.bcdValue (BCDArithmeticModule.groupsOf
      (BCDConversionModule.decimalToBCD "9007199254740993".toList)) = 9007199254740993 ∧
    BCDArithmeticModule.bcdValue (BCDArithmeticModule.groupsOf
      (BCDConversionModule.decimalToBCD "9007199254740992".toList)) = 9007199254740992 ∧
    (BCDArithmeticModule.bcdSubtraction
        (BCDConversionModule.decimalToBCD "9007199254740993".toList)
        (BCDConversionModule.decimalToBCD "9007199254740992".toList)).bcd = "0000".toList ∧
    (BCDArithmeticModule.bcdSubtraction
        (BCDConversionModule.decimalToBCD "9007199254740993".toList)
        (BCDConversionModule.decimalToBCD "9007199254740992".toList)).bcd
      ≠ BCDConversionModule.decimalToBCD "1".toList ∧
    (BCDArithmeticModule.bcdSubtraction
        (BCDConversionModule.decimalToBCD "9007199254740992".toList)
        (BCDConversionModule.decimalToBCD "9007199254740993".toList)).bcd
      ≠ BCDArithmeticModule.negativeResult := by
  decide

/-- C17 (amended): for valid non-empty BCD operands `a` and `b` whose decimal
values `A` and `B` are below `2^53`, `bcdSubtraction(a, b)` returns
`bcd = "Negative result"` if and only if `A < B`; otherwise `bcd` is the BCD
encoding (`decimalToBCD`, one 4-bit group per digit) of the decimal numeral of
`A - B`, which has no leading zero when `A - B > 0`; in both cases
`correctionApplied` is false and `steps` is empty. -/
theorem bcdSubtraction_spec (a b : List Char)
    (ha : BCDArithmeticModule.ValidOperand a) (hb : BCDArithmeticModule.ValidOperand b)
    (hA : BCDArithmeticModule.bcdValue (BCDArithmeticModule.groupsOf a) < 2 ^ 53)
    (hB : BCDArithmeticModule.bcdValue (BCDArithmeticModule.groupsOf b) < 2 ^ 53) :
    ((BCDArithmeticModule.bcdSubtraction a b).bcd = BCDArithmeticModule.negativeResult ↔
      BCDArithmeticModule.bcdValue (BCDArithmeticModule.groupsOf a)
        < BCDArithmeticModule.bcdValue (BCDArithmeticModule.groupsOf b)) ∧
    (BCDArithmeticModule.bcdValue (BCDArithmeticModule.groupsOf b)
        ≤ BCDArithmeticModule.bcdValue (BCDArithmeticModule.groupsOf a) →
      (BCDArithmeticModule.bcdSubtraction a b).bcd
        = BCDConversionModule.decimalToBCD
            (Nat.toDigits 10 (BCDArithmeticModule.bcdValue (BCDArithmeticModule.groupsOf a)
              - BCDArithmeticModule.bcdValue (BCDArithmeticModule.groupsOf b)))) ∧
    (BCDArithmeticModule.bcdValue (BCDArithmeticModule.groupsOf b)
        < BCDArithmeticModule.bcdValue (BCDArithmeticModule.groupsOf a) →
      (Nat.toDigits 10 (BCDArithmeticModule.bcdValue (BCDArithmeticModule.groupsOf a)
        - BCDArithmeticModule.bcdValue (BCDArithmeticModule.groupsOf b))).head? ≠ some '0') ∧
    (BCDArithmeticModule.bcdSubtraction a b).correctionApplied = false ∧
    (BCDArithmeticModule.bcdSubtraction a b).steps = [] := by
  have h1 := BCDArithmeticModule.parseInt_bcdToDecimal a ha hA
  have h2 := BCDArithmeticModule.parseInt_bcdToDecimal b hb hB
  generalize BCDArithmeticModule.bcdValue (BCDArithmeticModule.groupsOf a) = A at h1 hA
  generalize BCDArithmeticModule.bcdValue (BCDArithmeticModule.groupsOf b) = B at h2 hB
  have hdiff : toDouble (A - B) = A - B := toDouble_of_lt _ (by omega)
  have henc : BCDArithmeticModule.encodeDigits (Nat.toDigits 10 (A - B))
      = BCDConversionModule.decimalToBCD (Nat.toDigits 10 (A - B)) :=
    BCDArithmeticModule.encodeDigits_eq_decimalToBCD _
      (BCDArithmeticModule.isDecimal_toDigits _)
  have hne := BCDArithmeticModule.decimalToBCD_ne_negativeResult (Nat.toDigits 10 (A - B))
    (BCDArithmeticModule.isDecimal_toDigits _)
  unfold BCDArithmeticModule.bcdSubtraction
  simp only [h1, h2]
  by_cases hlt : A < B
  · rw [if_pos hlt]
    exact ⟨⟨fun _ => hlt, fun _ => rfl⟩, fun h => by omega, fun h => by omega, rfl, rfl⟩
  · rw [if_neg hlt]
    simp only [hdiff, numberToString, henc]
    exact ⟨⟨fun h => absurd h hne, fun h => absurd h hlt⟩, fun _ => by first | rfl | trivial,
      fun h => BCDArithmeticModule.toDigits_head_ne_zero _ (by omega),
      by first | rfl | trivial, by first | rfl | trivial⟩

/-- C17 witness: `0101 1001` (59) minus `0011` (3) gives `0101 0110` (56), and
the other way round gives `Negative result`. -/
theorem bcdSubtraction_spec_witness :
    (BCDArithmeticModule.ValidOperand "0101 1001".toList ∧
      BCDArithmeticModule.ValidOperand "0011".toList ∧
      BCDArithmeticModule.bcdValue (BCDArithmeticModule.groupsOf "0101 1001".toList) = 59 ∧
      BCDArithmeticModule.bcdValue (BCDArithmeticModule.groupsOf "0011".toList) = 3) ∧
    BCDArithmeticModule.bcdSubtraction "0101 1001".toList "0011".toList
      = { bcd := "0101 0110".toList, correctionApplied := false, steps := [] } ∧
    BCDArithmeticModule.bcdSubtraction "0011".toList "0101 1001".toList
      = { bcd := "Negative result".toList, correctionApplied := false, steps := [] } ∧
    ((BCDArithmeticModule.bcdSubtraction "0011".toList "0101 1001".toList).bcd
        = BCDArithmeticModule.negativeResult ↔
      BCDArithmeticModule.bcdValue (BCDArithmeticModule.groupsOf "0011".toList)
        < BCDArithmeticModule.bcdValue (BCDArithmeticModule.groupsOf "0101 1001".toList)) :=
  ⟨by decide, by decide, by decide,
    (bcdSubtraction_spec "0011".toList "0101 1001".toList (by decide) (by decide)
      (by decide) (by decide)).1⟩

/-! ## The value of a BCD sum -/

/-- C21: for valid non-empty BCD operands `a` and `b` (any numbers of groups),
the decimal value of the group sequence of `bcdAddition(a, b).bcd`, each group
read as one decimal digit, is the decimal value of `a` plus that of `b`. -/
theorem bcdAddition_value (a b : List Char)
    (ha : BCDArithmeticModule.ValidOperand a) (hb : BCDArithmeticModule.ValidOperand b) :
    BCDArithmeticModule.bcdValue
        (BCDArithmeticModule.groupsOf (BCDArithmeticModule.bcdAddition a b).bcd)
      = BCDArithmeticModule.bcdValue (BCDArithmeticModule.groupsOf a)
        + BCDArithmeticModule.bcdValue (BCDArithmeticModule.groupsOf b) := by
  obtain ⟨R, cf, hlen, _, hcf, hsum, hres⟩ :=
    BCDArithmeticModule.bcdAdditionState_arith a b ha hb
  rw [BCDArithmeticModule.groupsOf_bcdAddition a b ha hb, hres]
  have hcases : cf = 0 ∨ cf = 1 := by omega
  rcases hcases with rfl | rfl
  · simpa using hsum
  · have h1 : radixValue 2 ['0', '0', '0', '1'] = 1 := by decide
    simp only [show (1 : Nat) > 0 by decide, if_true, BCDArithmeticModule.bcdValue_cons, h1,
      hlen]
    omega

/-- C21 witness: `0101 1001` (59) plus `0100 0011` (43) gives
`0001 0000 0010` (102). -/
theorem bcdAddition_value_witness :
    (BCDArithmeticModule.ValidOperand "0101 1001".toList ∧
      BCDArithmeticModule.ValidOperand "0100 0011".toList) ∧
    (BCDArithmeticModule.bcdAddition "0101 1001".toList "0100 0011".toList).bcd
      = "0001 0000 0010".toList ∧
    BCDArithmeticModule.bcdValue (BCDArithmeticModule.groupsOf "0101 1001".toList) = 59 ∧
    BCDArithmeticModule.bcdValue (BCDArithmeticModule.groupsOf "0100 0011".toList) = 43 ∧
    BCDArithmeticModule.bcdValue (BCDArithmeticModule.groupsOf
        (BCDArithmeticModule.bcdAddition "0101 1001".toList "0100 0011".toList).bcd)
      = BCDArithmeticModule.bcdValue (BCDArithmeticModule.groupsOf "0101 1001".toList)
        + BCDArithmeticModule.bcdValue (BCDArithmeticModule.groupsOf "0100 0011".toList) :=
  ⟨by decide, by decide, by decide, by decide,
    bcdAddition_value "0101 1001".toList "0100 0011".toList (by decide) (by decide)⟩

/-! ## Ripple-carry addition on operands of different lengths -/

/-- The first ripple-carry pass over two strings of bits padded to their
common width `w`: `w` result bits and a carry 0..1 that account for the sum
of the two values. -/
theorem ripple_padded (a b : List Char) (ha : AllBits a) (hb : AllBits b) :
    ∃ (R : List Char) (c : Nat),
      OnesComplementModule.addLoop (padStart (max a.length b.length) '0' a)
        (padStart (max a.length b.length) '0' b) (max a.length b.length) 0 [] = (R, c) ∧
      R.length = max a.length b.length ∧ AllBits R ∧ c ≤ 1 ∧
      radixValue 2 R + c * 2 ^ (max a.length b.length) = radixValue 2 a + radixValue 2 b := by
  have hla : (padStart (max a.length b.length) '0' a).length = max a.length b.length := by
    rw [length_padStart]; omega
  have hlb : (padStart (max a.length b.length) '0' b).length = max a.length b.length := by
    rw [length_padStart]; omega
  obtain ⟨j1, j2, j3, j4⟩ := TwosComplementCalculator.addLoop_spec
    (padStart (max a.length b.length) '0' a) (padStart (max a.length b.length) '0' b)
    (ha.padStart _) (hb.padStart _) (max a.length b.length) 0 [] []
    (by omega) (by omega) (by omega) AllBits.nil
  simp only [List.length_nil, Nat.add_zero, pow_zero, Nat.mul_one, radixValue_nil] at j1 j4
  rw [List.take_of_length_le (by omega), List.take_of_length_le (by omega),
    radixValue_padStart, radixValue_padStart] at j4
  refine ⟨_, _, ?_, j1, j2, j3, j4⟩
  rw [OnesComplementModule.addLoop_eq _ _ _ _ _ []]

/-- Adding 1 to `w` bits whose value is below `2^w - 1` does not carry out. -/
theorem increment_no_carry (R : List Char) (hR : AllBits R)
    (hlt : radixValue 2 R + 1 < 2 ^ R.length) :
    ∃ F, OnesComplementModule.endAroundLoop R R.length 1 [] = (F, 0) ∧
      F.length = R.length ∧ AllBits F ∧ radixValue 2 F = radixValue 2 R + 1 := by
  obtain ⟨i1, i2, i3, i4⟩ := TwosComplementCalculator.incLoop_spec R hR R.length 1 []
    (Nat.le_refl _) (Nat.le_refl _) AllBits.nil
  simp only [List.length_nil, Nat.add_zero, pow_zero, Nat.mul_one, radixValue_nil,
    List.take_length] at i1 i4
  rw [OnesComplementModule.endAroundLoop_eq]
  generalize TwosComplementCalculator.incLoop R R.length 1 [] = r at i1 i2 i3 i4
  obtain ⟨F, c2⟩ := r
  simp only at i1 i2 i3 i4
  have hc2 : c2 = 0 ∨ c2 = 1 := by omega
  rcases hc2 with rfl | rfl
  · exact ⟨F, rfl, i1, i2, by omega⟩
  · exfalso
    omega

/-- C26: for non-empty binary strings `a` and `b` with `w = max(|a|, |b|)`,
whenever the first ripple-carry pass of `onesComplementAddition` carries out,
the end-around increment of its result carries out 0; `finalResult` is `w`
bits wide and its unsigned value is `value(a) + value(b)` when that sum is
below `2^w`, and `value(a) + value(b) - (2^w - 1)` otherwise. -/
theorem onesComplementAddition_end_around (a b : List Char)
    (ha : isBinary a = true) (hb : isBinary b = true) :
    ((OnesComplementModule.addLoop (padStart (max a.length b.length) '0' a)
        (padStart (max a.length b.length) '0' b) (max a.length b.length) 0 []).2 = 1 →
      (OnesComplementModule.endAroundLoop
        (OnesComplementModule.addLoop (padStart (max a.length b.length) '0' a)
          (padStart (max a.length b.length) '0' b) (max a.length b.length) 0 []).1
        (OnesComplementModule.addLoop (padStart (max a.length b.length) '0' a)
          (padStart (max a.length b.length) '0' b) (max a.length b.length) 0 []).1.length
        1 []).2 = 0) ∧
    (OnesComplementModule.onesComplementAddition a b).finalResult.length
      = max a.length b.length ∧
    AllBits (OnesComplementModule.onesComplementAddition a b).finalResult ∧
    (radixValue 2 a + radixValue 2 b < 2 ^ (max a.length b.length) →
      radixValue 2 (OnesComplementModule.onesComplementAddition a b).finalResult
        = radixValue 2 a + radixValue 2 b) ∧
    (2 ^ (max a.length b.length) ≤ radixValue 2 a + radixValue 2 b →
      radixValue 2 (OnesComplementModule.onesComplementAddition a b).finalResult
        = radixValue 2 a + radixValue 2 b - (2 ^ (max a.length b.length) - 1)) := by
  have hab := ((isBinary_iff a).1 ha).2
  have hbb := ((isBinary_iff b).1 hb).2
  obtain ⟨R, c, hloop, hlen, hR, hc, hsum⟩ := ripple_padded a b hab hbb
  have hA : radixValue 2 a < 2 ^ (max a.length b.length) :=
    lt_of_lt_of_le (radixValue_two_lt hab) (Nat.pow_le_pow_right (by omega) (by omega))
  have hB : radixValue 2 b < 2 ^ (max a.length b.length) :=
    lt_of_lt_of_le (radixValue_two_lt hbb) (Nat.pow_le_pow_right (by omega) (by omega))
  have hRlt := radixValue_two_lt hR
  rw [hlen] at hRlt
  unfold OnesComplementModule.onesComplementAddition
  simp only [hloop]
  have hcases : c = 0 ∨ c = 1 := by omega
  rcases hcases with rfl | rfl
  · simp only [show ¬ ((0 : Nat) = 1) by decide, if_false, false_implies, true_and]
    exact ⟨hlen, hR, fun _ => by omega, fun h => by omega⟩
  · obtain ⟨F, hF, hFl, hFb, hFv⟩ := increment_no_carry R hR (by rw [hlen]; omega)
    simp only [if_true, hF, true_implies]
    exact ⟨trivial, by omega, hFb, fun h => by omega, fun _ => by omega⟩

/-- C26 witness: `110 + 11` on three bits carries out (6 + 3 = 9) and gives
`010` (9 - 7 = 2). -/
theorem onesComplementAddition_end_around_witness :
    (isBinary "110".toList = true ∧ isBinary "11".toList = true) ∧
    (OnesComplementModule.onesComplementAddition "110".toList "11".toList).finalResult
      = "010".toList ∧
    (OnesComplementModule.onesComplementAddition "110".toList "11".toList).finalResult.length
      = max "110".toList.length "11".toList.length :=
  ⟨by decide, by decide,
    (onesComplementAddition_end_around "110".toList "11".toList (by decide) (by decide)).2.1⟩

/-! ## `calculateBinaryAddition` -/

namespace BinaryArithmeticModule

/-- The loop of `calculateBinaryAddition` is the first pass of the
one's-complement adder. -/
theorem additionLoop_eq (a b : List Char) : ∀ (k carry : Nat) (result : List Char),
    additionLoop a b k carry result = OnesComplementModule.addLoop a b k carry result := by
  intro k
  induction k with
  | zero => intro carry result; rfl
  | succ k ih =>
    intro carry result
    simp only [additionLoop, OnesComplementModule.addLoop]
    exact ih _ _

end BinaryArithmeticModule

/-- C30: for non-empty binary strings `a` and `b`, the result string built by
`calculateBinaryAddition` has unsigned value `value(a) + value(b)`; its length
is `max(|a|, |b|)` when the final carry is 0, and `max(|a|, |b|) + 1` with
leading bit 1 otherwise. -/
theorem calculateBinaryAddition_sum (a b : List Char)
    (ha : isBinary a = true) (hb : isBinary b = true) :
    radixValue 2 (BinaryArithmeticModule.calculateBinaryAddition a b).result
      = radixValue 2 a + radixValue 2 b ∧
    AllBits (BinaryArithmeticModule.calculateBinaryAddition a b).result ∧
    ((BinaryArithmeticModule.calculateBinaryAddition a b).carry = 0 →
      (BinaryArithmeticModule.calculateBinaryAddition a b).result.length
        = max a.length b.length) ∧
    ((BinaryArithmeticModule.calculateBinaryAddition a b).carry ≠ 0 →
      (BinaryArithmeticModule.calculateBinaryAddition a b).result.length
        = max a.length b.length + 1 ∧
      (BinaryArithmeticModule.calculateBinaryAddition a b).result.head? = some '1') := by
  have hab := ((isBinary_iff a).1 ha).2
  have hbb := ((isBinary_iff b).1 hb).2
  obtain ⟨R, c, hloop, hlen, hR, hc, hsum⟩ := ripple_padded a b hab hbb
  unfold BinaryArithmeticModule.calculateBinaryAddition
  simp only [BinaryArithmeticModule.additionLoop_eq, hloop]
  have hcases : c = 0 ∨ c = 1 := by omega
  rcases hcases with rfl | rfl
  · simp only [ne_eq, not_true_eq_false, if_false, true_implies, false_implies, and_true]
    exact ⟨by omega, hR, hlen⟩
  · have h1 : numToString 1 = ['1'] := by decide
    have hv : radixValue 2 ('1' :: R) = 1 * 2 ^ R.length + radixValue 2 R := by
      rw [radixValue_cons]
      have : charDigit '1' = 1 := by decide
      rw [this]
    simp only [ne_eq, Nat.one_ne_zero, not_false_eq_true, if_true, h1, List.singleton_append,
      false_implies, true_implies, true_and, List.length_cons, List.head?_cons, and_true]
    refine ⟨by rw [hv, hlen]; omega, ?_, by omega⟩
    exact AllBits.cons_iff.2 ⟨Or.inr rfl, hR⟩

/-- C30 witness: `1011 + 110` (11 + 6) gives `10001` (17), one bit longer. -/
theorem calculateBinaryAddition_sum_witness :
    (isBinary "1011".toList = true ∧ isBinary "110".toList = true) ∧
    BinaryArithmeticModule.calculateBinaryAddition "1011".toList "110".toList
      = { result := "10001".toList, carry := 1 } ∧
    radixValue 2 (BinaryArithmeticModule.calculateBinaryAddition "1011".toList
        "110".toList).result
      = radixValue 2 "1011".toList + radixValue 2 "110".toList :=
  ⟨by decide, by decide,
    (calculateBinaryAddition_sum "1011".toList "110".toList (by decide) (by decide)).1⟩

/-! ## Gray decoding as a prefix XOR -/

namespace GrayCodeModule

theorem countOnes_take_succ (g : List Char) (i : Nat) (h : i < g.length) :
    countOnes (g.take (i + 1)) = countOnes (g.take i) + (if g[i] = '1' then 1 else 0) := by
  rw [take_succ_getElem g i h, countOnes_snoc]

/-- Closed form of the Gray-to-binary loop on a string of bits: once the
first `i` output bits are the prefix XORs, the loop completes them. -/
theorem grayToBinaryLoop_prefixXor (g : List Char) (hg : AllBits g) :
    ∀ (n i : Nat) (acc : List Char), 1 ≤ i → i + n = g.length →
      acc = (List.range i).map (prefixXor g) →
      grayToBinaryLoop g n i acc = (List.range g.length).map (prefixXor g) := by
  intro n
  induction n with
  | zero =>
    intro i acc _ hlen hacc
    simp only [grayToBinaryLoop, hacc]
    rw [show i = g.length by omega]
  | succ n ih =>
    intro i acc hi hlen hacc
    have hil : i < g.length := by omega
    simp only [grayToBinaryLoop]
    apply ih (i + 1) _ (by omega) (by omega)
    rw [List.range_succ, List.map_append, List.map_singleton, hacc]
    congr 1
    have hprev : ((List.range i).map (prefixXor g)).getD (i - 1) '0' = prefixXor g (i - 1) := by
      rw [List.getD_eq_getElem _ _ (by simp; omega)]
      simp
    rw [hprev, List.getD_eq_getElem g '0' hil]
    unfold prefixXor parityChar
    have e : i - 1 + 1 = i := by omega
    rw [e, countOnes_take_succ g i hil]
    generalize countOnes (List.take i g) = cnt
    rcases hg.getElem hil with h | h <;> rw [h] <;>
      rcases Nat.mod_two_eq_zero_or_one cnt with h2 | h2
    · have e2 : (cnt + 0) % 2 = 0 := by omega
      simp [h2, e2]
    · have e2 : (cnt + 0) % 2 = 1 := by omega
      simp [h2, e2]
    · have e2 : (cnt + 1) % 2 = 1 := by omega
      simp [h2, e2]
    · have e2 : (cnt + 1) % 2 = 0 := by omega
      simp [h2, e2]

end GrayCodeModule

/-- C27: for every non-empty binary string `g`, `convertGrayToBinary` computes
a string of the same length as `g` whose bit `i` is the XOR of the bits 0
through `i` of `g`. -/
theorem convertGrayToBinary_prefixXor (g : List Char) (hg : isBinary g = true) :
    ∃ out, GrayCodeModule.convertGrayToBinary g = some out ∧
      out.length = g.length ∧
      ∀ i, i < g.length → out.getD i '0' = prefixXor g i := by
  obtain ⟨hne, hb⟩ := (isBinary_iff g).1 hg
  have hpos : 1 ≤ g.length := by
    cases g with
    | nil => exact absurd rfl hne
    | cons c t => simp
  have hfirst : List.take 1 g = (List.range 1).map (prefixXor g) := by
    cases g with
    | nil => exact absurd rfl hne
    | cons c t =>
      rcases (AllBits.cons_iff.1 hb).1 with rfl | rfl
      · simp [List.range_succ, prefixXor, parityChar, countOnes]
      · simp [List.range_succ, prefixXor, parityChar, countOnes]
  have hloop := GrayCodeModule.grayToBinaryLoop_prefixXor g hb (g.length - 1) 1 _
    (Nat.le_refl 1) (by omega) hfirst
  refine ⟨_, by simp only [GrayCodeModule.convertGrayToBinary, hg]; rfl, ?_, ?_⟩
  · rw [hloop]; simp
  · intro i hi
    rw [hloop, List.getD_eq_getElem _ _ (by simpa using hi)]
    simp

/-- C27 witness: `1111` gives `1010`. -/
theorem convertGrayToBinary_prefixXor_witness :
    isBinary "1111".toList = true ∧
    GrayCodeModule.convertGrayToBinary "1111".toList = some "1010".toList ∧
    (List.range 4).map (prefixXor "1111".toList) = "1010".toList ∧
    ∃ out, GrayCodeModule.convertGrayToBinary "1111".toList = some out ∧
      out.length = "1111".toList.length ∧
      ∀ i, i < "1111".toList.length → out.getD i '0' = prefixXor "1111".toList i :=
  ⟨by decide, by decide, by decide, convertGrayToBinary_prefixXor "1111".toList (by decide)⟩

/-! ## The verification panel of the two's-complement calculator -/

namespace TwosComplementCalculator

/-- The operands stored by an accepted `calculate` are the padded inputs. -/
theorem calculate_operands (st : State) (a b : List Char)
    (ha : isBinary a = true) (hb : isBinary b = true)
    (hla : a.length ≤ 8) (hlb : b.length ≤ 8) :
    (calculate st a b).minuend = padStart (max 4 (max a.length b.length)) '0' a ∧
    (calculate st a b).subtrahend = padStart (max 4 (max a.length b.length)) '0' b := by
  rw [calculate_accepted st a b ha hb hla hlb]
  simp only [performAddition, calculateTwosComplement]
  split <;> exact ⟨rfl, rfl⟩

/-- Parsing a non-empty string of at most 53 bits gives its value. -/
theorem parseInt_two_of_bits (s : List Char) (hs : AllBits s) (hne : s ≠ [])
    (hl : s.length ≤ 53) : parseInt 2 s = some (radixValue 2 s) := by
  apply parseInt_exact 2 s hne
  · intro c hc
    rcases hs c hc with rfl | rfl <;> decide
  · exact lt_of_lt_of_le (radixValue_two_lt hs) (Nat.pow_le_pow_right (by omega) hl)

end TwosComplementCalculator

/-- C28: after a calculation on valid inputs, `showVerification` marks the
result as correct (`expectedResult === resultDecimal`) if and only if the
minuend's unsigned value is at least the subtrahend's; hence every
subtraction with a negative difference gets the "Check calculation" branch. -/
theorem showVerification_correct_iff (st : TwosComplementCalculator.State)
    (a b : List Char) (ha : isBinary a = true) (hb : isBinary b = true)
    (hla : a.length ≤ 8) (hlb : b.length ≤ 8) :
    (TwosComplementCalculator.showVerification (TwosComplementCalculator.calculate st a b)
        = true ↔ radixValue 2 b ≤ radixValue 2 a) ∧
    (radixValue 2 a < radixValue 2 b →
      TwosComplementCalculator.showVerification (TwosComplementCalculator.calculate st a b)
        = false) := by
  obtain ⟨hab_ne, hab⟩ := (isBinary_iff a).1 ha
  obtain ⟨hbb_ne, hbb⟩ := (isBinary_iff b).1 hb
  obtain ⟨hm, hs⟩ := TwosComplementCalculator.calculate_operands st a b ha hb hla hlb
  obtain ⟨hrl, hrb, c1, c2, hc1, hc2, _, hsum⟩ :=
    TwosComplementCalculator.calculate_arith st a b ha hb hla hlb
  have hw : max 4 (max a.length b.length) ≤ 8 := by omega
  have hw4 : 4 ≤ max 4 (max a.length b.length) := by omega
  have hpa := TwosComplementCalculator.parseInt_two_of_bits
    (padStart (max 4 (max a.length b.length)) '0' a) (hab.padStart _)
    (by intro h; have := length_padStart (max 4 (max a.length b.length)) '0' a
        rw [h] at this; simp at this; omega)
    (by rw [length_padStart]; omega)
  have hpb := TwosComplementCalculator.parseInt_two_of_bits
    (padStart (max 4 (max a.length b.length)) '0' b) (hbb.padStart _)
    (by intro h; have := length_padStart (max 4 (max a.length b.length)) '0' b
        rw [h] at this; simp at this; omega)
    (by rw [length_padStart]; omega)
  have hpr := TwosComplementCalculator.parseInt_two_of_bits
    (TwosComplementCalculator.calculate st a b).result hrb
    (by intro h; rw [h] at hrl; simp at hrl; omega) (by omega)
  rw [radixValue_padStart] at hpa hpb
  have hR := radixValue_two_lt hrb
  rw [hrl] at hR
  have hA : radixValue 2 a < 2 ^ (max 4 (max a.length b.length)) :=
    lt_of_lt_of_le (radixValue_two_lt hab) (Nat.pow_le_pow_right (by omega) (by omega))
  have hB : radixValue 2 b < 2 ^ (max 4 (max a.length b.length)) :=
    lt_of_lt_of_le (radixValue_two_lt hbb) (Nat.pow_le_pow_right (by omega) (by omega))
  have hkey : ((radixValue 2 a : Int) - (radixValue 2 b : Int)
      = (radixValue 2 (TwosComplementCalculator.calculate st a b).result : Int))
      ↔ radixValue 2 b ≤ radixValue 2 a := by
    generalize radixValue 2 (TwosComplementCalculator.calculate st a b).result = R at hsum hR
    generalize radixValue 2 a = A at hsum hA
    generalize radixValue 2 b = B at hsum hB
    generalize 2 ^ (max 4 (max a.length b.length)) = M at hsum hR hA hB
    have h1 : c1 = 0 ∨ c1 = 1 := by omega
    have h2 : c2 = 0 ∨ c2 = 1 := by omega
    rcases h1 with rfl | rfl <;> rcases h2 with rfl | rfl <;> simp at hsum <;> omega
  have hval : TwosComplementCalculator.showVerification
      (TwosComplementCalculator.calculate st a b)
      = decide ((radixValue 2 a : Int) - (radixValue 2 b : Int)
          = (radixValue 2 (TwosComplementCalculator.calculate st a b).result : Int)) := by
    unfold TwosComplementCalculator.showVerification
    rw [hm, hs, hpa, hpb, hpr]
  rw [hval]
  refine ⟨by rw [decide_eq_true_eq]; exact hkey, ?_⟩
  intro hlt
  rw [decide_eq_false_iff_not, hkey]
  omega

/-- C28 witness: `1101 - 0011` is marked correct, `0011 - 1101` is not. -/
theorem showVerification_correct_iff_witness :
    (isBinary "1101".toList = true ∧ isBinary "0011".toList = true) ∧
    TwosComplementCalculator.showVerification
      (TwosComplementCalculator.calculate TwosComplementCalculator.init
        "0011".toList "1101".toList) = false ∧
    (TwosComplementCalculator.showVerification
        (TwosComplementCalculator.calculate TwosComplementCalculator.init
          "1101".toList "0011".toList) = true ↔
      radixValue 2 "0011".toList ≤ radixValue 2 "1101".toList) :=
  ⟨by decide, by decide,
    (showVerification_correct_iff TwosComplementCalculator.init "1101".toList "0011".toList
      (by decide) (by decide) (by decide) (by decide)).1⟩

/-! ## The checksum and its verification value -/

namespace ParityBitsModule

theorem notAndFF_eq (x : Nat) : notAndFF x = 255 - x % 256 := by
  unfold notAndFF
  have h := Nat.and_pow_two_sub_one_eq_mod (4294967295 - x % 4294967296) 8
  norm_num at h
  rw [h]
  omega

theorem andFF_eq (x : Nat) : andFF x = x % 256 := by
  unfold andFF
  have h := Nat.and_pow_two_sub_one_eq_mod (x % 4294967296) 8
  norm_num at h
  rw [h]

/-- The summation loop is exact while the running sum stays below `2^53`. -/
theorem sum_loop_exact : ∀ (bytes : List (List Char)) (acc : Nat),
    (∀ b ∈ bytes, isBinary b = true) →
    acc + (bytes.map (radixValue 2)).sum < 2 ^ 53 →
    bytes.foldl (fun sum byte => toDouble (sum + (parseInt 2 byte).getD 0)) acc
      = acc + (bytes.map (radixValue 2)).sum := by
  intro bytes
  induction bytes with
  | nil => intro acc _ _; simp
  | cons b t ih =>
    intro acc hb hlt
    simp only [List.map_cons, List.sum_cons] at hlt
    obtain ⟨hne, hbits⟩ := (isBinary_iff b).1 (hb b (by simp))
    have hp : parseInt 2 b = some (radixValue 2 b) :=
      BCDArithmeticModule.parseInt_bits b hbits hne (by omega)
    simp only [List.foldl_cons, hp, Option.getD_some, List.map_cons, List.sum_cons]
    rw [toDouble_of_lt _ (by omega),
      ih (acc + radixValue 2 b) (fun x hx => hb x (List.mem_cons_of_mem _ hx)) (by omega)]
    omega

/-- The checksum string printed for a value below 256. -/
theorem checksum_string (v : Nat) (hv : v < 256) :
    (padStart 8 '0' (toStringRadix 2 v)).length = 8 ∧
    AllBits (padStart 8 '0' (toStringRadix 2 v)) ∧
    radixValue 2 (padStart 8 '0' (toStringRadix 2 v)) = v := by
  refine ⟨length_toBinary 8 v (by omega) (by simpa using hv),
    allBits_toBinary 8 v (by omega) (by simpa using hv), ?_⟩
  rw [radixValue_padStart]
  exact (radixValue_toStringRadix 2 (by omega) (by omega) v).1

end ParityBitsModule

/-- C29 (as stated, refuted): the single accepted "byte" made of a 1 followed
by 53 zeros has value `2^53`; the checksum is `11111111`, and the verification
value `(sum + checksum) & 0xFF`, computed on doubles, is 0 and not 255. -/
theorem calculateChecksum_rounds_long_byte :
    isBinary ('1' :: List.replicate 53 '0') = true ∧
    ParityBitsModule.calculateChecksum ('1' :: List.replicate 53 '0')
      = some { sum := 2 ^ 53, checksum := "11111111".toList, verification := 0 } := by
  decide

/-- C29 (amended): for every input whose data bytes form a non-empty list of
binary strings with values summing to less than `2^53`, `calculateChecksum`
computes that sum, a checksum string of exactly 8 bits whose value is
`255 - (sum mod 256)`, and a verification value `(sum + checksum) & 0xFF`
equal to 255. -/
theorem calculateChecksum_spec (input : List Char)
    (hne : (splitSpace input).filter (fun byte => decide (byte.length > 0)) ≠ [])
    (hbin : ∀ b ∈ (splitSpace input).filter (fun byte => decide (byte.length > 0)),
      isBinary b = true)
    (hsum : (((splitSpace input).filter (fun byte => decide (byte.length > 0))).map
      (radixValue 2)).sum < 2 ^ 53) :
    ∃ r, ParityBitsModule.calculateChecksum input = some r ∧
      r.sum = (((splitSpace input).filter (fun byte => decide (byte.length > 0))).map
        (radixValue 2)).sum ∧
      r.checksum.length = 8 ∧ AllBits r.checksum ∧
      radixValue 2 r.checksum = 255 - r.sum % 256 ∧
      r.verification = 255 := by
  generalize hbytes : (splitSpace input).filter (fun byte => decide (byte.length > 0)) = bytes
    at hne hbin hsum
  have hfold := ParityBitsModule.sum_loop_exact bytes 0 hbin (by simpa using hsum)
  simp only [Nat.zero_add] at hfold
  generalize hS : (bytes.map (radixValue 2)).sum = S at hfold hsum
  have hlen : ¬ (bytes.length = 0) := by
    intro h; exact hne (List.length_eq_zero.1 h)
  have hany : bytes.any (fun byte => !isBinary byte) = false := by
    rw [List.any_eq_false]
    intro b hb
    simp [hbin b hb]
  obtain ⟨k1, k2, k3⟩ := ParityBitsModule.checksum_string (255 - S % 256) (by omega)
  have hp : parseInt 2 (padStart 8 '0' (toStringRadix 2 (255 - S % 256)))
      = some (255 - S % 256) := by
    have := BCDArithmeticModule.parseInt_bits _ k2
      (by intro h; rw [h] at k1; simp at k1) (by rw [k3]; omega)
    rwa [k3] at this
  have hacc : ParityBitsModule.calculateChecksum input
      = some { sum := S,
               checksum := padStart 8 '0' (toStringRadix 2 (255 - S % 256)),
               verification := 255 } := by
    unfold ParityBitsModule.calculateChecksum
    simp only [hbytes, hlen, if_false, hany, Bool.false_eq_true, hfold,
      ParityBitsModule.notAndFF_eq, hp, Option.getD_some]
    rw [toDouble_of_lt _ (by omega), ParityBitsModule.andFF_eq]
    have : (S + (255 - S % 256)) % 256 = 255 := by omega
    rw [this]
  exact ⟨_, hacc, rfl, k1, k2, k3, rfl⟩

/-- C29 witness: the bytes `10101010` and `11110000` (sum 410) give the
checksum `01100101` (101 = 255 - 154) and the verification value 255. -/
theorem calculateChecksum_spec_witness :
    ((splitSpace "10101010 11110000".toList).filter (fun byte => decide (byte.length > 0))
        = ["10101010".toList, "11110000".toList]) ∧
    ∃ r, ParityBitsModule.calculateChecksum "10101010 11110000".toList = some r ∧
      r.sum = (((splitSpace "10101010 11110000".toList).filter
        (fun byte => decide (byte.length > 0))).map (radixValue 2)).sum ∧
      r.checksum.length = 8 ∧ AllBits r.checksum ∧
      radixValue 2 r.checksum = 255 - r.sum % 256 ∧
      r.verification = 255 :=
  ⟨by decide, calculateChecksum_spec "10101010 11110000".toList (by decide) (by decide)
    (by decide)⟩

/-! ## Departures of the code from its intent, evaluated -/

/-- C22 (evaluation at a failing input): `onesComplementSubtraction` flips the
subtrahend at its own length and only then is it padded with zeros, so for
`1101` and `11` the final result is `1101`, while for `1101` and `0011` (the
same subtrahend padded to four bits) it is `1010`. -/
theorem onesComplementSubtraction_short_subtrahend :
    isBinary "1101".toList = true ∧ isBinary "11".toList = true ∧
    padStart 4 '0' "11".toList = "0011".toList ∧
    (OnesComplementModule.onesComplementSubtraction "1101".toList "11".toList).finalResult
      = "1101".toList ∧
    (OnesComplementModule.onesComplementSubtraction "1101".toList "0011".toList).finalResult
      = "1010".toList ∧
    (OnesComplementModule.onesComplementSubtraction "1101".toList "11".toList).operand2
      = "0000".toList ∧
    (OnesComplementModule.onesComplementSubtraction "1101".toList "0011".toList).operand2
      = "1100".toList := by
  decide

/-- C23 (evaluation at a failing input): in add mode, for `0101 1001` (59) and
`0011` (3), the "Decimal Check" text is `593`, the two decoded strings one
after the other, while the BCD result `0110 0010` decodes to `62`; in
subtract mode the check is the number `56`. -/
theorem performArithmetic_add_decimalCheck :
    BCDArithmeticModule.ValidOperand "0101 1001".toList ∧
    BCDArithmeticModule.ValidOperand "0011".toList ∧
    (BCDArithmeticModule.performArithmetic "add".toList "0101 1001".toList
        "0011".toList).map (fun r => r.decimalCheck) = some "593".toList ∧
    (BCDArithmeticModule.performArithmetic "add".toList "0101 1001".toList
        "0011".toList).map (fun r => BCDArithmeticModule.bcdToDecimal r.result.bcd)
      = some "62".toList ∧
    (BCDArithmeticModule.performArithmetic "subtract".toList "0101 1001".toList
        "0011".toList).map (fun r => r.decimalCheck) = some "56".toList := by
  decide

/-- C24 (evaluation at a failing input): after `1101 - 0011` the addition
`1101 + 1101` has result `1010` and carry string `1101`, but the columns show
the result bits 0, 1, 1, 0 and the carries 1, 1, 0, 1: column `i` takes its
carry-in from `carry[i - 1]`, the carry out of the column on its left. -/
theorem createAdditionStepsVisualization_columns :
    (TwosComplementCalculator.calculate TwosComplementCalculator.init
        "1101".toList "0011".toList).result = "1010".toList ∧
    (TwosComplementCalculator.calculate TwosComplementCalculator.init
        "1101".toList "0011".toList).carry = "1101".toList ∧
    (TwosComplementCalculator.createAdditionStepsVisualization
        (TwosComplementCalculator.calculate TwosComplementCalculator.init
          "1101".toList "0011".toList)).map (fun c => (c.carryIn, c.result, c.carryOut))
      = [(0, 0, 1), (1, 1, 1), (1, 1, 0), (0, 0, 1)] := by
  decide

/-- C25 (evaluation at a failing input): the empty string is accepted by
`isValidBCD`, so `performArithmetic` goes on with it; `bcdToDecimal` decodes it
to `NaN` and `bcdAddition` returns the group `0NaN`. -/
theorem isValidBCD_accepts_empty :
    BCDArithmeticModule.isValidBCD [] = true ∧
    BCDArithmeticModule.bcdToDecimal [] = "NaN".toList ∧
    isDecimal (BCDArithmeticModule.bcdToDecimal []) = false ∧
    (BCDArithmeticModule.performArithmetic "add".toList [] "0011".toList).map
        (fun r => (r.result.bcd, r.decimalCheck))
      = some ("0NaN".toList, "NaN3".toList) := by
  decide

/-! ## Valid BCD operands and `isValidBCD` -/

/-- A non-empty trimmed string starts and ends with a character that is not
white space. -/
theorem trim_head_last (s : List Char) (h : trim s ≠ []) :
    (∃ c t, trim s = c :: t ∧ isWhitespace c = false) ∧
    (∃ t c, trim s = t ++ [c] ∧ isWhitespace c = false) := by
  unfold trim at h ⊢
  generalize hu : s.dropWhile isWhitespace = u at h ⊢
  generalize hv : u.reverse.dropWhile isWhitespace = v at h ⊢
  have hvne : v ≠ [] := by
    intro e; rw [e] at h; exact h rfl
  have hsplit : u.reverse = u.reverse.takeWhile isWhitespace ++ v := by
    rw [← hv]; exact (List.takeWhile_append_dropWhile isWhitespace u.reverse).symm
  have hu2 : u = v.reverse ++ (u.reverse.takeWhile isWhitespace).reverse := by
    have := congrArg List.reverse hsplit
    simpa using this
  constructor
  · cases hr : v.reverse with
    | nil => exact absurd hr h
    | cons c t =>
      refine ⟨c, t, rfl, ?_⟩
      rw [hr] at hu2
      have hh := List.head?_dropWhile_not isWhitespace s
      rw [hu, hu2] at hh
      simpa using hh
  · cases hvc : v with
    | nil => exact absurd hvc hvne
    | cons x v1 =>
      refine ⟨v1.reverse, x, by simp, ?_⟩
      have hh := List.head?_dropWhile_not isWhitespace u.reverse
      rw [hv, hvc] at hh
      simpa using hh

/-- Splitting at white space a string that ends with a character other than
white space: no group is empty, except a first empty group when the string
starts with white space and no white space came before it. -/
theorem splitWsGo_groups_nonempty : ∀ (s : List Char) (t : List Char) (x : Char),
    s = t ++ [x] → isWhitespace x = false →
    (∀ g ∈ splitWsGo true s, g ≠ []) ∧
    (∀ c r, s = c :: r → isWhitespace c = false → ∀ g ∈ splitWsGo false s, g ≠ []) ∧
    (∀ c r, s = c :: r → isWhitespace c = true →
      ∃ rest, splitWsGo false s = [] :: rest ∧ ∀ g ∈ rest, g ≠ []) := by
  intro s
  induction s with
  | nil => intro t x h; simp at h
  | cons c cs ih =>
    intro t x hs hx
    cases cs with
    | nil =>
      have hc : c = x := by
        cases t with
        | nil => simpa using hs
        | cons a t1 => simp at hs
      subst hc
      refine ⟨by simp [splitWsGo, hx], ?_, ?_⟩
      · intro c1 r _ _
        simp [splitWsGo, hx]
      · intro c1 r he hw
        simp only [List.cons.injEq] at he
        rw [← he.1, hx] at hw
        exact absurd hw (by decide)
    | cons d ds =>
      have htail : ∃ t1, d :: ds = t1 ++ [x] := by
        cases t with
        | nil => simp at hs
        | cons a t1 =>
          simp only [List.cons_append, List.cons.injEq] at hs
          exact ⟨t1, hs.2⟩
      obtain ⟨t1, ht1⟩ := htail
      obtain ⟨i1, i2, i3⟩ := ih t1 x ht1 hx
      have hfalse : (isWhitespace d = false → ∀ g ∈ splitWsGo false (d :: ds), g ≠ []) :=
        fun hd => i2 d ds rfl hd
      by_cases hc : isWhitespace c = true
      · have e1 : splitWsGo true (c :: d :: ds) = splitWsGo true (d :: ds) := by
          simp [splitWsGo, hc]
        have e2 : splitWsGo false (c :: d :: ds) = [] :: splitWsGo true (d :: ds) := by
          simp [splitWsGo, hc]
        refine ⟨by rw [e1]; exact i1, ?_, ?_⟩
        · intro c1 r he hw
          simp only [List.cons.injEq] at he
          rw [← he.1, hc] at hw
          exact absurd hw (by decide)
        · intro c1 r _ _
          exact ⟨_, e2, i1⟩
      · have hcf : isWhitespace c = false := by
          cases hh : isWhitespace c with
          | true => exact absurd hh hc
          | false => rfl
        have key : ∀ flag, ∀ g ∈ splitWsGo flag (c :: d :: ds), g ≠ [] := by
          intro flag g hg
          rw [splitWsGo] at hg
          simp only [hcf, Bool.false_eq_true, if_false] at hg
          by_cases hd : isWhitespace d = true
          · obtain ⟨rest, hr, hrest⟩ := i3 d ds rfl hd
            rw [hr] at hg
            rcases List.mem_cons.1 hg with h1 | h1
            · rw [h1]; simp
            · exact hrest g h1
          · have hdf : isWhitespace d = false := by
              cases hh : isWhitespace d with
              | true => exact absurd hh hd
              | false => rfl
            have hall := i2 d ds rfl hdf
            cases hsp : splitWsGo false (d :: ds) with
            | nil =>
              rw [hsp] at hg
              simp at hg
              rw [hg]; simp
            | cons g0 gs =>
              rw [hsp] at hg hall
              rcases List.mem_cons.1 hg with h1 | h1
              · rw [h1]; simp
              · exact hall g (List.mem_cons_of_mem _ h1)
        refine ⟨key true, fun _ _ _ _ => key false, ?_⟩
        intro c1 r he hw
        simp only [List.cons.injEq] at he
        rw [← he.1, hcf] at hw
        exact absurd hw (by decide)

/-- The groups of a non-empty trimmed string are all non-empty. -/
theorem groups_nonempty_of_trim_ne_nil (s : List Char) (h : trim s ≠ []) :
    ∀ g ∈ splitWs (trim s), g ≠ [] := by
  obtain ⟨⟨c, t, hct, hc⟩, ⟨t2, x, htx, hx⟩⟩ := trim_head_last s h
  exact (splitWsGo_groups_nonempty (trim s) t2 x htx hx).2.1 c t hct hc

namespace BCDArithmeticModule

/-- The operands called valid and non-empty throughout are exactly the
non-blank strings that `isValidBCD` accepts. -/
theorem validOperand_iff (s : List Char) :
    ValidOperand s ↔ isValidBCD s = true ∧ trim s ≠ [] := by
  constructor
  · intro hv
    constructor
    · unfold isValidBCD
      simp only [List.all_eq_true]
      intro g hg
      have hg1 : g ∈ splitWs (trim s) := (List.mem_filter.1 hg).1
      have hval := hv g hg1
      rw [parseInt_validGroup g hval]
      obtain ⟨hl, hb, h9⟩ := hval
      simp only [Bool.and_eq_true, beq_iff_eq, List.all_eq_true, Bool.or_eq_true,
        decide_eq_true_eq]
      exact ⟨⟨hl, fun c hc => hb c hc⟩, h9⟩
    · intro he
      have : ([] : List Char) ∈ splitWs (trim s) := by
        rw [he]; decide
      have := (hv [] this).1
      simp at this
  · rintro ⟨hval, hne⟩ g hg
    have hgne := groups_nonempty_of_trim_ne_nil s hne g hg
    unfold isValidBCD at hval
    simp only [List.all_eq_true] at hval
    have hmem : g ∈ (splitWs (trim s)).filter (fun g => decide (g.length > 0)) := by
      rw [List.mem_filter]
      refine ⟨hg, ?_⟩
      cases g with
      | nil => exact absurd rfl hgne
      | cons a b => simp
    have h := hval g hmem
    simp only [Bool.and_eq_true, beq_iff_eq, List.all_eq_true, Bool.or_eq_true] at h
    obtain ⟨⟨hl, hb⟩, hp⟩ := h
    have hbits : AllBits g := fun c hc => hb c hc
    have hv16 := radixValue_four_bits g hl hbits
    rw [parseInt_bits g hbits hgne (by omega)] at hp
    exact ⟨hl, hbits, by simpa using hp⟩

/-- Every non-blank string that `isValidBCD` accepts is decoded by
`bcdToDecimal` to a non-empty string of decimal digits, one per group. -/
theorem bcdToDecimal_of_accepted (s : List Char) (hval : isValidBCD s = true)
    (hne : trim s ≠ []) :
    isDecimal (bcdToDecimal s) = true ∧ (bcdToDecimal s).length = (groupsOf s).length := by
  have hv : ValidOperand s := (validOperand_iff s).2 ⟨hval, hne⟩
  rw [bcdToDecimal_valid s hv]
  refine ⟨?_, by simp⟩
  simp only [isDecimal, Bool.and_eq_true, Bool.not_eq_true', List.isEmpty_eq_false,
    List.all_eq_true, decide_eq_true_eq]
  constructor
  · intro h
    exact groupsOf_ne_nil s (List.map_eq_nil_iff.1 h)
  · intro c hc
    obtain ⟨g, hg, rfl⟩ := List.mem_map.1 hc
    have h9 : radixValue 2 g ≤ 9 := (hv g hg).2.2
    generalize radixValue 2 g = d at h9
    interval_cases d <;> decide

end BCDArithmeticModule

end NumberSystems



